import Mathlib

/-!
# A Unix-like file system: the file API of `fs.c`

A shallow embedding of `fs.c` (fsSeek, fsTell, fsSize, fsRead, fsWrite, fsOpen,
fsCreate, fsClose, fsFormat) over an explicit volume state.

* C `i32` values are `Int`; every `+` and `-` of `fs.c` goes through `add32` /
  `sub32`, which wrap modulo `2^32`; `/` and `%` are the truncating `Int.tdiv` and
  `Int.tmod`.
* `FATAL(e)` aborts the process: an operation returns `Res.fatal e s`, where `s`
  is the state at the abort.
* The helpers declared in `bfs.h` (`bfs*`, `bio*`, the constants) are not part of
  `fs.c`; they are modelled from the written specification and marked as such.
-/

namespace BFS

/-! ## Machine integers -/

/-- The value of a mathematical integer once stored in a 32-bit signed `i32`. -/
def wrap32 (x : Int) : Int := (x + 2147483648) % 4294967296 - 2147483648

/-- The `+` of `i32`. -/
def add32 (a b : Int) : Int := wrap32 (a + b)

/-- The `-` of `i32`. -/
def sub32 (a b : Int) : Int := wrap32 (a - b)

/-- The predicate "fits an `i32`". -/
def isI32 (x : Int) : Prop := -2147483648 ≤ x ∧ x < 2147483648

instance (x : Int) : Decidable (isI32 x) := by
  unfold isI32; exact inferInstance

/-- The `whence` values of `<stdio.h>`. -/
def SEEK_SET : Int := 0

/-- The `whence` value "relative to the cursor". -/
def SEEK_CUR : Int := 1

/-- The `whence` value "relative to the end of the file". -/
def SEEK_END : Int := 2

/-! ## Data model -/

/-- Modelled from the spec: the superblock of §3, the volume geometry written at
format time (`bfs.h` is not among the sources). -/
structure Super where
  numBlocks : Nat
  inodeStart : Nat
  inodeBlocks : Nat
  dirStart : Nat
  dataStart : Nat

/-- Modelled from the spec: the compile-time constants of `bfs.h`, which `fs.c`
uses but does not define: the block size, the capacity of an inode's
block-pointer list (§3 "bounded list", §9 "implicit bound"), the capacities of the
inode table and of the open file table, and the layout recorded in the
superblock. -/
structure Geom where
  BYTESPERBLOCK : Int
  NUMFBNS : Int
  NUMINODES : Nat
  NUMOFTENTRIES : Nat
  super : Super

/-- A geometry that a C build can have: a positive block size, and a largest file
(`NUMFBNS` blocks) whose byte size fits the `i32` size field of an inode. -/
def Geom.WF (g : Geom) : Prop :=
  0 < g.BYTESPERBLOCK ∧ g.BYTESPERBLOCK < 2147483648 ∧
    0 ≤ g.NUMFBNS ∧ g.NUMFBNS * g.BYTESPERBLOCK < 2147483648

instance (g : Geom) : Decidable g.WF := by
  unfold Geom.WF; exact inferInstance

/-- The outcomes that end an operation early. The first four are named in `fs.c`;
`EDISKFULL`, `ENOINODE`, `EOFTFULL` are the capacity errors of spec §7;
`EBADFD`, `EBADFBN`, `EFAULT` stand for behaviour that C leaves undefined (a
descriptor that is not open, an FBN outside the inode's block-pointer list, a
`memcpy` outside the one-block buffer); `ENOTERM` stands for a copy loop that
makes no progress. -/
inductive Err where
  | EFNF | ENEGNUMB | EBADCURS | EBADWHENCE
  | EDISKFULL | ENOINODE | EOFTFULL
  | EBADFD | EBADFBN | EFAULT | ENOTERM
  deriving DecidableEq

/-- Modelled from the spec: the inode of §3: in-use flag, byte size, and the list
of data-block numbers indexed by FBN, where `none` is an unpopulated slot. -/
structure Inode where
  inuse : Bool
  size : Int
  dbns : List (Option Int)

/-- Modelled from the spec: an entry of the open file table `g_oft` (§3): inode
number, cursor, reference count. A slot whose `refs` is not positive is vacant. -/
structure OFTE where
  inum : Int
  curs : Int
  refs : Int

/-- The volume: the disk image seen through the block adapter (`disk dbn` is the
content of block `dbn`, byte `j` of it is `disk dbn j`), the inode table, the
directory, the free list and the in-memory open file table. -/
structure Bfs where
  disk : Int → Int → Int
  super : Option Super
  inodes : Int → Inode
  dir : List (String × Int)
  freeList : List Int
  g_oft : List OFTE

/-- The result of an operation of the API: a returned value and the state after
it, or `FATAL(e)` and the state at the abort. -/
inductive Res (α : Type) where
  | ok (v : α) (s : Bfs)
  | fatal (e : Err) (s : Bfs)

/-- The outcome of one pass through a loop body. -/
inductive Step (σ : Type) where
  | done (st : σ)
  | next (st : σ)
  | abort (e : Err) (st : σ)

/-- A `while` loop run for at most `fuel + 1` evaluations of its body. -/
def iter {σ : Type} (body : σ → Step σ) : Nat → σ → Except (Err × σ) σ
  | 0, st =>
    match body st with
    | .done r => .ok r
    | .next st1 => .error (.ENOTERM, st1)
    | .abort e st1 => .error (e, st1)
  | fuel + 1, st =>
    match body st with
    | .done r => .ok r
    | .next st1 => iter body fuel st1
    | .abort e st1 => .error (e, st1)

/-! ## Helpers of `bfs.h` and `bio.h`, modelled from the spec -/

/-- Modelled from the spec: `memcpy(dst + doff, src + soff, n)` on buffers seen as
functions from index to byte. -/
def memcpy (dst : Int → Int) (doff : Int) (src : Int → Int) (soff n : Int) : Int → Int :=
  fun j => if doff ≤ j ∧ j < doff + n then src (soff + (j - doff)) else dst j

/-- Modelled from the spec: `readBlock(dbn)` of the block adapter (§6). -/
def bioRead (s : Bfs) (dbn : Int) : Int → Int := s.disk dbn

/-- Modelled from the spec: `writeBlock(dbn, buffer)` of the block adapter (§6). -/
def bioWrite (s : Bfs) (dbn : Int) (buf : Int → Int) : Bfs :=
  { s with disk := Function.update s.disk dbn buf }

/-- The entry of a block-pointer list at an FBN (`none`: unpopulated). -/
def getFbn : List (Option Int) → Nat → Option Int
  | [], _ => none
  | x :: _, 0 => x
  | _ :: xs, n + 1 => getFbn xs n

/-- Record a DBN at an FBN, extending the list with unpopulated slots if needed. -/
def setFbn : List (Option Int) → Nat → Int → List (Option Int)
  | [], 0, d => [some d]
  | [], n + 1, d => none :: setFbn [] n d
  | _ :: xs, 0, d => some d :: xs
  | x :: xs, n + 1, d => x :: setFbn xs n d

/-- Modelled from the spec: `fbnToDbn(inode, fbn) → dbn | NotAllocated` (§4.1);
`none` is the `ENODBN` of `fs.c`. -/
def bfsFbnToDbn (s : Bfs) (inum fbn : Int) : Option Int :=
  if fbn < 0 then none else getFbn (s.inodes inum).dbns fbn.toNat

/-- Modelled from the spec: `allocBlock(inode, fbn) → dbn` (§4.1): take a block
from the free list (`DiskFull` if there is none) and record it at position `fbn`,
leaving the slots skipped over unpopulated. An `fbn` outside the inode's list is
undefined in the reference design (§9) and aborts here. -/
def bfsAllocBlock (g : Geom) (s : Bfs) (inum fbn : Int) : Except Err (Int × Bfs) :=
  match s.freeList with
  | [] => .error .EDISKFULL
  | dbn :: rest =>
    if fbn < 0 ∨ g.NUMFBNS ≤ fbn then .error .EBADFBN
    else
      let ino := s.inodes inum
      .ok (dbn, { s with
        freeList := rest
        inodes := Function.update s.inodes inum
          { ino with dbns := setFbn ino.dbns fbn.toNat dbn } })

/-- Modelled from the spec: `getSize(inum)` (§4.3). -/
def bfsGetSize (s : Bfs) (inum : Int) : Int := (s.inodes inum).size

/-- Modelled from the spec: `setSize(inum, bytes)` (§4.3). -/
def bfsSetSize (s : Bfs) (inum size : Int) : Bfs :=
  { s with inodes := Function.update s.inodes inum { s.inodes inum with size := size } }

/-- Modelled from the spec: a descriptor is bound to one entry of the open file
table (§3); here it is the index of that entry. `none`: `fd` is not open. -/
def bfsFdToInum (s : Bfs) (fd : Int) : Option Int :=
  if fd < 0 then none
  else match s.g_oft[fd.toNat]? with
    | some e => if 0 < e.refs then some e.inum else none
    | none => none

/-- The index of the first occupied entry of a table that is bound to `inum`. -/
def findOFTE : List OFTE → Int → Option Nat
  | [], _ => none
  | e :: es, inum =>
    if 0 < e.refs ∧ e.inum = inum then some 0 else (findOFTE es inum).map (· + 1)

/-- Modelled from the spec: the entry of `g_oft` for `inum` (§3: at most one). -/
def bfsFindOFTE (s : Bfs) (inum : Int) : Option Nat := findOFTE s.g_oft inum

/-- The table with `f` applied to the cursor of entry `ofte`:
`g_oft[ofte].curs = f (g_oft[ofte].curs)`. -/
def updCurs : List OFTE → Nat → (Int → Int) → List OFTE
  | [], _, _ => []
  | e :: es, 0, f => { e with curs := f e.curs } :: es
  | e :: es, n + 1, f => e :: updCurs es n f

/-- Modelled from the spec: `tell(descriptor) → cursor` (§4.5), the cursor of the
entry found for the descriptor's inode. -/
def bfsTell (s : Bfs) (fd : Int) : Option Int :=
  match bfsFdToInum s fd with
  | none => none
  | some inum =>
    match bfsFindOFTE s inum with
    | none => none
    | some ofte => (s.g_oft[ofte]?).map (·.curs)

/-! ## `fs.c` -/

/-- Source `fsSize`: the size of the file open on `fd`. -/
def fsSize (s : Bfs) (fd : Int) : Res Int :=
  match bfsFdToInum s fd with
  | none => .fatal .EBADFD s
  | some inum => .ok (bfsGetSize s inum) s

/-- Source `fsTell`: the cursor of the file open on `fd`. -/
def fsTell (s : Bfs) (fd : Int) : Res Int :=
  match bfsTell s fd with
  | none => .fatal .EBADFD s
  | some c => .ok c s

/-- Source `fsSeek`. -/
def fsSeek (s : Bfs) (fd offset whence : Int) : Res Int :=
  if offset < 0 then .fatal .EBADCURS s
  else
    match bfsFdToInum s fd with
    | none => .fatal .EBADFD s
    | some inum =>
      match bfsFindOFTE s inum with
      | none => .fatal .EBADFD s
      | some ofte =>
        if whence = SEEK_SET then
          .ok 0 { s with g_oft := updCurs s.g_oft ofte (fun _ => offset) }
        else if whence = SEEK_CUR then
          .ok 0 { s with g_oft := updCurs s.g_oft ofte (fun curs => add32 curs offset) }
        else if whence = SEEK_END then
          match fsSize s fd with
          | .fatal e s1 => .fatal e s1
          | .ok fend s1 =>
            .ok 0 { s1 with g_oft := updCurs s1.g_oft ofte (fun _ => add32 fend offset) }
        else .fatal .EBADWHENCE s

/-- The body of the `while` loop of `fsRead`; the loop state is `bytesRead` and
the caller's buffer. -/
def fsReadBody (g : Geom) (s : Bfs) (inum cursor fileSize numb : Int)
    (st : Int × (Int → Int)) : Step (Int × (Int → Int)) :=
  let bytesRead := st.1
  let buf := st.2
  if ¬ bytesRead < numb then .done st
  else if add32 cursor bytesRead ≥ fileSize then .done st
  else
    let currentFbn := (add32 cursor bytesRead).tdiv g.BYTESPERBLOCK
    match bfsFbnToDbn s inum currentFbn with
    | none => .done st
    | some dbn =>
      let readBuf := bioRead s dbn
      let blockOffset := (add32 cursor bytesRead).tmod g.BYTESPERBLOCK
      let remaining :=
        if sub32 numb bytesRead < sub32 fileSize (add32 cursor bytesRead)
        then sub32 numb bytesRead else sub32 fileSize (add32 cursor bytesRead)
      let bytesToRead :=
        if sub32 g.BYTESPERBLOCK blockOffset < remaining
        then sub32 g.BYTESPERBLOCK blockOffset else remaining
      if blockOffset < 0 ∨ bytesToRead < 0 then .abort .EFAULT st
      else .next (add32 bytesRead bytesToRead,
                  memcpy buf bytesRead readBuf blockOffset bytesToRead)

/-- Source `fsRead`: the returned count and the caller's buffer afterwards. -/
def fsRead (g : Geom) (s : Bfs) (fd numb : Int) (buf : Int → Int) :
    Res (Int × (Int → Int)) :=
  if numb < 0 then .fatal .ENEGNUMB s
  else
    match bfsFdToInum s fd with
    | none => .fatal .EBADFD s
    | some inum =>
      match bfsTell s fd with
      | none => .fatal .EBADFD s
      | some cursor =>
        let fileSize := bfsGetSize s inum
        match iter (fsReadBody g s inum cursor fileSize numb) numb.toNat (0, buf) with
        | .error (e, _) => .fatal e s
        | .ok (bytesRead, buf1) =>
          match fsSeek s fd bytesRead SEEK_CUR with
          | .fatal e s1 => .fatal e s1
          | .ok _ s1 => .ok (bytesRead, buf1) s1

/-- The body of the `while` loop of `fsWrite`; the loop state is `bytesWritten`
and the volume. An uninitialised `writeBuf` is all zero. -/
def fsWriteBody (g : Geom) (inum cursor numb : Int) (buf : Int → Int)
    (st : Int × Bfs) : Step (Int × Bfs) :=
  let bytesWritten := st.1
  let s := st.2
  if ¬ bytesWritten < numb then .done st
  else
    let fbn := (add32 cursor bytesWritten).tdiv g.BYTESPERBLOCK
    let alloc : Except Err (Int × Bfs) :=
      match bfsFbnToDbn s inum fbn with
      | some dbn => .ok (dbn, s)
      | none => bfsAllocBlock g s inum fbn
    match alloc with
    | .error e => .abort e st
    | .ok (dbn, s1) =>
      let blockOffset := (add32 cursor bytesWritten).tmod g.BYTESPERBLOCK
      let bytesInBlock :=
        if sub32 g.BYTESPERBLOCK blockOffset < sub32 numb bytesWritten
        then sub32 g.BYTESPERBLOCK blockOffset else sub32 numb bytesWritten
      let writeBuf : Int → Int :=
        if bytesInBlock < g.BYTESPERBLOCK then bioRead s1 dbn else fun _ => 0
      if blockOffset < 0 ∨ bytesInBlock < 0 then .abort .EFAULT (bytesWritten, s1)
      else
        let writeBuf1 := memcpy writeBuf blockOffset buf bytesWritten bytesInBlock
        .next (add32 bytesWritten bytesInBlock, bioWrite s1 dbn writeBuf1)

/-- Source `fsWrite`. -/
def fsWrite (g : Geom) (s : Bfs) (fd numb : Int) (buf : Int → Int) : Res Int :=
  if numb < 0 then .fatal .ENEGNUMB s
  else
    match bfsFdToInum s fd with
    | none => .fatal .EBADFD s
    | some inum =>
      match bfsTell s fd with
      | none => .fatal .EBADFD s
      | some cursor =>
        match iter (fsWriteBody g inum cursor numb buf) numb.toNat (0, s) with
        | .error (e, st) => .fatal e st.2
        | .ok (bytesWritten, s1) =>
          match fsSeek s1 fd bytesWritten SEEK_CUR with
          | .fatal e s2 => .fatal e s2
          | .ok _ s2 =>
            let newSize := add32 cursor bytesWritten
            if newSize > bfsGetSize s2 inum then .ok 0 (bfsSetSize s2 inum newSize)
            else .ok 0 s2

/-- Modelled from the spec: `lookup(name) → inum | NotFound` of the directory
(§4.4); `none` is the `EFNF` of `fs.c`. -/
def bfsLookupFile (s : Bfs) (fname : String) : Option Int := s.dir.lookup fname

/-- The table with `f` applied to the reference count of entry `ofte`. -/
def updRefs : List OFTE → Nat → (Int → Int) → List OFTE
  | [], _, _ => []
  | e :: es, 0, f => { e with refs := f e.refs } :: es
  | e :: es, n + 1, f => e :: updRefs es n f

/-- The index of the first vacant entry of the open file table. -/
def findFreeOFTE : List OFTE → Option Nat
  | [] => none
  | e :: es => if 0 < e.refs then (findFreeOFTE es).map (· + 1) else some 0

/-- Modelled from the spec: `open(inum) → descriptor` of the open file table
(§4.5): an entry that exists for `inum` gets one more reference, otherwise the
first vacant entry is taken with cursor 0 and one reference; a full table is
`TooManyOpenFiles`. -/
def bfsInumToFd (s : Bfs) (inum : Int) : Except Err (Int × Bfs) :=
  match findOFTE s.g_oft inum with
  | some ofte =>
    .ok (ofte, { s with g_oft := updRefs s.g_oft ofte (fun refs => refs + 1) })
  | none =>
    match findFreeOFTE s.g_oft with
    | some ofte =>
      .ok (ofte, { s with g_oft := s.g_oft.set ofte { inum := inum, curs := 0, refs := 1 } })
    | none => .error .EOFTFULL

/-- Modelled from the spec: `close(descriptor)` of the open file table (§4.5):
one reference less; an entry without references is vacant. -/
def bfsDerefOFT (s : Bfs) (inum : Int) : Bfs :=
  match findOFTE s.g_oft inum with
  | some ofte =>
    { s with g_oft := updRefs s.g_oft ofte (fun refs => refs - 1) }
  | none => s

/-- The first inode number below `n` whose inode is not in use. -/
def findFreeInode (inodes : Int → Inode) (n : Nat) : Option Int :=
  ((List.range n).find? (fun i => !(inodes (i : Int)).inuse)).map (fun i => (i : Int))

/-- Modelled from the spec: directory create with overwrite (§4.4, §4.6): an
existing name keeps its inode, which is reinitialised to a zero-length file (its
blocks are not released: §3 releases blocks at format only); a new name takes an
unused inode (`NoFreeInode` if there is none) and a directory entry. -/
def bfsCreateFile (g : Geom) (s : Bfs) (fname : String) : Except Err (Option Int × Bfs) :=
  match bfsLookupFile s fname with
  | some inum =>
    .ok (some inum, { s with
      inodes := Function.update s.inodes inum { inuse := true, size := 0, dbns := [] } })
  | none =>
    match findFreeInode s.inodes g.NUMINODES with
    | none => .error .ENOINODE
    | some inum =>
      .ok (some inum, { s with
        inodes := Function.update s.inodes inum { inuse := true, size := 0, dbns := [] }
        dir := s.dir ++ [(fname, inum)] })

/-- Source `fsClose`. -/
def fsClose (s : Bfs) (fd : Int) : Res Int :=
  match bfsFdToInum s fd with
  | none => .fatal .EBADFD s
  | some inum => .ok 0 (bfsDerefOFT s inum)

/-- Source `fsCreate`; the returned `none` is `EFNF`. -/
def fsCreate (g : Geom) (s : Bfs) (fname : String) : Res (Option Int) :=
  match bfsCreateFile g s fname with
  | .error e => .fatal e s
  | .ok (none, s1) => .ok none s1
  | .ok (some inum, s1) =>
    match bfsInumToFd s1 inum with
    | .error e => .fatal e s1
    | .ok (fd, s2) => .ok (some fd) s2

/-- Source `fsOpen`; the returned `none` is `EFNF`. -/
def fsOpen (s : Bfs) (fname : String) : Res (Option Int) :=
  match bfsLookupFile s fname with
  | none => .ok none s
  | some inum =>
    match bfsInumToFd s inum with
    | .error e => .fatal e s
    | .ok (fd, s1) => .ok (some fd) s1

/-- Modelled from the spec: `bfsInitSuper` (§4.6 format): write the superblock. -/
def bfsInitSuper (g : Geom) (s : Bfs) : Bfs := { s with super := some g.super }

/-- Modelled from the spec: `bfsInitInodes` (§4.6 format): all slots empty. -/
def bfsInitInodes (s : Bfs) : Bfs :=
  { s with inodes := fun _ => { inuse := false, size := 0, dbns := [] } }

/-- Modelled from the spec: `bfsInitDir` (§4.6 format): the empty directory. -/
def bfsInitDir (s : Bfs) : Bfs := { s with dir := [] }

/-- Modelled from the spec: `bfsInitFreeList` (§4.6 format): all data blocks
free, the data region being the blocks from `dataStart` to the last one. -/
def bfsInitFreeList (g : Geom) (s : Bfs) : Bfs :=
  let blocks := (List.range (g.super.numBlocks - g.super.dataStart)).map
    (fun i => ((g.super.dataStart + i : Nat) : Int))
  { s with freeList := blocks }

/-- Source `fsFormat`; the image file is created empty (`"w+b"`), which always
succeeds here. -/
def fsFormat (g : Geom) (s : Bfs) : Res Int :=
  let s0 := { s with disk := fun _ _ => 0 }
  let s1 := bfsInitSuper g s0
  let s2 := bfsInitInodes s1
  let s3 := bfsInitDir s2
  let s4 := bfsInitFreeList g s3
  .ok 0 s4

/-- The state of a process that has not yet touched the volume: every entry of
the global `g_oft` is zero. -/
def boot (g : Geom) : Bfs where
  disk := fun _ _ => 0
  super := none
  inodes := fun _ => { inuse := false, size := 0, dbns := [] }
  dir := []
  freeList := []
  g_oft := List.replicate g.NUMOFTENTRIES { inum := 0, curs := 0, refs := 0 }

/-- The value returned by an operation, when it returned. -/
def Res.val? {α : Type} : Res α → Option α
  | .ok v _ => some v
  | .fatal _ _ => none

/-- The state an operation leaves: after its return, or at its abort. -/
def Res.state {α : Type} : Res α → Bfs
  | .ok _ s => s
  | .fatal _ s => s

/-- The error of an operation that aborted. -/
def Res.err? {α : Type} : Res α → Option Err
  | .ok _ _ => none
  | .fatal e _ => some e

/-! ## Invariants and reachable volumes -/

/-- Byte `p` of the file of inode `inum`, as `fsRead` copies it: the byte at
`p % BYTESPERBLOCK` of the block mapped to FBN `p / BYTESPERBLOCK`; `none` when
that FBN has no block. -/
def fileByte (g : Geom) (s : Bfs) (inum p : Int) : Option Int :=
  (bfsFbnToDbn s inum (p / g.BYTESPERBLOCK)).map (fun dbn => s.disk dbn (p % g.BYTESPERBLOCK))

/-- The block invariant of a volume (spec §3, free list and inode): the free list
has no block twice, a block that an inode maps is not free, no block is mapped by
two (inode, FBN) slots, and no block-pointer list is longer than `NUMFBNS`. -/
def VolInv (g : Geom) (s : Bfs) : Prop :=
  s.freeList.Nodup ∧
  (∀ i f d, bfsFbnToDbn s i f = some d → d ∉ s.freeList) ∧
  (∀ i1 f1 i2 f2 d, bfsFbnToDbn s i1 f1 = some d → bfsFbnToDbn s i2 f2 = some d →
    i1 = i2 ∧ f1 = f2) ∧
  (∀ i, ((s.inodes i).dbns.length : Int) ≤ g.NUMFBNS)

/-- The invariant of the loop of `fsWrite`, started in `s0` at cursor `c`, when
`bytesWritten = st.1` and the volume is `st.2`: the bytes written so far are on
the disk, every other byte of a block mapped in `s0` is as in `s0`, and nothing
but the disk, the block map of `inum` and the free list has changed. -/
def WInv (g : Geom) (s0 : Bfs) (inum c numb : Int) (buf : Int → Int) (st : Int × Bfs) : Prop :=
  0 ≤ st.1 ∧ st.1 ≤ numb ∧
  (st.1 = 0 ∨ (0 ≤ c ∧ c + st.1 ≤ g.NUMFBNS * g.BYTESPERBLOCK ∧
    (st.1 < numb → (c + st.1) % g.BYTESPERBLOCK = 0))) ∧
  VolInv g st.2 ∧
  st.2.g_oft = s0.g_oft ∧ st.2.dir = s0.dir ∧ st.2.super = s0.super ∧
  (∀ i, (st.2.inodes i).size = (s0.inodes i).size) ∧
  (∀ i, i ≠ inum → st.2.inodes i = s0.inodes i) ∧
  (∀ i f d, bfsFbnToDbn s0 i f = some d → bfsFbnToDbn st.2 i f = some d) ∧
  (∀ j, 0 ≤ j → j < st.1 → ∃ d,
    bfsFbnToDbn st.2 inum ((c + j) / g.BYTESPERBLOCK) = some d ∧
    st.2.disk d ((c + j) % g.BYTESPERBLOCK) = buf j) ∧
  (∀ i f d off, bfsFbnToDbn s0 i f = some d → 0 ≤ off → off < g.BYTESPERBLOCK →
    (i = inum → f * g.BYTESPERBLOCK + off < c ∨ c + st.1 ≤ f * g.BYTESPERBLOCK + off) →
    st.2.disk d off = s0.disk d off)

/-- A volume with its block invariant whose cursors and sizes are non-negative and
fit an `i32`. -/
def CursInv (g : Geom) (s : Bfs) : Prop :=
  VolInv g s ∧ (∀ e ∈ s.g_oft, 0 ≤ e.curs ∧ e.curs < 2147483648) ∧
  (∀ i, 0 ≤ (s.inodes i).size ∧ (s.inodes i).size < 2147483648)

/-- The states reached from `s0` by calls of `fsSeek`, `fsRead` and `fsWrite` that
return, with arguments that fit an `i32`, where the sum that `fsSeek` stores
(`curs + offset` for SEEK_CUR, `end + offset` for SEEK_END) fits an `i32`. -/
inductive CursReach (g : Geom) (s0 : Bfs) : Bfs → Prop where
  | init : CursReach g s0 s0
  | seek (s s1 : Bfs) (fd offset whence v : Int) :
      CursReach g s0 s → offset < 2147483648 → fsSeek s fd offset whence = .ok v s1 →
      (whence = SEEK_CUR → ∀ c, bfsTell s fd = some c → c + offset < 2147483648) →
      (whence = SEEK_END → ∀ inum, bfsFdToInum s fd = some inum →
        bfsGetSize s inum + offset < 2147483648) →
      CursReach g s0 s1
  | read (s s1 : Bfs) (fd numb : Int) (buf : Int → Int) (r : Int × (Int → Int)) :
      CursReach g s0 s → numb < 2147483648 → fsRead g s fd numb buf = .ok r s1 →
      CursReach g s0 s1
  | write (s s1 : Bfs) (fd numb v : Int) (buf : Int → Int) :
      CursReach g s0 s → numb < 2147483648 → fsWrite g s fd numb buf = .ok v s1 →
      CursReach g s0 s1

/-- The cursors and the sizes of a volume fit an `i32`. -/
def WellTyped (s : Bfs) : Prop :=
  (∀ e ∈ s.g_oft, isI32 e.curs) ∧ (∀ i, isI32 (s.inodes i).size)

/-- The volumes reached from a formatted volume by calls of the API that return,
with byte counts and offsets that fit an `i32`. -/
inductive Reach (g : Geom) : Bfs → Prop where
  | fresh : Reach g (fsFormat g (boot g)).state
  | format (s : Bfs) : Reach g s → Reach g (fsFormat g s).state
  | create (s s1 : Bfs) (fname : String) (r : Option Int) :
      Reach g s → fsCreate g s fname = .ok r s1 → Reach g s1
  | opened (s s1 : Bfs) (fname : String) (r : Option Int) :
      Reach g s → fsOpen s fname = .ok r s1 → Reach g s1
  | closed (s s1 : Bfs) (fd v : Int) :
      Reach g s → fsClose s fd = .ok v s1 → Reach g s1
  | seek (s s1 : Bfs) (fd offset whence v : Int) :
      Reach g s → isI32 offset → fsSeek s fd offset whence = .ok v s1 → Reach g s1
  | read (s s1 : Bfs) (fd numb : Int) (buf : Int → Int) (r : Int × (Int → Int)) :
      Reach g s → isI32 numb → fsRead g s fd numb buf = .ok r s1 → Reach g s1
  | write (s s1 : Bfs) (fd numb v : Int) (buf : Int → Int) :
      Reach g s → isI32 numb → fsWrite g s fd numb buf = .ok v s1 → Reach g s1

/-! ## Example volumes -/

/-- A small geometry for examples: blocks of 4 bytes, at most 8 blocks per file,
4 inodes, 3 open files, 16 blocks of which the last 10 are data blocks. -/
def g4 : Geom where
  BYTESPERBLOCK := 4
  NUMFBNS := 8
  NUMINODES := 4
  NUMOFTENTRIES := 3
  super := { numBlocks := 16, inodeStart := 1, inodeBlocks := 4, dirStart := 5, dataStart := 6 }

/-- The volume `g4` right after `fsFormat`, in a process that has nothing open. -/
def volFresh : Bfs := (fsFormat g4 (boot g4)).state

/-- The volume after `fsCreate("a.txt")`: descriptor 0 is open on it, cursor 0. -/
def volA : Bfs := (fsCreate g4 volFresh "a.txt").state

/-- The volume after `fsSeek(0, 2147483647, SEEK_SET)` on `volA`. -/
def volMax : Bfs := (fsSeek volA 0 2147483647 SEEK_SET).state

/-- The volume after `fsWrite(0, 6, buf)` on `volA` with `buf[i] = 10 + i`: the
file holds the bytes 10 .. 15 in two blocks and the cursor is 6. -/
def volW : Bfs := (fsWrite g4 volA 0 6 (fun i => 10 + i)).state

/-- The volume `volW` after `fsSeek(0, 1, SEEK_SET)`: cursor 1. -/
def volR : Bfs := (fsSeek volW 0 1 SEEK_SET).state

/-- The volume after `fsWrite(0, 13, buf)` on `volA`, 13 = 3 * 4 + 1 bytes 0xAB. -/
def volBig : Bfs := (fsWrite g4 volA 0 13 (fun _ => 171)).state

/-- The volume after `fsWrite(0, 10, buf)` on `volA` with `buf[i] = 100 + i`,
followed by `fsSeek(0, 5, SEEK_SET)`. -/
def volT5 : Bfs :=
  (fsSeek (fsWrite g4 volA 0 10 (fun i => 100 + i)).state 0 5 SEEK_SET).state

/-- The volume after `fsWrite(0, 10, buf)` on `volT5` with `buf[i] = 200 + i`. -/
def volT15 : Bfs := (fsWrite g4 volT5 0 10 (fun i => 200 + i)).state

/-- The volume after `fsWrite(0, 9, buf)` on `volR` with `buf[i] = 50 + i`. -/
def volR10 : Bfs := (fsWrite g4 volR 0 9 (fun i => 50 + i)).state

/-- The volume after `fsSeek(0, 8, SEEK_SET)`, `fsWrite(0, 1, buf)` and
`fsSeek(0, 0, SEEK_SET)` on `volA`: a file of size 9 whose only block is the one of
FBN 2, with the cursor at 0. -/
def volHole : Bfs :=
  (fsSeek (fsWrite g4 (fsSeek volA 0 8 SEEK_SET).state 0 1 (fun _ => 7)).state 0 0 SEEK_SET).state

/-- The loop states after `n` passes through a loop body that went on, from the
initial state `st0`. -/
inductive LoopReach {σ : Type} (body : σ → Step σ) (st0 : σ) : Nat → σ → Prop where
  | start : LoopReach body st0 0 st0
  | next (n : Nat) (st st1 : σ) :
      LoopReach body st0 n st → body st = .next st1 → LoopReach body st0 (n + 1) st1

/-- Source `blockOffset` of a pass of the loops of `fsRead` and `fsWrite`. -/
def blockOffset (g : Geom) (cursor bytesDone : Int) : Int :=
  (add32 cursor bytesDone).tmod g.BYTESPERBLOCK

/-- Source `bytesToRead` of a pass of the loop of `fsRead`. -/
def bytesToRead (g : Geom) (cursor fileSize numb bytesRead : Int) : Int :=
  let remaining :=
    if sub32 numb bytesRead < sub32 fileSize (add32 cursor bytesRead)
    then sub32 numb bytesRead else sub32 fileSize (add32 cursor bytesRead)
  if sub32 g.BYTESPERBLOCK (blockOffset g cursor bytesRead) < remaining
  then sub32 g.BYTESPERBLOCK (blockOffset g cursor bytesRead) else remaining

/-- Source `bytesInBlock` of a pass of the loop of `fsWrite`. -/
def bytesInBlock (g : Geom) (cursor numb bytesWritten : Int) : Int :=
  if sub32 g.BYTESPERBLOCK (blockOffset g cursor bytesWritten) < sub32 numb bytesWritten
  then sub32 g.BYTESPERBLOCK (blockOffset g cursor bytesWritten) else sub32 numb bytesWritten

/-- A geometry with a single data block: as `g4`, with 7 blocks of which the last
one is the data region. -/
def g1 : Geom where
  BYTESPERBLOCK := 4
  NUMFBNS := 8
  NUMINODES := 4
  NUMOFTENTRIES := 3
  super := { numBlocks := 7, inodeStart := 1, inodeBlocks := 4, dirStart := 5, dataStart := 6 }

/-- The volume `g1` after `fsFormat`, `fsCreate("a.txt")`, `fsWrite(0, 4, buf)` with
`buf[i] = 10 + i` and `fsSeek(0, 0, SEEK_SET)`: the file holds 10 .. 13 in the only
data block, no block is free, and the cursor is 0. -/
def volOne : Bfs :=
  (fsSeek (fsWrite g1 (fsCreate g1 (fsFormat g1 (boot g1)).state "a.txt").state 0 4
    (fun i => 10 + i)).state 0 0 SEEK_SET).state

/-- Every FBN below the size of a file has a block (spec §3, inode): the FBNs
`0 .. ceil(size / BYTESPERBLOCK) - 1` of every inode are populated. -/
def Dense (g : Geom) (s : Bfs) : Prop :=
  ∀ i f, 0 ≤ f → f ≤ ((s.inodes i).size + g.BYTESPERBLOCK - 1) / g.BYTESPERBLOCK - 1 →
    ∃ d, bfsFbnToDbn s i f = some d

/-- The volumes of `Reach` in whose history every `fsWrite` was issued with the
cursor at or below the size of the file. -/
inductive DenseReach (g : Geom) : Bfs → Prop where
  | fresh : DenseReach g (fsFormat g (boot g)).state
  | format (s : Bfs) : DenseReach g s → DenseReach g (fsFormat g s).state
  | create (s s1 : Bfs) (fname : String) (r : Option Int) :
      DenseReach g s → fsCreate g s fname = .ok r s1 → DenseReach g s1
  | opened (s s1 : Bfs) (fname : String) (r : Option Int) :
      DenseReach g s → fsOpen s fname = .ok r s1 → DenseReach g s1
  | closed (s s1 : Bfs) (fd v : Int) :
      DenseReach g s → fsClose s fd = .ok v s1 → DenseReach g s1
  | seek (s s1 : Bfs) (fd offset whence v : Int) :
      DenseReach g s → isI32 offset → fsSeek s fd offset whence = .ok v s1 → DenseReach g s1
  | read (s s1 : Bfs) (fd numb : Int) (buf : Int → Int) (r : Int × (Int → Int)) :
      DenseReach g s → isI32 numb → fsRead g s fd numb buf = .ok r s1 → DenseReach g s1
  | write (s s1 : Bfs) (fd numb v : Int) (buf : Int → Int) :
      DenseReach g s → isI32 numb →
      (∀ inum c, bfsFdToInum s fd = some inum → bfsTell s fd = some c →
        c ≤ bfsGetSize s inum) →
      fsWrite g s fd numb buf = .ok v s1 → DenseReach g s1

/-- The allocation invariant of the loop of `fsWrite`, started in `s0` at cursor
`c`, after `k` passes: the passes have touched the FBNs `c / BYTESPERBLOCK + j` for
`j < k` and stand at the start of the next block unless `numb` bytes are written,
the block map is as in `s0` elsewhere, a touched FBN that had no block has one that
was free in `s0`, and the free list has lost one block, from its head, for each of
those. -/
def AllocInv (g : Geom) (s0 : Bfs) (inum c numb : Int) (k : Nat) (st : Int × Bfs) : Prop :=
  (k = 0 → st.1 = 0) ∧
  (1 ≤ k → 0 ≤ c ∧ (c / g.BYTESPERBLOCK + k - 1) * g.BYTESPERBLOCK ≤ c + st.1 - 1 ∧
    c + st.1 ≤ (c / g.BYTESPERBLOCK + k) * g.BYTESPERBLOCK ∧
    (st.1 < numb → c + st.1 = (c / g.BYTESPERBLOCK + k) * g.BYTESPERBLOCK)) ∧
  (∀ i f, (i ≠ inum ∨ f < c / g.BYTESPERBLOCK ∨ c / g.BYTESPERBLOCK + k ≤ f) →
    bfsFbnToDbn st.2 i f = bfsFbnToDbn s0 i f) ∧
  (∀ f, c / g.BYTESPERBLOCK ≤ f → f < c / g.BYTESPERBLOCK + k →
    bfsFbnToDbn s0 inum f = none →
    ∃ d, d ∈ s0.freeList ∧ bfsFbnToDbn st.2 inum f = some d) ∧
  (∃ news, s0.freeList = news ++ st.2.freeList ∧
    news.length = ((List.range k).filter
      (fun (j : Nat) => (bfsFbnToDbn s0 inum (c / g.BYTESPERBLOCK + (j : Int))).isNone)).length)


/-- The volume `volW` after `fsOpen("a.txt")` twice more: descriptor 0 is bound to
the file three times over, with the cursor at 6. -/
def volOpen2 : Bfs := (fsOpen (fsOpen volW "a.txt").state "a.txt").state

/-! ## Arithmetic of `i32` -/

theorem wrap32_eq {x : Int} (h : isI32 x) : wrap32 x = x := by
  unfold isI32 at h; unfold wrap32; omega

theorem wrap32_isI32 (x : Int) : isI32 (wrap32 x) := by
  unfold isI32 wrap32; omega

theorem add32_eq {a b : Int} (h : isI32 (a + b)) : add32 a b = a + b := wrap32_eq h

theorem sub32_eq {a b : Int} (h : isI32 (a - b)) : sub32 a b = a - b := wrap32_eq h

theorem add32_zero {a : Int} (h : isI32 a) : add32 a 0 = a := by
  unfold add32; simpa using wrap32_eq h

/-! ## The open file table -/

theorem findOFTE_some {l : List OFTE} {inum : Int} {k : Nat} (h : findOFTE l inum = some k) :
    ∃ e, l[k]? = some e ∧ 0 < e.refs ∧ e.inum = inum := by
  induction l generalizing k with
  | nil => simp [findOFTE] at h
  | cons e es ih =>
    unfold findOFTE at h
    split at h
    · rename_i hc
      cases h
      exact ⟨e, by simp, hc.1, hc.2⟩
    · cases hf : findOFTE es inum with
      | none => simp [hf] at h
      | some j =>
        simp [hf] at h
        subst h
        obtain ⟨e1, h1, h2⟩ := ih hf
        exact ⟨e1, by simpa using h1, h2⟩

theorem findOFTE_of_mem {l : List OFTE} {j : Nat} {e : OFTE} (h : l[j]? = some e)
    (hr : 0 < e.refs) : ∃ k, findOFTE l e.inum = some k := by
  induction l generalizing j with
  | nil => simp at h
  | cons a as ih =>
    unfold findOFTE
    split
    · exact ⟨0, rfl⟩
    · cases j with
      | zero =>
        simp at h
        subst h
        rename_i hc
        exact absurd ⟨hr, rfl⟩ hc
      | succ j =>
        simp at h
        obtain ⟨k, hk⟩ := ih h
        exact ⟨k + 1, by simp [hk]⟩

theorem updCurs_length (l : List OFTE) (k : Nat) (f : Int → Int) :
    (updCurs l k f).length = l.length := by
  induction l generalizing k with
  | nil => simp [updCurs]
  | cons e es ih => cases k <;> simp [updCurs, ih]

theorem updCurs_get (l : List OFTE) (k j : Nat) (f : Int → Int) :
    (updCurs l k f)[j]? =
      if j = k then (l[j]?).map (fun e => { e with curs := f e.curs }) else l[j]? := by
  induction l generalizing k j with
  | nil => simp [updCurs]
  | cons e es ih =>
    cases k with
    | zero => cases j <;> simp [updCurs]
    | succ k => cases j <;> simp [updCurs, ih]

theorem findOFTE_updCurs (l : List OFTE) (k : Nat) (f : Int → Int) (inum : Int) :
    findOFTE (updCurs l k f) inum = findOFTE l inum := by
  induction l generalizing k with
  | nil => simp [updCurs]
  | cons e es ih =>
    cases k with
    | zero => simp [updCurs, findOFTE]
    | succ k => simp [updCurs, findOFTE, ih]

theorem updCurs_id (l : List OFTE) (k : Nat) (f : Int → Int)
    (h : ∀ e, l[k]? = some e → f e.curs = e.curs) : updCurs l k f = l := by
  induction l generalizing k with
  | nil => simp [updCurs]
  | cons e es ih =>
    cases k with
    | zero =>
      have := h e (by simp)
      simp [updCurs, this]
    | succ k =>
      simp only [updCurs]
      rw [ih k (fun e1 h1 => h e1 (by simpa using h1))]

theorem bfsFdToInum_updCurs (s : Bfs) (k : Nat) (f : Int → Int) (fd : Int) :
    bfsFdToInum { s with g_oft := updCurs s.g_oft k f } fd = bfsFdToInum s fd := by
  unfold bfsFdToInum
  by_cases hfd : fd < 0
  · simp [hfd]
  · simp only [hfd, if_false, updCurs_get]
    by_cases hk : fd.toNat = k
    · simp only [hk, if_true]
      cases s.g_oft[k]? <;> simp
    · simp [hk]

theorem bfsFdToInum_find {s : Bfs} {fd inum : Int} (h : bfsFdToInum s fd = some inum) :
    ∃ ofte, bfsFindOFTE s inum = some ofte := by
  unfold bfsFdToInum at h
  by_cases hfd : fd < 0
  · simp [hfd] at h
  · simp only [hfd, if_false] at h
    cases he : s.g_oft[fd.toNat]? with
    | none => simp [he] at h
    | some e =>
      simp only [he] at h
      by_cases hr : 0 < e.refs
      · simp [hr] at h
        subst h
        exact findOFTE_of_mem he hr
      · simp [hr] at h

theorem bfsTell_some {s : Bfs} {fd inum : Int} {ofte : Nat} (h : bfsFdToInum s fd = some inum)
    (ho : bfsFindOFTE s inum = some ofte) :
    ∃ e, s.g_oft[ofte]? = some e ∧ bfsTell s fd = some e.curs := by
  obtain ⟨e, he, _⟩ := findOFTE_some ho
  exact ⟨e, he, by simp [bfsTell, h, ho, he]⟩

theorem bfsTell_updCurs {s : Bfs} {fd inum c : Int} {ofte : Nat} (f : Int → Int)
    (h : bfsFdToInum s fd = some inum) (ho : bfsFindOFTE s inum = some ofte)
    (hc : bfsTell s fd = some c) :
    bfsTell { s with g_oft := updCurs s.g_oft ofte f } fd = some (f c) := by
  obtain ⟨e, he, hte⟩ := bfsTell_some h ho
  rw [hc] at hte
  cases hte
  simp only [bfsTell, bfsFdToInum_updCurs, h, bfsFindOFTE, findOFTE_updCurs]
  rw [show findOFTE s.g_oft inum = some ofte from ho]
  simp [updCurs_get, he]

/-- What `fsSeek` does on an open descriptor with a non-negative offset and a
known `whence`: the cursor of the entry becomes `f` of its old value. -/
theorem fsSeek_ok {s : Bfs} {fd inum offset : Int} {ofte : Nat}
    (h : bfsFdToInum s fd = some inum) (ho : bfsFindOFTE s inum = some ofte)
    (hoff : 0 ≤ offset) :
    fsSeek s fd offset SEEK_SET
        = .ok 0 { s with g_oft := updCurs s.g_oft ofte (fun _ => offset) } ∧
    fsSeek s fd offset SEEK_CUR
        = .ok 0 { s with g_oft := updCurs s.g_oft ofte (fun curs => add32 curs offset) } ∧
    fsSeek s fd offset SEEK_END
        = .ok 0 { s with
            g_oft := updCurs s.g_oft ofte (fun _ => add32 (bfsGetSize s inum) offset) } := by
  have hn : ¬ offset < 0 := by omega
  refine ⟨?_, ?_, ?_⟩ <;>
    simp [fsSeek, hn, h, ho, fsSize, SEEK_SET, SEEK_CUR, SEEK_END]

theorem seek_cur_ne_set : ¬ SEEK_CUR = SEEK_SET := by decide

theorem seek_end_ne_set : ¬ SEEK_END = SEEK_SET := by decide

theorem seek_end_ne_cur : ¬ SEEK_END = SEEK_CUR := by decide

/-- The four ways through `fsSeek` once the descriptor is found. -/
theorem fsSeek_cases {s : Bfs} {fd inum : Int} {ofte : Nat} (offset whence : Int)
    (hfd : bfsFdToInum s fd = some inum) (ho : bfsFindOFTE s inum = some ofte)
    (hoff : ¬ offset < 0) :
    (whence = SEEK_SET ∧ fsSeek s fd offset whence
        = .ok 0 { s with g_oft := updCurs s.g_oft ofte (fun _ => offset) }) ∨
    (whence = SEEK_CUR ∧ fsSeek s fd offset whence
        = .ok 0 { s with g_oft := updCurs s.g_oft ofte (fun curs => add32 curs offset) }) ∨
    (whence = SEEK_END ∧ fsSeek s fd offset whence
        = .ok 0 { s with
            g_oft := updCurs s.g_oft ofte (fun _ => add32 (bfsGetSize s inum) offset) }) ∨
    (whence ≠ SEEK_SET ∧ whence ≠ SEEK_CUR ∧ whence ≠ SEEK_END ∧
      fsSeek s fd offset whence = .fatal .EBADWHENCE s) := by
  by_cases h0 : whence = SEEK_SET
  · left
    subst h0
    exact ⟨rfl, by simp [fsSeek, hoff, hfd, ho]⟩
  · by_cases h1 : whence = SEEK_CUR
    · right; left
      subst h1
      exact ⟨rfl, by simp [fsSeek, hoff, hfd, ho, seek_cur_ne_set]⟩
    · by_cases h2 : whence = SEEK_END
      · right; right; left
        subst h2
        exact ⟨rfl, by simp [fsSeek, hoff, hfd, ho, seek_end_ne_set, seek_end_ne_cur, fsSize]⟩
      · right; right; right
        exact ⟨h0, h1, h2, by simp [fsSeek, hoff, hfd, ho, h0, h1, h2]⟩

theorem fsSeek_state (s : Bfs) (fd offset whence : Int) :
    (fsSeek s fd offset whence).state = s ∨
    ∃ inum ofte f, bfsFdToInum s fd = some inum ∧ bfsFindOFTE s inum = some ofte ∧
      (fsSeek s fd offset whence).state = { s with g_oft := updCurs s.g_oft ofte f } := by
  by_cases hoff : offset < 0
  · simp [fsSeek, hoff, Res.state]
  · cases hfd : bfsFdToInum s fd with
    | none => simp [fsSeek, hoff, hfd, Res.state]
    | some inum =>
      cases ho : bfsFindOFTE s inum with
      | none => simp [fsSeek, hoff, hfd, ho, Res.state]
      | some ofte =>
        rcases fsSeek_cases offset whence hfd ho hoff with
          ⟨_, h⟩ | ⟨_, h⟩ | ⟨_, h⟩ | ⟨_, _, _, h⟩
        · exact Or.inr ⟨inum, ofte, _, rfl, ho, by rw [h]; rfl⟩
        · exact Or.inr ⟨inum, ofte, _, rfl, ho, by rw [h]; rfl⟩
        · exact Or.inr ⟨inum, ofte, _, rfl, ho, by rw [h]; rfl⟩
        · exact Or.inl (by rw [h]; rfl)

theorem fsSeek_fatal_state {s s1 : Bfs} {fd offset whence : Int} {e : Err}
    (h : fsSeek s fd offset whence = .fatal e s1) : s1 = s := by
  by_cases hoff : offset < 0
  · simp [fsSeek, hoff] at h; exact h.2.symm
  · cases hfd : bfsFdToInum s fd with
    | none => simp [fsSeek, hoff, hfd] at h; exact h.2.symm
    | some inum =>
      cases ho : bfsFindOFTE s inum with
      | none => simp [fsSeek, hoff, hfd, ho] at h; exact h.2.symm
      | some ofte =>
        rcases fsSeek_cases offset whence hfd ho hoff with
          ⟨_, h1⟩ | ⟨_, h1⟩ | ⟨_, h1⟩ | ⟨_, _, _, h1⟩ <;> rw [h1] at h <;> cases h
        rfl

theorem iter_done {σ : Type} {body : σ → Step σ} {st r : σ} (h : body st = .done r)
    (fuel : Nat) : iter body fuel st = .ok r := by
  cases fuel <;> simp [iter, h]

/-! ## Loops -/

/-- Total correctness of a loop: an invariant `I`, a measure that every pass
through the body lowers, and a postcondition `Q` of the states the body is done
in. -/
theorem iter_total {σ : Type} (body : σ → Step σ) (I Q : σ → Prop) (m : σ → Nat)
    (hstep : ∀ st, I st → (∃ r, body st = .done r ∧ Q r) ∨
      (∃ st1, body st = .next st1 ∧ I st1 ∧ m st1 < m st)) :
    ∀ fuel st, I st → m st ≤ fuel → ∃ r, iter body fuel st = .ok r ∧ Q r := by
  intro fuel
  induction fuel with
  | zero =>
    intro st hI hm
    rcases hstep st hI with ⟨r, hr, hq⟩ | ⟨st1, _, _, hlt⟩
    · exact ⟨r, iter_done hr 0, hq⟩
    · omega
  | succ n ih =>
    intro st hI hm
    rcases hstep st hI with ⟨r, hr, hq⟩ | ⟨st1, hn, hI1, hlt⟩
    · exact ⟨r, iter_done hr _, hq⟩
    · obtain ⟨r, hr, hq⟩ := ih st1 hI1 (by omega)
      exact ⟨r, by simp [iter, hn, hr], hq⟩

/-- Partial correctness of a loop: what holds of the state it returns, if it
returns. -/
theorem iter_partial {σ : Type} (body : σ → Step σ) (I Q : σ → Prop)
    (hdone : ∀ st r, I st → body st = .done r → Q r)
    (hnext : ∀ st st1, I st → body st = .next st1 → I st1) :
    ∀ fuel st r, I st → iter body fuel st = .ok r → Q r := by
  intro fuel
  induction fuel with
  | zero =>
    intro st r hI h
    cases hb : body st with
    | done r1 => simp [iter, hb] at h; subst h; exact hdone st r1 hI hb
    | next st1 => simp [iter, hb] at h
    | abort e st1 => simp [iter, hb] at h
  | succ n ih =>
    intro st r hI h
    cases hb : body st with
    | done r1 => simp [iter, hb] at h; subst h; exact hdone st r1 hI hb
    | next st1 => simp [iter, hb] at h; exact ih st1 r (hnext st st1 hI hb) h
    | abort e st1 => simp [iter, hb] at h

/-! ## The loop of `fsRead` -/

theorem tdiv_nonpos_of_neg {a b : Int} (ha : a < 0) (hb : 0 < b) : a.tdiv b ≤ 0 := by
  have h := Int.neg_tdiv (-a) b
  rw [neg_neg] at h
  have h2 : 0 ≤ (-a).tdiv b := Int.tdiv_nonneg (by omega) (by omega)
  omega

/-- One pass through the body of the loop of `fsRead` in exact arithmetic, for a
non-negative cursor and values that fit an `i32`. -/
theorem fsReadBody_eq (g : Geom) (s : Bfs) (inum c size numb br : Int) (buf : Int → Int)
    (hg : g.WF) (hc0 : 0 ≤ c) (hs : size < 2147483648) (hn : numb < 2147483648)
    (hbr0 : 0 ≤ br) (hbr : br ≤ numb) (hpos : c + br < 2147483648) :
    fsReadBody g s inum c size numb (br, buf) =
      if br < numb ∧ c + br < size then
        match bfsFbnToDbn s inum ((c + br) / g.BYTESPERBLOCK) with
        | none => .done (br, buf)
        | some dbn =>
          .next (br + min (g.BYTESPERBLOCK - (c + br) % g.BYTESPERBLOCK)
                    (min (numb - br) (size - (c + br))),
                 memcpy buf br (s.disk dbn) ((c + br) % g.BYTESPERBLOCK)
                   (min (g.BYTESPERBLOCK - (c + br) % g.BYTESPERBLOCK)
                    (min (numb - br) (size - (c + br)))))
      else .done (br, buf) := by
  obtain ⟨hB0, hB1, _, _⟩ := hg
  have hadd : add32 c br = c + br := add32_eq ⟨by omega, by omega⟩
  have hdiv : (c + br).tdiv g.BYTESPERBLOCK = (c + br) / g.BYTESPERBLOCK :=
    Int.tdiv_eq_ediv (by omega) (by omega)
  have hmod : (c + br).tmod g.BYTESPERBLOCK = (c + br) % g.BYTESPERBLOCK :=
    Int.tmod_eq_emod (by omega) (by omega)
  have hm0 : 0 ≤ (c + br) % g.BYTESPERBLOCK := Int.emod_nonneg _ (by omega)
  have hm1 : (c + br) % g.BYTESPERBLOCK < g.BYTESPERBLOCK := Int.emod_lt_of_pos _ hB0
  unfold fsReadBody
  simp only [hadd, hdiv, hmod]
  by_cases h1 : br < numb
  · by_cases h2 : c + br < size
    · have h2' : ¬ (c + br ≥ size) := by omega
      simp only [h1, h2, h2', not_true_eq_false, if_false, and_self, if_true]
      cases hmap : bfsFbnToDbn s inum ((c + br) / g.BYTESPERBLOCK) with
      | none => rfl
      | some dbn =>
        have e1 : sub32 numb br = numb - br := sub32_eq ⟨by omega, by omega⟩
        have e2 : sub32 size (c + br) = size - (c + br) := sub32_eq ⟨by omega, by omega⟩
        have e3 : sub32 g.BYTESPERBLOCK ((c + br) % g.BYTESPERBLOCK)
            = g.BYTESPERBLOCK - (c + br) % g.BYTESPERBLOCK := sub32_eq ⟨by omega, by omega⟩
        simp only [e1, e2, e3, bioRead]
        have hmin1 : (if numb - br < size - (c + br) then numb - br else size - (c + br))
            = min (numb - br) (size - (c + br)) := by
          rw [min_def]; split_ifs <;> omega
        rw [hmin1]
        have hmin2 : (if g.BYTESPERBLOCK - (c + br) % g.BYTESPERBLOCK
              < min (numb - br) (size - (c + br))
            then g.BYTESPERBLOCK - (c + br) % g.BYTESPERBLOCK
            else min (numb - br) (size - (c + br)))
            = min (g.BYTESPERBLOCK - (c + br) % g.BYTESPERBLOCK)
                (min (numb - br) (size - (c + br))) := by
          rw [min_def (g.BYTESPERBLOCK - (c + br) % g.BYTESPERBLOCK)]; split_ifs <;> omega
        rw [hmin2]
        have hpos1 : 1 ≤ min (g.BYTESPERBLOCK - (c + br) % g.BYTESPERBLOCK)
            (min (numb - br) (size - (c + br))) := by
          simp only [le_min_iff]; omega
        have hguard : ¬ ((c + br) % g.BYTESPERBLOCK < 0 ∨
            min (g.BYTESPERBLOCK - (c + br) % g.BYTESPERBLOCK)
              (min (numb - br) (size - (c + br))) < 0) := by omega
        have hle : min (g.BYTESPERBLOCK - (c + br) % g.BYTESPERBLOCK)
            (min (numb - br) (size - (c + br))) ≤ numb - br :=
          le_trans (min_le_right _ _) (min_le_left _ _)
        have e4 : add32 br (min (g.BYTESPERBLOCK - (c + br) % g.BYTESPERBLOCK)
            (min (numb - br) (size - (c + br))))
            = br + min (g.BYTESPERBLOCK - (c + br) % g.BYTESPERBLOCK)
            (min (numb - br) (size - (c + br))) := add32_eq ⟨by omega, by omega⟩
        simp only [hguard, if_false, e4]
    · have h2' : c + br ≥ size := by omega
      simp [h1, h2, h2']
  · simp [h1]


theorem ediv_emod_unique {B q r x : Int} (hB : 0 < B) (hx : x = B * q + r) (h0 : 0 ≤ r)
    (h1 : r < B) : x / B = q ∧ x % B = r := by
  subst hx
  constructor
  · rw [Int.add_comm, Int.add_mul_ediv_left r q (by omega), Int.ediv_eq_zero_of_lt h0 h1]
    omega
  · rw [Int.add_comm, Int.add_mul_emod_self_left, Int.emod_eq_of_lt h0 h1]

/-- The loop of `fsRead` from a non-negative cursor: it returns, with a count
`br` and a buffer whose first `br` bytes are the bytes of the file from the cursor
on and whose other bytes are untouched; it stops when `numb` bytes are read, at
the end of the file, or at an FBN without a block. -/
theorem fsRead_loop (g : Geom) (s : Bfs) (inum c size numb : Int) (buf : Int → Int)
    (hg : g.WF) (hc0 : 0 ≤ c) (hc : c < 2147483648) (hs : size < 2147483648)
    (hn0 : 0 ≤ numb) (hn : numb < 2147483648) :
    ∃ br buf1, iter (fsReadBody g s inum c size numb) numb.toNat (0, buf) = .ok (br, buf1) ∧
      0 ≤ br ∧ br ≤ numb ∧ (br = 0 ∨ c + br ≤ size) ∧
      (numb ≤ br ∨ size ≤ c + br ∨
        bfsFbnToDbn s inum ((c + br) / g.BYTESPERBLOCK) = none) ∧
      (∀ i, 0 ≤ i → i < br → ∃ dbn,
        bfsFbnToDbn s inum ((c + i) / g.BYTESPERBLOCK) = some dbn ∧
        buf1 i = s.disk dbn ((c + i) % g.BYTESPERBLOCK)) ∧
      (∀ i, ¬ (0 ≤ i ∧ i < br) → buf1 i = buf i) := by
  have hB0 : 0 < g.BYTESPERBLOCK := hg.1
  let I : Int × (Int → Int) → Prop := fun st =>
    0 ≤ st.1 ∧ st.1 ≤ numb ∧ (st.1 = 0 ∨ c + st.1 ≤ size) ∧
    (∀ i, 0 ≤ i → i < st.1 → ∃ dbn,
      bfsFbnToDbn s inum ((c + i) / g.BYTESPERBLOCK) = some dbn ∧
      st.2 i = s.disk dbn ((c + i) % g.BYTESPERBLOCK)) ∧
    (∀ i, ¬ (0 ≤ i ∧ i < st.1) → st.2 i = buf i)
  let Q : Int × (Int → Int) → Prop := fun st =>
    I st ∧ (numb ≤ st.1 ∨ size ≤ c + st.1 ∨
      bfsFbnToDbn s inum ((c + st.1) / g.BYTESPERBLOCK) = none)
  have hstep : ∀ st, I st → (∃ r, fsReadBody g s inum c size numb st = .done r ∧ Q r) ∨
      (∃ st1, fsReadBody g s inum c size numb st = .next st1 ∧ I st1 ∧
        (numb - st1.1).toNat < (numb - st.1).toNat) := by
    rintro ⟨br, b⟩ ⟨h0, h1, h2, h3, h4⟩
    simp only at h0 h1 h2 h3 h4
    have hpos : c + br < 2147483648 := by omega
    rw [fsReadBody_eq g s inum c size numb br b hg hc0 hs hn h0 h1 hpos]
    by_cases hcond : br < numb ∧ c + br < size
    · simp only [hcond, and_self, if_true]
      cases hmap : bfsFbnToDbn s inum ((c + br) / g.BYTESPERBLOCK) with
      | none =>
        left
        exact ⟨(br, b), rfl, ⟨h0, h1, h2, h3, h4⟩, Or.inr (Or.inr hmap)⟩
      | some dbn =>
        right
        have hr0 : 0 ≤ (c + br) % g.BYTESPERBLOCK := Int.emod_nonneg _ (by omega)
        have hr1 : (c + br) % g.BYTESPERBLOCK < g.BYTESPERBLOCK := Int.emod_lt_of_pos _ hB0
        have hqr := Int.ediv_add_emod (c + br) g.BYTESPERBLOCK
        generalize hq : (c + br) / g.BYTESPERBLOCK = q at hqr hmap
        generalize hr : (c + br) % g.BYTESPERBLOCK = r at hqr hr0 hr1
        generalize ht : min (g.BYTESPERBLOCK - r) (min (numb - br) (size - (c + br))) = t
        have ht1 : 1 ≤ t := by
          rw [← ht]; simp only [le_min_iff]; omega
        have ht2 : t ≤ g.BYTESPERBLOCK - r := by rw [← ht]; exact min_le_left _ _
        have ht3 : t ≤ numb - br := by
          rw [← ht]; exact le_trans (min_le_right _ _) (min_le_left _ _)
        have ht4 : t ≤ size - (c + br) := by
          rw [← ht]; exact le_trans (min_le_right _ _) (min_le_right _ _)
        refine ⟨_, rfl, ⟨by simp only; omega, by simp only; omega, by simp only; omega, ?_, ?_⟩,
          by simp only; omega⟩
        · intro i hi0 hi1
          simp only at hi1
          by_cases hlt : i < br
          · obtain ⟨d, hd1, hd2⟩ := h3 i hi0 hlt
            refine ⟨d, hd1, ?_⟩
            simp only [memcpy]
            rw [if_neg (by omega)]
            exact hd2
          · have hu := ediv_emod_unique (x := c + i) (q := q) (r := r + (i - br)) hB0
              (by omega) (by omega) (by omega)
            refine ⟨dbn, by rw [hu.1]; exact hmap, ?_⟩
            simp only [memcpy]
            rw [if_pos (by omega), hu.2]
        · intro i hi
          simp only at hi
          simp only [memcpy]
          rw [if_neg (by omega)]
          exact h4 i (by omega)
    · simp only [hcond, if_false]
      left
      exact ⟨(br, b), rfl, ⟨h0, h1, h2, h3, h4⟩, by simp only; omega⟩
  have hI0 : I (0, buf) :=
    ⟨le_refl _, hn0, Or.inl rfl, fun i h0 h1 => absurd h1 (by simp only; omega),
      fun i _ => rfl⟩
  obtain ⟨⟨br, buf1⟩, hr, ⟨h0, h1, h2, h3, h4⟩, hq⟩ :=
    iter_total (fsReadBody g s inum c size numb) I Q (fun st => (numb - st.1).toNat)
      hstep numb.toNat (0, buf) hI0 (by simp)
  exact ⟨br, buf1, hr, h0, h1, h2, hq, h3, h4⟩


/-- The whole of `fsRead` from a non-negative cursor, for values that fit an
`i32`: the call returns, and only the cursor of the entry of `fd` moves. -/
theorem fsRead_spec (g : Geom) (s : Bfs) (fd inum c numb : Int) (buf : Int → Int)
    (hg : g.WF) (hfd : bfsFdToInum s fd = some inum) (hc : bfsTell s fd = some c)
    (hc0 : 0 ≤ c) (hc1 : c < 2147483648) (hs : bfsGetSize s inum < 2147483648)
    (hn0 : 0 ≤ numb) (hn : numb < 2147483648) :
    ∃ br buf1 ofte, bfsFindOFTE s inum = some ofte ∧
      fsRead g s fd numb buf
        = .ok (br, buf1) { s with g_oft := updCurs s.g_oft ofte (fun curs => add32 curs br) } ∧
      bfsTell { s with g_oft := updCurs s.g_oft ofte (fun curs => add32 curs br) } fd
        = some (c + br) ∧
      0 ≤ br ∧ br ≤ numb ∧ (br = 0 ∨ c + br ≤ bfsGetSize s inum) ∧
      (numb ≤ br ∨ bfsGetSize s inum ≤ c + br ∨
        bfsFbnToDbn s inum ((c + br) / g.BYTESPERBLOCK) = none) ∧
      (∀ i, 0 ≤ i → i < br → ∃ dbn,
        bfsFbnToDbn s inum ((c + i) / g.BYTESPERBLOCK) = some dbn ∧
        buf1 i = s.disk dbn ((c + i) % g.BYTESPERBLOCK)) ∧
      (∀ i, ¬ (0 ≤ i ∧ i < br) → buf1 i = buf i) := by
  obtain ⟨br, buf1, hiter, h0, h1, h2, h3, h4, h5⟩ :=
    fsRead_loop g s inum c (bfsGetSize s inum) numb buf hg hc0 hc1 hs hn0 hn
  obtain ⟨ofte, ho⟩ := bfsFdToInum_find hfd
  have hseek := (fsSeek_ok hfd ho h0).2.1
  have hnn : ¬ numb < 0 := by omega
  refine ⟨br, buf1, ofte, ho, ?_, ?_, h0, h1, h2, h3, h4, h5⟩
  · simp only [fsRead, hnn, if_false, hfd, hc, hiter, hseek]
  · rw [bfsTell_updCurs _ hfd ho hc, add32_eq ⟨by omega, by omega⟩]


/-- A read with the cursor at or after the end of the file: the loop is left at
its first test, before any block is read, and nothing changes. -/
theorem fsRead_eof_aux (g : Geom) (s : Bfs) (fd inum c numb : Int) (buf : Int → Int)
    (hfd : bfsFdToInum s fd = some inum) (hc : bfsTell s fd = some c) (hci : isI32 c)
    (hn : 0 ≤ numb) (heof : bfsGetSize s inum ≤ c) :
    fsRead g s fd numb buf = .ok (0, buf) s ∧
    fsReadBody g s inum c (bfsGetSize s inum) numb (0, buf) = .done (0, buf) := by
  have hbody : fsReadBody g s inum c (bfsGetSize s inum) numb (0, buf) = .done (0, buf) := by
    unfold fsReadBody
    by_cases h : (0 : Int) < numb
    · have h2 : add32 c 0 ≥ bfsGetSize s inum := by rw [add32_zero hci]; exact heof
      simp [h, h2]
    · simp [h]
  refine ⟨?_, hbody⟩
  obtain ⟨ofte, ho⟩ := bfsFdToInum_find hfd
  obtain ⟨e, he, hte⟩ := bfsTell_some hfd ho
  rw [hc] at hte
  have hseek := (fsSeek_ok hfd ho (le_refl 0)).2.1
  have hid : updCurs s.g_oft ofte (fun curs => add32 curs 0) = s.g_oft := by
    apply updCurs_id
    intro e1 he1
    rw [he] at he1
    cases he1
    cases hte
    exact add32_zero hci
  rw [hid] at hseek
  have hnn : ¬ numb < 0 := by omega
  simp only [fsRead, hnn, if_false, hfd, hc, iter_done hbody, hseek]


/-! ## Block maps -/

theorem getFbn_setFbn_same (l : List (Option Int)) (n : Nat) (d : Int) :
    getFbn (setFbn l n d) n = some d := by
  induction n generalizing l with
  | zero => cases l <;> simp [setFbn, getFbn]
  | succ n ih => cases l <;> simp [setFbn, getFbn, ih]

theorem getFbn_setFbn_ne (l : List (Option Int)) (n m : Nat) (d : Int) (h : m ≠ n) :
    getFbn (setFbn l n d) m = getFbn l m := by
  induction n generalizing l m with
  | zero =>
    cases m with
    | zero => exact absurd rfl h
    | succ m => cases l <;> simp [setFbn, getFbn]
  | succ n ih =>
    cases m with
    | zero => cases l <;> simp [setFbn, getFbn]
    | succ m =>
      cases l with
      | nil =>
        simp only [setFbn, getFbn]
        rw [ih [] m (by omega)]
        simp [getFbn]
      | cons x xs =>
        simp only [setFbn, getFbn]
        exact ih xs m (by omega)

theorem setFbn_length (l : List (Option Int)) (n : Nat) (d : Int) :
    (setFbn l n d).length = max l.length (n + 1) := by
  induction n generalizing l with
  | zero => cases l <;> simp [setFbn]
  | succ n ih =>
    cases l with
    | nil => simp [setFbn, ih]
    | cons x xs => simp [setFbn, ih]; omega

theorem getFbn_some_lt {l : List (Option Int)} {n : Nat} {d : Int} (h : getFbn l n = some d) :
    n < l.length := by
  induction l generalizing n with
  | nil => simp [getFbn] at h
  | cons x xs ih =>
    cases n with
    | zero => simp
    | succ n => simp only [getFbn] at h; have := ih h; simp; omega

theorem bfsFbnToDbn_nonneg {s : Bfs} {i f d : Int} (h : bfsFbnToDbn s i f = some d) : 0 ≤ f := by
  unfold bfsFbnToDbn at h
  by_cases hf : f < 0
  · simp [hf] at h
  · omega

theorem bfsFbnToDbn_lt {g : Geom} {s : Bfs} {i f d : Int} (hinv : VolInv g s)
    (h : bfsFbnToDbn s i f = some d) : f < g.NUMFBNS := by
  have h0 := bfsFbnToDbn_nonneg h
  unfold bfsFbnToDbn at h
  rw [if_neg (by omega)] at h
  have h1 := getFbn_some_lt h
  have h2 := hinv.2.2.2 i
  omega

/-- The block map after `bfsAllocBlock` has recorded `dbn` at `(inum, q)`. -/
theorem bfsFbnToDbn_alloc (s : Bfs) (inum q dbn : Int) (rest : List Int) (hq : 0 ≤ q)
    (i f : Int) :
    bfsFbnToDbn { s with
        freeList := rest
        inodes := Function.update s.inodes inum
          { s.inodes inum with dbns := setFbn (s.inodes inum).dbns q.toNat dbn } } i f
      = if i = inum ∧ f = q then some dbn else bfsFbnToDbn s i f := by
  unfold bfsFbnToDbn
  by_cases hi : i = inum
  · subst hi
    by_cases hf : f = q
    · subst hf
      simp [show ¬ f < 0 by omega, getFbn_setFbn_same]
    · by_cases hf0 : f < 0
      · simp [hf0, hf]
      · simp only [hf0, if_false, hf, and_false, Function.update_same]
        exact getFbn_setFbn_ne _ _ _ _ (by omega)
  · simp [hi, Function.update_noteq hi]


/-! ## The loop of `fsWrite` -/

theorem bfsAllocBlock_neg (g : Geom) (s : Bfs) (inum fbn : Int) (h : fbn < 0) :
    ∃ e, bfsAllocBlock g s inum fbn = .error e := by
  simp only [bfsAllocBlock]
  cases s.freeList with
  | nil => exact ⟨_, rfl⟩
  | cons d rest => simp [h]

theorem bfsAllocBlock_ok {g : Geom} {s s1 : Bfs} {inum fbn dbn : Int}
    (h : bfsAllocBlock g s inum fbn = .ok (dbn, s1)) :
    0 ≤ fbn ∧ fbn < g.NUMFBNS ∧ ∃ rest, s.freeList = dbn :: rest ∧
      s1 = { s with
        freeList := rest
        inodes := Function.update s.inodes inum
          { s.inodes inum with dbns := setFbn (s.inodes inum).dbns fbn.toNat dbn } } := by
  simp only [bfsAllocBlock] at h
  cases hf : s.freeList with
  | nil => simp [hf] at h
  | cons d rest =>
    simp only [hf] at h
    by_cases hc : fbn < 0 ∨ g.NUMFBNS ≤ fbn
    · simp [hc] at h
    · simp only [hc, if_false, Except.ok.injEq, Prod.mk.injEq] at h
      obtain ⟨h1, h2⟩ := h
      subst h1
      exact ⟨by omega, by omega, rest, rfl, h2.symm⟩

/-- The body of the loop of `fsWrite` does not go on from a negative position. -/
theorem fsWriteBody_neg (g : Geom) (s : Bfs) (inum c numb bw : Int) (buf : Int → Int)
    (st1 : Int × Bfs) (hB0 : 0 < g.BYTESPERBLOCK) (hp : add32 c bw < 0) :
    fsWriteBody g inum c numb buf (bw, s) ≠ .next st1 := by
  intro h
  unfold fsWriteBody at h
  simp only at h
  by_cases hlt : bw < numb
  swap
  · simp [hlt] at h
  simp only [hlt, not_true_eq_false, if_false] at h
  have hq := tdiv_nonpos_of_neg hp hB0
  have hguard : bfsFbnToDbn s inum ((add32 c bw).tdiv g.BYTESPERBLOCK) ≠ none →
      (add32 c bw).tmod g.BYTESPERBLOCK < 0 := by
    intro hne
    have hq1 : (add32 c bw).tdiv g.BYTESPERBLOCK = 0 := by
      by_contra hq0
      apply hne
      simp [bfsFbnToDbn, show (add32 c bw).tdiv g.BYTESPERBLOCK < 0 by omega]
    have hm := Int.tmod_add_tdiv (add32 c bw) g.BYTESPERBLOCK
    rw [hq1] at hm
    omega
  cases hmap : bfsFbnToDbn s inum ((add32 c bw).tdiv g.BYTESPERBLOCK) with
  | some dbn =>
    have := hguard (by rw [hmap]; simp)
    simp [hmap, this] at h
  | none =>
    simp only [hmap] at h
    cases hal : bfsAllocBlock g s inum ((add32 c bw).tdiv g.BYTESPERBLOCK) with
    | error e => simp [hal] at h
    | ok v =>
      obtain ⟨dbn, s1⟩ := v
      have h0 := (bfsAllocBlock_ok hal).1
      have hq1 : (add32 c bw).tdiv g.BYTESPERBLOCK = 0 := by omega
      have hm := Int.tmod_add_tdiv (add32 c bw) g.BYTESPERBLOCK
      rw [hq1] at hm
      have hm2 : (add32 c bw).tmod g.BYTESPERBLOCK < 0 := by omega
      simp [hal, hm2] at h

/-- One pass through the body of the loop of `fsWrite` that goes on, in exact
arithmetic: the position is not negative, its FBN is below `NUMFBNS`, the block is
the mapped one or the head of the free list, and the block written back is the
old one overlaid with the bytes of `buf`. -/
theorem fsWriteBody_next (g : Geom) (s : Bfs) (inum c numb bw : Int) (buf : Int → Int)
    (st1 : Int × Bfs) (hg : g.WF) (hci : isI32 c) (hbw0 : 0 ≤ bw) (hn : numb < 2147483648)
    (hinv : VolInv g s) (h : fsWriteBody g inum c numb buf (bw, s) = .next st1) :
    bw < numb ∧ 0 ≤ c + bw ∧ (c + bw) / g.BYTESPERBLOCK < g.NUMFBNS ∧
    ∃ dbn s1,
      ((bfsFbnToDbn s inum ((c + bw) / g.BYTESPERBLOCK) = some dbn ∧ s1 = s) ∨
       (bfsFbnToDbn s inum ((c + bw) / g.BYTESPERBLOCK) = none ∧
        ∃ rest, s.freeList = dbn :: rest ∧
          s1 = { s with
            freeList := rest
            inodes := Function.update s.inodes inum
              { s.inodes inum with
                dbns := setFbn (s.inodes inum).dbns ((c + bw) / g.BYTESPERBLOCK).toNat dbn } })) ∧
      st1 = (bw + min (g.BYTESPERBLOCK - (c + bw) % g.BYTESPERBLOCK) (numb - bw),
        { s1 with
          disk := Function.update s1.disk dbn
            (memcpy
              (if min (g.BYTESPERBLOCK - (c + bw) % g.BYTESPERBLOCK) (numb - bw)
                  < g.BYTESPERBLOCK then s1.disk dbn else fun _ => 0)
              ((c + bw) % g.BYTESPERBLOCK) buf bw
              (min (g.BYTESPERBLOCK - (c + bw) % g.BYTESPERBLOCK) (numb - bw))) }) := by
  have hgg := hg
  obtain ⟨hB0, hB1, hN0, hNB⟩ := hg
  have hp : ¬ add32 c bw < 0 := fun hp => fsWriteBody_neg g s inum c numb bw buf st1 hB0 hp h
  unfold fsWriteBody at h
  simp only at h
  by_cases hlt : bw < numb
  swap
  · simp [hlt] at h
  simp only [hlt, not_true_eq_false, if_false] at h
  have hadd : add32 c bw = c + bw := by
    unfold add32 wrap32 at hp ⊢
    unfold isI32 at hci
    omega
  rw [hadd] at hp
  have hdiv : (c + bw).tdiv g.BYTESPERBLOCK = (c + bw) / g.BYTESPERBLOCK :=
    Int.tdiv_eq_ediv (by omega) (by omega)
  have hmod : (c + bw).tmod g.BYTESPERBLOCK = (c + bw) % g.BYTESPERBLOCK :=
    Int.tmod_eq_emod (by omega) (by omega)
  have hm0 : 0 ≤ (c + bw) % g.BYTESPERBLOCK := Int.emod_nonneg _ (by omega)
  have hm1 : (c + bw) % g.BYTESPERBLOCK < g.BYTESPERBLOCK := Int.emod_lt_of_pos _ hB0
  have e1 : sub32 numb bw = numb - bw := sub32_eq ⟨by omega, by omega⟩
  have e3 : sub32 g.BYTESPERBLOCK ((c + bw) % g.BYTESPERBLOCK)
      = g.BYTESPERBLOCK - (c + bw) % g.BYTESPERBLOCK := sub32_eq ⟨by omega, by omega⟩
  have hmin : (if g.BYTESPERBLOCK - (c + bw) % g.BYTESPERBLOCK < numb - bw
      then g.BYTESPERBLOCK - (c + bw) % g.BYTESPERBLOCK else numb - bw)
      = min (g.BYTESPERBLOCK - (c + bw) % g.BYTESPERBLOCK) (numb - bw) := by
    rw [min_def]; split_ifs <;> omega
  simp only [hadd, hdiv, hmod, e1, e3, hmin] at h
  generalize ht : min (g.BYTESPERBLOCK - (c + bw) % g.BYTESPERBLOCK) (numb - bw) = t at h ⊢
  have ht1 : 1 ≤ t := by rw [← ht]; simp only [le_min_iff]; omega
  have ht2 : t ≤ numb - bw := by rw [← ht]; exact min_le_right _ _
  have hguard : ¬ ((c + bw) % g.BYTESPERBLOCK < 0 ∨ t < 0) := by omega
  have e4 : add32 bw t = bw + t := add32_eq ⟨by omega, by omega⟩
  simp only [hguard, if_false, e4, bioWrite, bioRead] at h
  refine ⟨hlt, by omega, ?_⟩
  cases hmap : bfsFbnToDbn s inum ((c + bw) / g.BYTESPERBLOCK) with
  | some dbn =>
    simp only [hmap, Step.next.injEq] at h
    exact ⟨bfsFbnToDbn_lt hinv hmap, dbn, s, Or.inl ⟨rfl, rfl⟩, h.symm⟩
  | none =>
    simp only [hmap] at h
    cases hal : bfsAllocBlock g s inum ((c + bw) / g.BYTESPERBLOCK) with
    | error e => simp [hal] at h
    | ok v =>
      obtain ⟨dbn, s1⟩ := v
      simp only [hal, Step.next.injEq] at h
      obtain ⟨_, hq, rest, hf, hs1⟩ := bfsAllocBlock_ok hal
      exact ⟨hq, dbn, s1, Or.inr ⟨rfl, rest, hf, hs1⟩, h.symm⟩

theorem VolInv_disk {g : Geom} {s : Bfs} (d : Int → Int → Int) (h : VolInv g s) :
    VolInv g { s with disk := d } := h

/-- The volume after the block of `(inum, q)` has been looked up or allocated. -/
theorem alloc_facts {g : Geom} {s s1 : Bfs} {inum q dbn : Int} (hinv : VolInv g s)
    (hq0 : 0 ≤ q) (hq : q < g.NUMFBNS)
    (h : (bfsFbnToDbn s inum q = some dbn ∧ s1 = s) ∨
       (bfsFbnToDbn s inum q = none ∧
        ∃ rest, s.freeList = dbn :: rest ∧
          s1 = { s with
            freeList := rest
            inodes := Function.update s.inodes inum
              { s.inodes inum with dbns := setFbn (s.inodes inum).dbns q.toNat dbn } })) :
    VolInv g s1 ∧ bfsFbnToDbn s1 inum q = some dbn ∧
    (∀ i f d, bfsFbnToDbn s i f = some d → bfsFbnToDbn s1 i f = some d) ∧
    (∀ i, (s1.inodes i).size = (s.inodes i).size) ∧
    (∀ i, i ≠ inum → s1.inodes i = s.inodes i) ∧
    s1.disk = s.disk ∧ s1.g_oft = s.g_oft ∧ s1.dir = s.dir ∧ s1.super = s.super := by
  rcases h with ⟨hmap, rfl⟩ | ⟨hmap, rest, hf, rfl⟩
  · exact ⟨hinv, hmap, fun _ _ _ h => h, fun _ => rfl, fun _ _ => rfl, rfl, rfl, rfl, rfl⟩
  · obtain ⟨hnd, hfree, hinj, hlen⟩ := hinv
    rw [hf] at hnd hfree
    have hnd' := List.nodup_cons.mp hnd
    have hmapeq := bfsFbnToDbn_alloc s inum q dbn rest hq0
    refine ⟨⟨hnd'.2, ?_, ?_, ?_⟩, ?_, ?_, ?_, ?_, rfl, rfl, rfl, rfl⟩
    · intro i f d hd
      rw [hmapeq] at hd
      by_cases hc : i = inum ∧ f = q
      · simp only [hc, and_self, if_true, Option.some.injEq] at hd
        subst hd
        exact hnd'.1
      · simp only [hc, if_false] at hd
        exact fun hm => hfree i f d hd (List.mem_cons_of_mem _ hm)
    · intro i1 f1 i2 f2 d h1 h2
      rw [hmapeq] at h1 h2
      by_cases hc1 : i1 = inum ∧ f1 = q
      · simp only [hc1, and_self, if_true, Option.some.injEq] at h1
        by_cases hc2 : i2 = inum ∧ f2 = q
        · exact ⟨hc1.1.trans hc2.1.symm, hc1.2.trans hc2.2.symm⟩
        · simp only [hc2, if_false] at h2
          subst h1
          exact absurd (List.mem_cons_self _ _) (hfree i2 f2 _ h2)
      · simp only [hc1, if_false] at h1
        by_cases hc2 : i2 = inum ∧ f2 = q
        · simp only [hc2, and_self, if_true, Option.some.injEq] at h2
          subst h2
          exact absurd (List.mem_cons_self _ _) (hfree i1 f1 _ h1)
        · simp only [hc2, if_false] at h2
          exact hinj i1 f1 i2 f2 d h1 h2
    · intro i
      by_cases hi : i = inum
      · subst hi
        simp only [Function.update_same, setFbn_length]
        have := hlen i
        have hq1 : (q.toNat : Int) = q := Int.toNat_of_nonneg hq0
        omega
      · simp only [Function.update_noteq hi]
        exact hlen i
    · rw [hmapeq]; simp
    · intro i f d hd
      rw [hmapeq]
      by_cases hc : i = inum ∧ f = q
      · obtain ⟨rfl, rfl⟩ := hc
        rw [hmap] at hd
        cases hd
      · simp only [hc, if_false]
        exact hd
    · intro i
      by_cases hi : i = inum
      · subst hi; simp
      · simp [Function.update_noteq hi]
    · intro i hi
      simp [Function.update_noteq hi]

/-- The invariant of the loop of `fsWrite` is kept by every pass that goes on. -/
theorem WInv_next (g : Geom) (s0 : Bfs) (inum c numb : Int) (buf : Int → Int)
    (st st1 : Int × Bfs) (hg : g.WF) (hci : isI32 c) (hn : numb < 2147483648)
    (hI : WInv g s0 inum c numb buf st)
    (h : fsWriteBody g inum c numb buf st = .next st1) :
    WInv g s0 inum c numb buf st1 := by
  obtain ⟨bw, s⟩ := st
  obtain ⟨h0, h1, h2, hinv, hoft, hdir, hsup, hsz, hoth, hmono, hwr, hpre⟩ := hI
  simp only at h0 h1 h2 hinv hoft hdir hsup hsz hoth hmono hwr hpre
  obtain ⟨hlt, hpos, hqN, dbn, s1, hal, rfl⟩ :=
    fsWriteBody_next g s inum c numb bw buf st1 hg hci h0 hn hinv h
  obtain ⟨hB0, hB1, hN0, hNB⟩ := hg
  have hq0 : 0 ≤ (c + bw) / g.BYTESPERBLOCK := Int.ediv_nonneg hpos (by omega)
  obtain ⟨a1, a2, a3, a4, a5, a6, a7, a8, a9⟩ := alloc_facts hinv hq0 hqN hal
  have hr0 : 0 ≤ (c + bw) % g.BYTESPERBLOCK := Int.emod_nonneg _ (by omega)
  have hr1 : (c + bw) % g.BYTESPERBLOCK < g.BYTESPERBLOCK := Int.emod_lt_of_pos _ hB0
  have hqr := Int.ediv_add_emod (c + bw) g.BYTESPERBLOCK
  generalize hq : (c + bw) / g.BYTESPERBLOCK = q at hqr hal hqN hq0 a2
  generalize hr : (c + bw) % g.BYTESPERBLOCK = r at hqr hr0 hr1
  generalize ht : min (g.BYTESPERBLOCK - r) (numb - bw) = t
  have ht1 : 1 ≤ t := by rw [← ht]; simp only [le_min_iff]; omega
  have ht2 : t ≤ numb - bw := by rw [← ht]; exact min_le_right _ _
  have ht3 : t ≤ g.BYTESPERBLOCK - r := by rw [← ht]; exact min_le_left _ _
  have ht4 : t = g.BYTESPERBLOCK - r ∨ t = numb - bw := by
    rw [← ht, min_def]; split_ifs <;> simp
  have hc0 : 0 ≤ c := by rcases h2 with h | h <;> omega
  have hbw : bw = 0 ∨ r = 0 := by
    rcases h2 with h | ⟨_, _, h⟩
    · exact Or.inl h
    · right; rw [← hr]; exact h hlt
  have hmul : g.BYTESPERBLOCK * (q + 1) ≤ g.NUMFBNS * g.BYTESPERBLOCK := by
    rw [Int.mul_comm g.NUMFBNS]
    exact Int.mul_le_mul_of_nonneg_left (by omega) (by omega)
  have hmul2 : g.BYTESPERBLOCK * (q + 1) = g.BYTESPERBLOCK * q + g.BYTESPERBLOCK := by ring
  refine ⟨by simp only; omega, by simp only; omega, Or.inr ⟨hc0, by simp only; omega, ?_⟩,
    VolInv_disk _ a1, a7.trans hoft, a8.trans hdir, a9.trans hsup,
    fun i => (a4 i).trans (hsz i), fun i hi => (a5 i hi).trans (hoth i hi),
    fun i f d hd => a3 i f d (hmono i f d hd), ?_, ?_⟩
  · intro hlt2
    simp only at hlt2 ⊢
    have : t = g.BYTESPERBLOCK - r := by omega
    exact (ediv_emod_unique (x := c + (bw + t)) (q := q + 1) (r := 0) hB0
      (by omega) (le_refl _) hB0).2
  · intro j hj0 hj1
    simp only at hj1 ⊢
    by_cases hjlt : j < bw
    · obtain ⟨d, hd1, hd2⟩ := hwr j hj0 hjlt
      have hd1' := a3 _ _ _ hd1
      refine ⟨d, hd1', ?_⟩
      have hne : d ≠ dbn := by
        intro hdd
        subst hdd
        have := (a1.2.2.1 _ _ _ _ _ hd1' a2).2
        have hjr := Int.ediv_add_emod (c + j) g.BYTESPERBLOCK
        have hjr0 : 0 ≤ (c + j) % g.BYTESPERBLOCK := Int.emod_nonneg _ (by omega)
        rw [this] at hjr
        omega
      rw [Function.update_noteq hne, a6]
      exact hd2
    · have hu := ediv_emod_unique (x := c + j) (q := q) (r := r + (j - bw)) hB0
        (by omega) (by omega) (by omega)
      refine ⟨dbn, by rw [hu.1]; exact a2, ?_⟩
      rw [Function.update_same, hu.2]
      simp only [memcpy]
      rw [if_pos (by omega)]
      congr 1
      omega
  · intro i f d off hd hoff0 hoff1 hout
    simp only at hout ⊢
    have hold := hpre i f d off hd hoff0 hoff1 (by
      intro hi
      rcases hout hi with h | h
      · exact Or.inl h
      · exact Or.inr (by omega))
    by_cases hne : d = dbn
    · subst hne
      have hd1 := a3 _ _ _ (hmono _ _ _ hd)
      obtain ⟨hi, hf⟩ := a1.2.2.1 _ _ _ _ _ hd1 a2
      subst hf
      have hfm : f * g.BYTESPERBLOCK = g.BYTESPERBLOCK * f := Int.mul_comm _ _
      have hrange : off < r ∨ r + t ≤ off := by
        rcases hout hi with h | h
        · left; omega
        · right; omega
      rw [Function.update_same]
      simp only [memcpy]
      rw [if_neg (by omega)]
      have htB : t < g.BYTESPERBLOCK := by omega
      rw [if_pos htB, a6]
      exact hold
    · rw [Function.update_noteq hne, a6]
      exact hold

theorem fsWriteBody_done {g : Geom} {inum c numb : Int} {buf : Int → Int} {st r : Int × Bfs}
    (h : fsWriteBody g inum c numb buf st = .done r) : r = st ∧ ¬ st.1 < numb := by
  unfold fsWriteBody at h
  simp only at h
  by_cases hlt : st.1 < numb
  · simp only [hlt, not_true_eq_false, if_false] at h
    split at h
    · cases h
    · split_ifs at h
  · simp only [hlt, not_false_eq_true, if_true, Step.done.injEq] at h
    exact ⟨h.symm, hlt⟩

theorem bfsFdToInum_congr {s s1 : Bfs} (h : s1.g_oft = s.g_oft) (fd : Int) :
    bfsFdToInum s1 fd = bfsFdToInum s fd := by
  unfold bfsFdToInum; rw [h]

theorem bfsFindOFTE_congr {s s1 : Bfs} (h : s1.g_oft = s.g_oft) (inum : Int) :
    bfsFindOFTE s1 inum = bfsFindOFTE s inum := by
  unfold bfsFindOFTE; rw [h]

theorem bfsTell_congr {s s1 : Bfs} (h : s1.g_oft = s.g_oft) (fd : Int) :
    bfsTell s1 fd = bfsTell s fd := by
  unfold bfsTell bfsFdToInum bfsFindOFTE; rw [h]

theorem WInv_init (g : Geom) (s : Bfs) (inum c numb : Int) (buf : Int → Int) (hn0 : 0 ≤ numb)
    (hinv : VolInv g s) : WInv g s inum c numb buf (0, s) :=
  ⟨le_refl _, hn0, Or.inl rfl, hinv, rfl, rfl, rfl, fun _ => rfl, fun _ _ => rfl,
    fun _ _ _ h => h, fun j h0 h1 => absurd h1 (by simp only; omega), fun _ _ _ _ _ _ _ _ => rfl⟩

/-- A call of `fsWrite` that returns: the loop has consumed exactly `numb` bytes
and kept its invariant, the cursor has moved by `numb`, and the size is raised to
`c + numb` if that is larger. -/
theorem fsWrite_ok_spec (g : Geom) (s : Bfs) (fd inum c numb v : Int) (buf : Int → Int)
    (s' : Bfs) (hg : g.WF) (hfd : bfsFdToInum s fd = some inum) (hc : bfsTell s fd = some c)
    (hci : isI32 c) (hn0 : 0 ≤ numb) (hn : numb < 2147483648) (hinv : VolInv g s)
    (hw : fsWrite g s fd numb buf = .ok v s') :
    v = 0 ∧ ∃ s1 ofte, WInv g s inum c numb buf (numb, s1) ∧
      bfsFindOFTE s inum = some ofte ∧ isI32 (c + numb) ∧
      s' = (if c + numb > bfsGetSize s inum
        then bfsSetSize { s1 with g_oft := updCurs s1.g_oft ofte (fun curs => add32 curs numb) }
          inum (c + numb)
        else { s1 with g_oft := updCurs s1.g_oft ofte (fun curs => add32 curs numb) }) := by
  have hnn : ¬ numb < 0 := by omega
  simp only [fsWrite, hnn, if_false, hfd, hc] at hw
  cases hiter : iter (fsWriteBody g inum c numb buf) numb.toNat (0, s) with
  | error e => obtain ⟨e1, st⟩ := e; simp [hiter] at hw
  | ok r =>
    obtain ⟨bw, s1⟩ := r
    simp only [hiter] at hw
    have hQ := iter_partial (fsWriteBody g inum c numb buf) (WInv g s inum c numb buf)
      (fun st => WInv g s inum c numb buf st ∧ ¬ st.1 < numb)
      (fun st r hI hd => by
        obtain ⟨rfl, hlt⟩ := fsWriteBody_done hd
        exact ⟨hI, hlt⟩)
      (fun st st1 hI hnx => WInv_next g s inum c numb buf st st1 hg hci hn hI hnx)
      numb.toNat (0, s) (bw, s1) (WInv_init g s inum c numb buf hn0 hinv) hiter
    obtain ⟨hI, hlt⟩ := hQ
    simp only at hlt
    have hbw : bw = numb := by have := hI.2.1; simp only at this; omega
    subst hbw
    have hoft : s1.g_oft = s.g_oft := hI.2.2.2.2.1
    obtain ⟨ofte, ho⟩ := bfsFdToInum_find hfd
    have hfd1 : bfsFdToInum s1 fd = some inum := by rw [bfsFdToInum_congr hoft]; exact hfd
    have ho1 : bfsFindOFTE s1 inum = some ofte := by rw [bfsFindOFTE_congr hoft]; exact ho
    have hseek := (fsSeek_ok hfd1 ho1 hn0).2.1
    have hty : isI32 (c + bw) := by
      have h3 := hI.2.2.1
      simp only at h3
      obtain ⟨_, _, _, hNB⟩ := hg
      unfold isI32 at hci ⊢
      rcases h3 with h | ⟨h, h', _⟩ <;> omega
    have hsz : bfsGetSize { s1 with
        g_oft := updCurs s1.g_oft ofte (fun curs => add32 curs bw) } inum
        = bfsGetSize s inum := hI.2.2.2.2.2.2.2.1 inum
    simp only [hseek, add32_eq hty, hsz] at hw
    by_cases hgt : c + bw > bfsGetSize s inum
    · simp only [hgt, if_true, Res.ok.injEq] at hw ⊢
      exact ⟨hw.1.symm, s1, ofte, hI, ho, hty, hw.2.symm⟩
    · simp only [hgt, if_false, Res.ok.injEq] at hw ⊢
      exact ⟨hw.1.symm, s1, ofte, hI, ho, hty, hw.2.symm⟩

theorem bfsFbnToDbn_setSize (s : Bfs) (inum size i f : Int) :
    bfsFbnToDbn (bfsSetSize s inum size) i f = bfsFbnToDbn s i f := by
  unfold bfsFbnToDbn bfsSetSize
  by_cases hi : i = inum
  · subst hi; simp
  · simp [Function.update_noteq hi]

theorem VolInv_setSize {g : Geom} {s : Bfs} (inum size : Int) (h : VolInv g s) :
    VolInv g (bfsSetSize s inum size) := by
  obtain ⟨h1, h2, h3, h4⟩ := h
  refine ⟨h1, ?_, ?_, ?_⟩
  · intro i f d hd
    rw [bfsFbnToDbn_setSize] at hd
    exact h2 i f d hd
  · intro i1 f1 i2 f2 d hd1 hd2
    rw [bfsFbnToDbn_setSize] at hd1 hd2
    exact h3 i1 f1 i2 f2 d hd1 hd2
  · intro i
    unfold bfsSetSize
    by_cases hi : i = inum
    · subst hi; simpa using h4 i
    · simpa [Function.update_noteq hi] using h4 i

theorem VolInv_oft {g : Geom} {s : Bfs} (l : List OFTE) (h : VolInv g s) :
    VolInv g { s with g_oft := l } := h

/-- What a call of `fsWrite` that returns leaves behind, seen from outside. -/
theorem fsWrite_ok_obs (g : Geom) (s : Bfs) (fd inum c numb v : Int) (buf : Int → Int)
    (s' : Bfs) (hg : g.WF) (hfd : bfsFdToInum s fd = some inum) (hc : bfsTell s fd = some c)
    (hci : isI32 c) (hn0 : 0 ≤ numb) (hn : numb < 2147483648) (hinv : VolInv g s)
    (hw : fsWrite g s fd numb buf = .ok v s') :
    v = 0 ∧ isI32 (c + numb) ∧ (numb = 0 ∨ 0 ≤ c) ∧ VolInv g s' ∧
    bfsGetSize s' inum = max (bfsGetSize s inum) (c + numb) ∧
    (∀ i, i ≠ inum → s'.inodes i = s.inodes i) ∧
    bfsFdToInum s' fd = some inum ∧ bfsTell s' fd = some (c + numb) ∧
    s'.dir = s.dir ∧ s'.super = s.super ∧
    (∀ i f d, bfsFbnToDbn s i f = some d → bfsFbnToDbn s' i f = some d) ∧
    (∀ j, 0 ≤ j → j < numb → fileByte g s' inum (c + j) = some (buf j)) ∧
    (∀ i f d off, bfsFbnToDbn s i f = some d → 0 ≤ off → off < g.BYTESPERBLOCK →
      (i = inum → f * g.BYTESPERBLOCK + off < c ∨ c + numb ≤ f * g.BYTESPERBLOCK + off) →
      s'.disk d off = s.disk d off) := by
  obtain ⟨hv, s1, ofte, hI, ho, hty, hs'⟩ :=
    fsWrite_ok_spec g s fd inum c numb v buf s' hg hfd hc hci hn0 hn hinv hw
  obtain ⟨h0, h1, h2, hinv1, hoft, hdir, hsup, hsz, hoth, hmono, hwr, hpre⟩ := hI
  simp only at h0 h1 h2 hinv1 hoft hdir hsup hsz hoth hmono hwr hpre
  have hfd1 : bfsFdToInum s1 fd = some inum := by rw [bfsFdToInum_congr hoft]; exact hfd
  have ho1 : bfsFindOFTE s1 inum = some ofte := by rw [bfsFindOFTE_congr hoft]; exact ho
  have hc1 : bfsTell s1 fd = some c := by rw [bfsTell_congr hoft]; exact hc
  have htell := bfsTell_updCurs (fun curs => add32 curs numb) hfd1 ho1 hc1
  simp only [add32_eq hty] at htell
  have hfd2 := (bfsFdToInum_updCurs s1 ofte (fun curs => add32 curs numb) fd).trans hfd1
  have hc0 : numb = 0 ∨ 0 ≤ c := by rcases h2 with h | h <;> omega
  by_cases hgt : c + numb > bfsGetSize s inum
  · simp only [hgt, if_true] at hs'
    subst hs'
    refine ⟨hv, hty, hc0, VolInv_setSize _ _ (VolInv_oft _ hinv1), ?_, ?_, hfd2, ?_, hdir, hsup,
      ?_, ?_, hpre⟩
    · have hm : c + numb = max (bfsGetSize s inum) (c + numb) :=
        (max_eq_right (le_of_lt hgt)).symm
      simpa only [bfsGetSize, bfsSetSize, Function.update_same] using hm
    · intro i hi
      simp only [bfsSetSize, Function.update_noteq hi]
      exact hoth i hi
    · rw [← htell]; rfl
    · intro i f d hd
      rw [bfsFbnToDbn_setSize]
      exact hmono i f d hd
    · intro j hj0 hj1
      obtain ⟨d, hd1, hd2⟩ := hwr j hj0 hj1
      simp only [fileByte, bfsFbnToDbn_setSize]
      rw [show bfsFbnToDbn { s1 with
        g_oft := updCurs s1.g_oft ofte (fun curs => add32 curs numb) } inum
          ((c + j) / g.BYTESPERBLOCK) = some d from hd1]
      simp only [Option.map_some', Option.some.injEq]
      exact hd2
  · simp only [hgt, if_false] at hs'
    subst hs'
    refine ⟨hv, hty, hc0, VolInv_oft _ hinv1, ?_, hoth, hfd2, htell, hdir, hsup, hmono, ?_, hpre⟩
    · have hm : bfsGetSize s inum = max (bfsGetSize s inum) (c + numb) :=
        (max_eq_left (by omega)).symm
      rw [← hm]
      exact hsz inum
    · intro j hj0 hj1
      obtain ⟨d, hd1, hd2⟩ := hwr j hj0 hj1
      simp only [fileByte]
      rw [show bfsFbnToDbn { s1 with
        g_oft := updCurs s1.g_oft ofte (fun curs => add32 curs numb) } inum
          ((c + j) / g.BYTESPERBLOCK) = some d from hd1]
      simp only [Option.map_some', Option.some.injEq]
      exact hd2

/-- The loop of `fsRead` from a negative cursor: if it returns, it has read
nothing. -/
theorem fsRead_loop_neg (g : Geom) (s : Bfs) (inum c size numb : Int) (buf : Int → Int)
    (fuel : Nat) (r : Int × (Int → Int)) (hB0 : 0 < g.BYTESPERBLOCK) (hci : isI32 c)
    (hc : c < 0) (h : iter (fsReadBody g s inum c size numb) fuel (0, buf) = .ok r) :
    r = (0, buf) ∧ (¬ 0 < numb ∨ size ≤ c ∨ bfsFbnToDbn s inum (c.tdiv g.BYTESPERBLOCK) = none) := by
  have hadd : add32 c 0 = c := add32_zero hci
  have hbody : (fsReadBody g s inum c size numb (0, buf) = .done (0, buf) ∧
      (¬ 0 < numb ∨ size ≤ c ∨ bfsFbnToDbn s inum (c.tdiv g.BYTESPERBLOCK) = none)) ∨
      ∃ e st, fsReadBody g s inum c size numb (0, buf) = .abort e st := by
    unfold fsReadBody
    simp only [hadd]
    by_cases h1 : (0 : Int) < numb
    · by_cases h2 : c ≥ size
      · left; simp [h1, h2]
      · cases hmap : bfsFbnToDbn s inum (c.tdiv g.BYTESPERBLOCK) with
        | none => left; simp [h1, h2]
        | some dbn =>
          right
          have hq0 := bfsFbnToDbn_nonneg hmap
          have hq := tdiv_nonpos_of_neg hc hB0
          have hm := Int.tmod_add_tdiv c g.BYTESPERBLOCK
          rw [show c.tdiv g.BYTESPERBLOCK = 0 by omega] at hm
          have hm2 : c.tmod g.BYTESPERBLOCK < 0 := by omega
          simp [h1, h2, hm2]
    · left; simp [h1]
  rcases hbody with ⟨hb, hcond⟩ | ⟨e, st, hb⟩
  · rw [iter_done hb] at h
    cases h
    exact ⟨rfl, hcond⟩
  · cases fuel <;> simp [iter, hb] at h

theorem fsRead_ok_pre {g : Geom} {s s1 : Bfs} {fd numb : Int} {buf : Int → Int}
    {r : Int × (Int → Int)} (h : fsRead g s fd numb buf = .ok r s1) :
    0 ≤ numb ∧ ∃ inum c, bfsFdToInum s fd = some inum ∧ bfsTell s fd = some c ∧
      ∃ r1, iter (fsReadBody g s inum c (bfsGetSize s inum) numb) numb.toNat (0, buf) = .ok r1 ∧
        r = r1 := by
  unfold fsRead at h
  by_cases hn : numb < 0
  · simp [hn] at h
  · simp only [hn, if_false] at h
    cases hfd : bfsFdToInum s fd with
    | none => simp [hfd] at h
    | some inum =>
      simp only [hfd] at h
      cases hc : bfsTell s fd with
      | none => simp [hc] at h
      | some c =>
        simp only [hc] at h
        refine ⟨by omega, inum, c, rfl, rfl, ?_⟩
        cases hit : iter (fsReadBody g s inum c (bfsGetSize s inum) numb) numb.toNat (0, buf) with
        | error e => simp [hit] at h
        | ok r1 =>
          simp only [hit] at h
          refine ⟨r1, rfl, ?_⟩
          obtain ⟨a, b⟩ := r1
          simp only at h
          split at h
          · cases h
          · cases h; rfl

/-! ## Cursors -/

theorem updCurs_forall {P : Int → Prop} (l : List OFTE) (k : Nat) (f : Int → Int)
    (h : ∀ e ∈ l, P e.curs) (hk : ∀ e0, l[k]? = some e0 → P (f e0.curs)) :
    ∀ e ∈ updCurs l k f, P e.curs := by
  induction l generalizing k with
  | nil => intro e he; simp [updCurs] at he
  | cons a as ih =>
    cases k with
    | zero =>
      intro e he
      simp only [updCurs, List.mem_cons] at he
      rcases he with rfl | he
      · exact hk a (by simp)
      · exact h e (List.mem_cons_of_mem _ he)
    | succ k =>
      intro e he
      simp only [updCurs, List.mem_cons] at he
      rcases he with rfl | he
      · exact h _ (List.mem_cons_self _ _)
      · exact ih k (fun e1 h1 => h e1 (List.mem_cons_of_mem _ h1))
          (fun e0 h0 => hk e0 (by simpa using h0)) e he

theorem getElem?_mem_oft {l : List OFTE} {k : Nat} {e : OFTE} (h : l[k]? = some e) : e ∈ l := by
  induction l generalizing k with
  | nil => simp at h
  | cons a as ih =>
    cases k with
    | zero => simp at h; subst h; exact List.mem_cons_self _ _
    | succ k => simp at h; exact List.mem_cons_of_mem _ (ih h)

/-- What a call of `fsSeek` that returns has found and done. -/
theorem fsSeek_ok_inv {s s1 : Bfs} {fd offset whence v : Int}
    (h : fsSeek s fd offset whence = .ok v s1) :
    0 ≤ offset ∧ ∃ inum ofte e0, bfsFdToInum s fd = some inum ∧
      bfsFindOFTE s inum = some ofte ∧ s.g_oft[ofte]? = some e0 ∧
      bfsTell s fd = some e0.curs ∧
      ((whence = SEEK_SET ∧ s1 = { s with g_oft := updCurs s.g_oft ofte (fun _ => offset) }) ∨
       (whence = SEEK_CUR ∧
        s1 = { s with g_oft := updCurs s.g_oft ofte (fun curs => add32 curs offset) }) ∨
       (whence = SEEK_END ∧
        s1 = { s with
          g_oft := updCurs s.g_oft ofte (fun _ => add32 (bfsGetSize s inum) offset) })) := by
  by_cases hoff : offset < 0
  · simp [fsSeek, hoff] at h
  · cases hfd : bfsFdToInum s fd with
    | none => simp [fsSeek, hoff, hfd] at h
    | some inum =>
      cases ho : bfsFindOFTE s inum with
      | none => simp [fsSeek, hoff, hfd, ho] at h
      | some ofte =>
        obtain ⟨e0, he0, hte⟩ := bfsTell_some hfd ho
        refine ⟨by omega, inum, ofte, e0, rfl, ho, he0, hte, ?_⟩
        rcases fsSeek_cases offset whence hfd ho hoff with
          ⟨hw, h1⟩ | ⟨hw, h1⟩ | ⟨hw, h1⟩ | ⟨_, _, _, h1⟩ <;> rw [h1] at h <;> cases h
        · exact Or.inl ⟨hw, rfl⟩
        · exact Or.inr (Or.inl ⟨hw, rfl⟩)
        · exact Or.inr (Or.inr ⟨hw, rfl⟩)

theorem fsWrite_ok_pre {g : Geom} {s s1 : Bfs} {fd numb v : Int} {buf : Int → Int}
    (h : fsWrite g s fd numb buf = .ok v s1) :
    0 ≤ numb ∧ ∃ inum c, bfsFdToInum s fd = some inum ∧ bfsTell s fd = some c := by
  unfold fsWrite at h
  by_cases hn : numb < 0
  · simp [hn] at h
  · cases hfd : bfsFdToInum s fd with
    | none => simp [hn, hfd] at h
    | some inum =>
      cases hc : bfsTell s fd with
      | none => simp [hn, hfd, hc] at h
      | some c => exact ⟨by omega, inum, c, rfl, rfl⟩

theorem CursInv_seek {g : Geom} {s s1 : Bfs} {fd offset whence v : Int} (hI : CursInv g s)
    (ho : offset < 2147483648) (h : fsSeek s fd offset whence = .ok v s1)
    (h1 : whence = SEEK_CUR → ∀ c, bfsTell s fd = some c → c + offset < 2147483648)
    (h2 : whence = SEEK_END → ∀ inum, bfsFdToInum s fd = some inum →
      bfsGetSize s inum + offset < 2147483648) : CursInv g s1 := by
  obtain ⟨hv, hcur, hsz⟩ := hI
  obtain ⟨hoff, inum, ofte, e0, hfd, hfo, he0, hte, hcase⟩ := fsSeek_ok_inv h
  have hc0 := hcur e0 (getElem?_mem_oft he0)
  rcases hcase with ⟨hw, rfl⟩ | ⟨hw, rfl⟩ | ⟨hw, rfl⟩
  · refine ⟨VolInv_oft _ hv, ?_, hsz⟩
    exact updCurs_forall (P := fun x => 0 ≤ x ∧ x < 2147483648) _ _ _ hcur
      (fun _ _ => ⟨hoff, ho⟩)
  · refine ⟨VolInv_oft _ hv, ?_, hsz⟩
    refine updCurs_forall (P := fun x => 0 ≤ x ∧ x < 2147483648) _ _ _ hcur ?_
    intro e1 he1
    rw [he0] at he1
    cases he1
    have := h1 hw _ hte
    rw [add32_eq ⟨by omega, by omega⟩]
    omega
  · refine ⟨VolInv_oft _ hv, ?_, hsz⟩
    refine updCurs_forall (P := fun x => 0 ≤ x ∧ x < 2147483648) _ _ _ hcur ?_
    intro e1 _
    have := h2 hw _ hfd
    have hs := hsz inum
    simp only [bfsGetSize] at this ⊢
    rw [add32_eq ⟨by omega, by omega⟩]
    omega

theorem CursInv_read {g : Geom} {s s1 : Bfs} {fd numb : Int} {buf : Int → Int}
    {r : Int × (Int → Int)} (hg : g.WF) (hI : CursInv g s) (hn : numb < 2147483648)
    (h : fsRead g s fd numb buf = .ok r s1) : CursInv g s1 := by
  obtain ⟨hv, hcur, hsz⟩ := hI
  obtain ⟨hn0, inum, c, hfd, hc, _⟩ := fsRead_ok_pre h
  obtain ⟨ofte0, hfo0⟩ := bfsFdToInum_find hfd
  obtain ⟨e0, he0, hte⟩ := bfsTell_some hfd hfo0
  rw [hc] at hte
  cases hte
  have hc0 := hcur e0 (getElem?_mem_oft he0)
  have hs := hsz inum
  obtain ⟨br, buf1, ofte, hfo, hread, _, h0, h1, h2, _⟩ :=
    fsRead_spec g s fd inum e0.curs numb buf hg hfd hc hc0.1 hc0.2 hs.2 hn0 hn
  rw [hfo0] at hfo
  cases hfo
  rw [hread] at h
  cases h
  refine ⟨VolInv_oft _ hv, ?_, hsz⟩
  refine updCurs_forall (P := fun x => 0 ≤ x ∧ x < 2147483648) _ _ _ hcur ?_
  intro e1 he1
  rw [he0] at he1
  cases he1
  simp only [bfsGetSize] at h2
  rw [add32_eq ⟨by omega, by omega⟩]
  omega

theorem CursInv_write {g : Geom} {s s1 : Bfs} {fd numb v : Int} {buf : Int → Int}
    (hg : g.WF) (hI : CursInv g s) (hn : numb < 2147483648)
    (h : fsWrite g s fd numb buf = .ok v s1) : CursInv g s1 := by
  obtain ⟨hv, hcur, hsz⟩ := hI
  obtain ⟨hn0, inum, c, hfd, hc⟩ := fsWrite_ok_pre h
  obtain ⟨ofte0, hfo0⟩ := bfsFdToInum_find hfd
  obtain ⟨e0, he0, hte⟩ := bfsTell_some hfd hfo0
  rw [hc] at hte
  cases hte
  have hc0 := hcur e0 (getElem?_mem_oft he0)
  have hci : isI32 e0.curs := ⟨by omega, hc0.2⟩
  obtain ⟨_, hty, _, hv1, hsize, hoth, _⟩ :=
    fsWrite_ok_obs g s fd inum e0.curs numb v buf s1 hg hfd hc hci hn0 hn hv h
  obtain ⟨_, s2, ofte, hW, hfo, _, hs1⟩ :=
    fsWrite_ok_spec g s fd inum e0.curs numb v buf s1 hg hfd hc hci hn0 hn hv h
  rw [hfo0] at hfo
  cases hfo
  have hoft : s2.g_oft = s.g_oft := hW.2.2.2.2.1
  have hg1 : s1.g_oft = updCurs s.g_oft ofte0 (fun curs => add32 curs numb) := by
    rw [hs1, ← hoft]
    split <;> rfl
  refine ⟨hv1, ?_, ?_⟩
  · rw [hg1]
    refine updCurs_forall (P := fun x => 0 ≤ x ∧ x < 2147483648) _ _ _ hcur ?_
    intro e1 he1
    rw [he0] at he1
    cases he1
    rw [add32_eq hty]
    unfold isI32 at hty
    omega
  · intro i
    by_cases hi : i = inum
    · subst hi
      have hs := hsz i
      simp only [bfsGetSize] at hsize
      rw [hsize]
      unfold isI32 at hty
      exact ⟨le_trans hs.1 (le_max_left _ _), max_lt hs.2 hty.2⟩
    · rw [hoth i hi]
      exact hsz i

theorem CursInv_reach {g : Geom} {s0 s : Bfs} (hg : g.WF) (h0 : CursInv g s0)
    (hr : CursReach g s0 s) : CursInv g s := by
  induction hr with
  | init => exact h0
  | seek s s1 fd offset whence v _ ho h h1 h2 ih => exact CursInv_seek ih ho h h1 h2
  | read s s1 fd numb buf r _ hn h ih => exact CursInv_read hg ih hn h
  | write s s1 fd numb v buf _ hn h ih => exact CursInv_write hg ih hn h


/-! ## The example volumes -/

theorem Res.ok_of_val {α : Type} {r : Res α} {v : α} (h : r.val? = some v) :
    r = .ok v r.state := by
  cases r with
  | ok v1 s => simp [Res.val?] at h; subst h; rfl
  | fatal e s => simp [Res.val?] at h

theorem fsSeek_VolInv {g : Geom} {s : Bfs} (fd offset whence : Int) (h : VolInv g s) :
    VolInv g (fsSeek s fd offset whence).state := by
  rcases fsSeek_state s fd offset whence with h1 | ⟨_, _, _, _, _, h1⟩ <;> rw [h1]
  · exact h
  · exact VolInv_oft _ h

theorem volA_inv : VolInv g4 volA := by
  have hd : ∀ i, (volA.inodes i).dbns = [] := by
    intro i
    have : volA.inodes = Function.update (fun _ => { inuse := false, size := 0, dbns := [] })
        0 { inuse := true, size := 0, dbns := [] } := rfl
    rw [this]
    by_cases hi : i = 0
    · subst hi; simp
    · simp [Function.update_noteq hi]
  have hm : ∀ i f, bfsFbnToDbn volA i f = none := by
    intro i f
    unfold bfsFbnToDbn
    rw [hd i]
    split <;> simp [getFbn]
  refine ⟨by decide, ?_, ?_, ?_⟩
  · intro i f d h; rw [hm] at h; cases h
  · intro i1 f1 i2 f2 d h; rw [hm] at h; cases h
  · intro i; rw [hd i]; decide

theorem volW_inv : VolInv g4 volW :=
  (fsWrite_ok_obs g4 volA 0 0 0 6 0 (fun i => 10 + i) volW (by decide) (by decide) (by decide)
    (by decide) (by decide) (by decide) volA_inv (Res.ok_of_val (by decide))).2.2.2.1

theorem volR_inv : VolInv g4 volR := fsSeek_VolInv _ _ _ volW_inv

theorem volT5_inv : VolInv g4 volT5 :=
  fsSeek_VolInv _ _ _
    (fsWrite_ok_obs g4 volA 0 0 0 10 0 (fun i => 100 + i) _ (by decide) (by decide) (by decide)
      (by decide) (by decide) (by decide) volA_inv (Res.ok_of_val (by decide))).2.2.2.1


theorem volA_cursInv : CursInv g4 volA := by
  refine ⟨volA_inv, by decide, ?_⟩
  intro i
  have : volA.inodes = Function.update (fun _ => { inuse := false, size := 0, dbns := [] })
      0 { inuse := true, size := 0, dbns := [] } := rfl
  rw [this]
  by_cases hi : i = 0
  · subst hi; simp
  · simp [Function.update_noteq hi]

/-! ## Reachable volumes -/

theorem updRefs_curs (l : List OFTE) (k : Nat) (f : Int → Int) :
    ∀ e ∈ updRefs l k f, ∃ e0 ∈ l, e.curs = e0.curs := by
  induction l generalizing k with
  | nil => intro e he; simp [updRefs] at he
  | cons a as ih =>
    cases k with
    | zero =>
      intro e he
      simp only [updRefs, List.mem_cons] at he
      rcases he with rfl | he
      · exact ⟨a, List.mem_cons_self _ _, rfl⟩
      · exact ⟨e, List.mem_cons_of_mem _ he, rfl⟩
    | succ k =>
      intro e he
      simp only [updRefs, List.mem_cons] at he
      rcases he with rfl | he
      · exact ⟨e, List.mem_cons_self _ _, rfl⟩
      · obtain ⟨e0, h0, h1⟩ := ih k e he
        exact ⟨e0, List.mem_cons_of_mem _ h0, h1⟩

theorem bfsInumToFd_inv {g : Geom} {s s1 : Bfs} {inum fd : Int}
    (h : bfsInumToFd s inum = .ok (fd, s1)) (hv : VolInv g s) (ht : WellTyped s) :
    VolInv g s1 ∧ WellTyped s1 := by
  unfold bfsInumToFd at h
  cases hf : findOFTE s.g_oft inum with
  | some ofte =>
    simp only [hf, Except.ok.injEq, Prod.mk.injEq] at h
    obtain ⟨_, rfl⟩ := h
    refine ⟨VolInv_oft _ hv, ?_, ht.2⟩
    intro e he
    obtain ⟨e0, h0, h1⟩ := updRefs_curs _ _ _ e he
    rw [h1]
    exact ht.1 e0 h0
  | none =>
    simp only [hf] at h
    cases hfr : findFreeOFTE s.g_oft with
    | none => simp [hfr] at h
    | some ofte =>
      simp only [hfr, Except.ok.injEq, Prod.mk.injEq] at h
      obtain ⟨_, rfl⟩ := h
      refine ⟨VolInv_oft _ hv, ?_, ht.2⟩
      intro e he
      rcases List.mem_or_eq_of_mem_set he with h1 | rfl
      · exact ht.1 e h1
      · show isI32 0
        decide

theorem bfsFbnToDbn_reinit (s : Bfs) (inum i f : Int) (d : Int)
    (h : bfsFbnToDbn { s with
      inodes := Function.update s.inodes inum { inuse := true, size := 0, dbns := [] } } i f
        = some d) : i ≠ inum ∧ bfsFbnToDbn s i f = some d := by
  unfold bfsFbnToDbn at h ⊢
  by_cases hi : i = inum
  · subst hi
    simp only [Function.update_same] at h
    split at h <;> simp [getFbn] at h
  · simp only [Function.update_noteq hi] at h
    exact ⟨hi, h⟩

theorem reinit_inv {g : Geom} {s : Bfs} (inum : Int) (dir : List (String × Int)) (hg : g.WF)
    (hv : VolInv g s) (ht : WellTyped s) :
    VolInv g { s with
      inodes := Function.update s.inodes inum { inuse := true, size := 0, dbns := [] }
      dir := dir } ∧
    WellTyped { s with
      inodes := Function.update s.inodes inum { inuse := true, size := 0, dbns := [] }
      dir := dir } := by
  obtain ⟨h1, h2, h3, h4⟩ := hv
  refine ⟨⟨h1, ?_, ?_, ?_⟩, ht.1, ?_⟩
  · intro i f d hd
    exact h2 i f d (bfsFbnToDbn_reinit s inum i f d hd).2
  · intro i1 f1 i2 f2 d hd1 hd2
    exact h3 i1 f1 i2 f2 d (bfsFbnToDbn_reinit s inum i1 f1 d hd1).2
      (bfsFbnToDbn_reinit s inum i2 f2 d hd2).2
  · intro i
    by_cases hi : i = inum
    · subst hi
      simp only [Function.update_same, List.length_nil]
      exact_mod_cast hg.2.2.1
    · simp only [Function.update_noteq hi]
      exact h4 i
  · intro i
    by_cases hi : i = inum
    · subst hi
      simp only [Function.update_same]
      decide
    · simp only [Function.update_noteq hi]
      exact ht.2 i

theorem fsCreate_inv {g : Geom} {s s1 : Bfs} {fname : String} {r : Option Int} (hg : g.WF)
    (h : fsCreate g s fname = .ok r s1) (hv : VolInv g s) (ht : WellTyped s) :
    VolInv g s1 ∧ WellTyped s1 := by
  unfold fsCreate at h
  cases hc : bfsCreateFile g s fname with
  | error e => simp [hc] at h
  | ok v =>
    obtain ⟨oi, s2⟩ := v
    have h2 : VolInv g s2 ∧ WellTyped s2 := by
      unfold bfsCreateFile at hc
      cases hl : bfsLookupFile s fname with
      | some inum =>
        simp only [hl, Except.ok.injEq, Prod.mk.injEq] at hc
        obtain ⟨_, rfl⟩ := hc
        exact reinit_inv inum s.dir hg hv ht
      | none =>
        simp only [hl] at hc
        cases hfi : findFreeInode s.inodes g.NUMINODES with
        | none => simp [hfi] at hc
        | some inum =>
          simp only [hfi, Except.ok.injEq, Prod.mk.injEq] at hc
          obtain ⟨_, rfl⟩ := hc
          exact reinit_inv inum _ hg hv ht
    cases oi with
    | none =>
      simp only [hc, Res.ok.injEq] at h
      obtain ⟨_, rfl⟩ := h
      exact h2
    | some inum =>
      simp only [hc] at h
      cases hb : bfsInumToFd s2 inum with
      | error e => simp [hb] at h
      | ok w =>
        obtain ⟨fd, s3⟩ := w
        simp only [hb, Res.ok.injEq] at h
        obtain ⟨_, rfl⟩ := h
        exact bfsInumToFd_inv hb h2.1 h2.2

theorem fsOpen_inv {g : Geom} {s s1 : Bfs} {fname : String} {r : Option Int}
    (h : fsOpen s fname = .ok r s1) (hv : VolInv g s) (ht : WellTyped s) :
    VolInv g s1 ∧ WellTyped s1 := by
  unfold fsOpen at h
  cases hl : bfsLookupFile s fname with
  | none =>
    simp only [hl, Res.ok.injEq] at h
    obtain ⟨_, rfl⟩ := h
    exact ⟨hv, ht⟩
  | some inum =>
    simp only [hl] at h
    cases hb : bfsInumToFd s inum with
    | error e => simp [hb] at h
    | ok w =>
      obtain ⟨fd, s3⟩ := w
      simp only [hb, Res.ok.injEq] at h
      obtain ⟨_, rfl⟩ := h
      exact bfsInumToFd_inv hb hv ht

theorem fsClose_inv {g : Geom} {s s1 : Bfs} {fd v : Int}
    (h : fsClose s fd = .ok v s1) (hv : VolInv g s) (ht : WellTyped s) :
    VolInv g s1 ∧ WellTyped s1 := by
  unfold fsClose at h
  cases hf : bfsFdToInum s fd with
  | none => simp [hf] at h
  | some inum =>
    simp only [hf, Res.ok.injEq] at h
    obtain ⟨_, rfl⟩ := h
    unfold bfsDerefOFT
    cases hfo : findOFTE s.g_oft inum with
    | none => exact ⟨hv, ht⟩
    | some ofte =>
      refine ⟨VolInv_oft _ hv, ?_, ht.2⟩
      intro e he
      obtain ⟨e0, h0, h1⟩ := updRefs_curs _ _ _ e he
      rw [h1]
      exact ht.1 e0 h0

theorem fsFormat_inv (g : Geom) (s : Bfs) (hg : g.WF) (ht : ∀ e ∈ s.g_oft, isI32 e.curs) :
    VolInv g (fsFormat g s).state ∧ WellTyped (fsFormat g s).state := by
  have hm : ∀ i f, bfsFbnToDbn (fsFormat g s).state i f = none := by
    intro i f
    simp only [bfsFbnToDbn, fsFormat, Res.state, bfsInitFreeList, bfsInitDir, bfsInitInodes,
      bfsInitSuper]
    split <;> simp [getFbn]
  refine ⟨⟨?_, ?_, ?_, ?_⟩, ht, ?_⟩
  · simp only [fsFormat, Res.state, bfsInitFreeList]
    refine (List.nodup_range _).map ?_
    intro a b hab
    simp only at hab
    omega
  · intro i f d h; rw [hm] at h; cases h
  · intro i1 f1 i2 f2 d h; rw [hm] at h; cases h
  · intro i
    simp only [fsFormat, Res.state, bfsInitFreeList, bfsInitDir, bfsInitInodes, bfsInitSuper,
      List.length_nil]
    exact_mod_cast hg.2.2.1
  · intro i
    simp only [fsFormat, Res.state, bfsInitFreeList, bfsInitDir, bfsInitInodes, bfsInitSuper]
    decide

theorem fsSeek_typed {s s1 : Bfs} {fd offset whence v : Int} (ho : isI32 offset)
    (h : fsSeek s fd offset whence = .ok v s1) (ht : WellTyped s) : WellTyped s1 := by
  obtain ⟨_, inum, ofte, e0, _, _, _, _, hcase⟩ := fsSeek_ok_inv h
  rcases hcase with ⟨_, rfl⟩ | ⟨_, rfl⟩ | ⟨_, rfl⟩
  · exact ⟨updCurs_forall (P := isI32) _ _ _ ht.1 (fun _ _ => ho), ht.2⟩
  · exact ⟨updCurs_forall (P := isI32) _ _ _ ht.1 (fun _ _ => wrap32_isI32 _), ht.2⟩
  · exact ⟨updCurs_forall (P := isI32) _ _ _ ht.1 (fun _ _ => wrap32_isI32 _), ht.2⟩

theorem fsRead_state {g : Geom} {s s1 : Bfs} {fd numb : Int} {buf : Int → Int}
    {r : Int × (Int → Int)} (h : fsRead g s fd numb buf = .ok r s1) :
    ∃ v, fsSeek s fd r.1 SEEK_CUR = .ok v s1 := by
  unfold fsRead at h
  by_cases hn : numb < 0
  · simp [hn] at h
  · simp only [hn, if_false] at h
    cases hfd : bfsFdToInum s fd with
    | none => simp [hfd] at h
    | some inum =>
      simp only [hfd] at h
      cases hc : bfsTell s fd with
      | none => simp [hc] at h
      | some c =>
        simp only [hc] at h
        cases hit : iter (fsReadBody g s inum c (bfsGetSize s inum) numb) numb.toNat (0, buf) with
        | error e => simp [hit] at h
        | ok r1 =>
          obtain ⟨a, b⟩ := r1
          simp only [hit] at h
          cases hs : fsSeek s fd a SEEK_CUR with
          | fatal e s2 => simp [hs] at h
          | ok v s2 =>
            simp only [hs, Res.ok.injEq] at h
            obtain ⟨rfl, rfl⟩ := h
            exact ⟨v, hs⟩

/-- Every volume reached through the API has the block invariant, and its
cursors and sizes fit an `i32`. -/
theorem Reach_inv {g : Geom} {s : Bfs} (hg : g.WF) (hr : Reach g s) :
    VolInv g s ∧ WellTyped s := by
  induction hr with
  | fresh =>
    refine fsFormat_inv g (boot g) hg ?_
    intro e he
    rw [List.eq_of_mem_replicate he]
    decide
  | format s _ ih => exact fsFormat_inv g s hg ih.2.1
  | create s s1 fname r _ h ih => exact fsCreate_inv hg h ih.1 ih.2
  | opened s s1 fname r _ h ih => exact fsOpen_inv h ih.1 ih.2
  | closed s s1 fd v _ h ih => exact fsClose_inv h ih.1 ih.2
  | seek s s1 fd offset whence v _ ho h ih =>
    refine ⟨?_, fsSeek_typed ho h ih.2⟩
    have := fsSeek_VolInv fd offset whence ih.1
    rw [h] at this
    exact this
  | read s s1 fd numb buf r _ hn h ih =>
    obtain ⟨v, hs⟩ := fsRead_state h
    obtain ⟨_, inum, ofte, e0, _, _, _, _, hcase⟩ := fsSeek_ok_inv hs
    rcases hcase with ⟨hw, _⟩ | ⟨_, rfl⟩ | ⟨hw, _⟩
    · exact absurd hw (by decide)
    · exact ⟨VolInv_oft _ ih.1,
        updCurs_forall (P := isI32) _ _ _ ih.2.1 (fun _ _ => wrap32_isI32 _), ih.2.2⟩
    · exact absurd hw (by decide)
  | write s s1 fd numb v buf _ hn h ih =>
    obtain ⟨hn0, inum, c, hfd, hc⟩ := fsWrite_ok_pre h
    obtain ⟨ofte0, hfo0⟩ := bfsFdToInum_find hfd
    obtain ⟨e0, he0, hte⟩ := bfsTell_some hfd hfo0
    rw [hc] at hte
    cases hte
    have hci := ih.2.1 e0 (getElem?_mem_oft he0)
    obtain ⟨_, hty, _, hv1, hsize, hoth, _⟩ :=
      fsWrite_ok_obs g s fd inum e0.curs numb v buf s1 hg hfd hc hci hn0 hn.2 ih.1 h
    obtain ⟨_, s2, ofte, hW, hfo, _, hs1⟩ :=
      fsWrite_ok_spec g s fd inum e0.curs numb v buf s1 hg hfd hc hci hn0 hn.2 ih.1 h
    have hoft : s2.g_oft = s.g_oft := hW.2.2.2.2.1
    have hg1 : s1.g_oft = updCurs s.g_oft ofte (fun curs => add32 curs numb) := by
      rw [hs1, ← hoft]
      split <;> rfl
    refine ⟨hv1, ?_, ?_⟩
    · rw [hg1]
      exact updCurs_forall (P := isI32) _ _ _ ih.2.1 (fun _ _ => wrap32_isI32 _)
    · intro i
      by_cases hi : i = inum
      · subst hi
        have hs := ih.2.2 i
        simp only [bfsGetSize] at hsize
        rw [hsize]
        unfold isI32 at hty hs ⊢
        exact ⟨le_trans hs.1 (le_max_left _ _), max_lt hs.2 hty.2⟩
      · rw [hoth i hi]
        exact ih.2.2 i


theorem volA_reach : Reach g4 volA :=
  Reach.create (fsFormat g4 (boot g4)).state volA "a.txt" (some 0) Reach.fresh
    (Res.ok_of_val (by decide))

theorem volHole_reach : Reach g4 volHole :=
  Reach.seek _ volHole 0 0 SEEK_SET 0
    (Reach.write _ _ 0 1 0 (fun _ => 7)
      (Reach.seek volA _ 0 8 SEEK_SET 0 volA_reach (by decide) (Res.ok_of_val (by decide)))
      (by decide) (Res.ok_of_val (by decide)))
    (by decide) (Res.ok_of_val (by decide))

/-! ## Outcomes of `fsRead` and `fsWrite` -/

/-- An error of a loop is the error of an aborting pass, or `ENOTERM`. -/
theorem iter_error {σ : Type} {body : σ → Step σ} {fuel : Nat} {st st1 : σ} {e : Err}
    (h : iter body fuel st = .error (e, st1)) :
    e = .ENOTERM ∨ ∃ st2, body st2 = .abort e st1 := by
  induction fuel generalizing st with
  | zero =>
    cases hb : body st with
    | done r => simp [iter, hb] at h
    | next st2 => simp [iter, hb] at h; exact Or.inl h.1.symm
    | abort e2 st2 =>
      simp [iter, hb] at h
      obtain ⟨rfl, rfl⟩ := h
      exact Or.inr ⟨st, hb⟩
  | succ n ih =>
    cases hb : body st with
    | done r => simp [iter, hb] at h
    | next st2 => simp [iter, hb] at h; exact ih h
    | abort e2 st2 =>
      simp [iter, hb] at h
      obtain ⟨rfl, rfl⟩ := h
      exact Or.inr ⟨st, hb⟩

theorem fsReadBody_abort {g : Geom} {s : Bfs} {inum c size numb : Int}
    {st st1 : Int × (Int → Int)} {e : Err}
    (h : fsReadBody g s inum c size numb st = .abort e st1) : e = .EFAULT ∧ st1 = st := by
  unfold fsReadBody at h
  simp only at h
  by_cases h1 : st.1 < numb
  swap
  · simp [h1] at h
  by_cases h2 : add32 c st.1 ≥ size
  · simp [h1, h2] at h
  simp only [h1, h2, not_true_eq_false, if_false] at h
  cases hmap : bfsFbnToDbn s inum ((add32 c st.1).tdiv g.BYTESPERBLOCK) with
  | none => simp [hmap] at h
  | some dbn =>
    simp only [hmap] at h
    split_ifs at h
    all_goals (simp only [Step.abort.injEq] at h; exact ⟨h.1.symm, h.2.symm⟩)

theorem bfsAllocBlock_err {g : Geom} {s : Bfs} {inum fbn : Int} {e : Err}
    (h : bfsAllocBlock g s inum fbn = .error e) :
    (e = .EDISKFULL ∧ s.freeList = []) ∨ e = .EBADFBN := by
  unfold bfsAllocBlock at h
  cases hf : s.freeList with
  | nil => simp [hf] at h; exact Or.inl ⟨h.symm, rfl⟩
  | cons d rest =>
    simp only [hf] at h
    split_ifs at h
    simp only [Except.error.injEq] at h
    exact Or.inr h.symm

theorem fsWriteBody_abort {g : Geom} {inum c numb : Int} {buf : Int → Int}
    {st st1 : Int × Bfs} {e : Err}
    (h : fsWriteBody g inum c numb buf st = .abort e st1) :
    (e = .EDISKFULL ∧ st1 = st ∧ st.2.freeList = []) ∨ (e = .EBADFBN ∧ st1 = st) ∨
      e = .EFAULT := by
  unfold fsWriteBody at h
  simp only at h
  by_cases hlt : st.1 < numb
  swap
  · simp [hlt] at h
  simp only [hlt, not_true_eq_false, if_false] at h
  cases hmap : bfsFbnToDbn st.2 inum ((add32 c st.1).tdiv g.BYTESPERBLOCK) with
  | some dbn =>
    simp only [hmap] at h
    split_ifs at h
    all_goals (simp only [Step.abort.injEq] at h; exact Or.inr (Or.inr h.1.symm))
  | none =>
    simp only [hmap] at h
    cases hal : bfsAllocBlock g st.2 inum ((add32 c st.1).tdiv g.BYTESPERBLOCK) with
    | error e1 =>
      simp only [hal, Step.abort.injEq] at h
      obtain ⟨rfl, rfl⟩ := h
      rcases bfsAllocBlock_err hal with ⟨h1, h2⟩ | h1
      · exact Or.inl ⟨h1, rfl, h2⟩
      · exact Or.inr (Or.inl ⟨h1, rfl⟩)
    | ok v =>
      obtain ⟨dbn, s1⟩ := v
      simp only [hal] at h
      split_ifs at h
      all_goals (simp only [Step.abort.injEq] at h; exact Or.inr (Or.inr h.1.symm))

theorem fsSeek_err {s s1 : Bfs} {fd offset whence : Int} {e : Err}
    (h : fsSeek s fd offset whence = .fatal e s1) :
    e = .EBADCURS ∨ e = .EBADFD ∨ e = .EBADWHENCE := by
  by_cases hoff : offset < 0
  · simp [fsSeek, hoff] at h; exact Or.inl h.1.symm
  · cases hfd : bfsFdToInum s fd with
    | none => simp [fsSeek, hoff, hfd] at h; exact Or.inr (Or.inl h.1.symm)
    | some inum =>
      cases ho : bfsFindOFTE s inum with
      | none => simp [fsSeek, hoff, hfd, ho] at h; exact Or.inr (Or.inl h.1.symm)
      | some ofte =>
        rcases fsSeek_cases offset whence hfd ho hoff with
          ⟨_, h1⟩ | ⟨_, h1⟩ | ⟨_, h1⟩ | ⟨_, _, _, h1⟩ <;> rw [h1] at h <;> cases h
        exact Or.inr (Or.inr rfl)

/-- The ways `fsRead` ends: at its first test, on a descriptor that is not open,
on an error of its loop, or with the outcome of its `fsSeek`. -/
theorem fsRead_cases (g : Geom) (s : Bfs) (fd numb : Int) (buf : Int → Int) :
    (numb < 0 ∧ fsRead g s fd numb buf = .fatal .ENEGNUMB s) ∨
    (0 ≤ numb ∧ fsRead g s fd numb buf = .fatal .EBADFD s) ∨
    (0 ≤ numb ∧ ∃ inum c e st, bfsFdToInum s fd = some inum ∧ bfsTell s fd = some c ∧
      iter (fsReadBody g s inum c (bfsGetSize s inum) numb) numb.toNat (0, buf)
        = .error (e, st) ∧ fsRead g s fd numb buf = .fatal e s) ∨
    (0 ≤ numb ∧ ∃ inum c br buf1, bfsFdToInum s fd = some inum ∧ bfsTell s fd = some c ∧
      iter (fsReadBody g s inum c (bfsGetSize s inum) numb) numb.toNat (0, buf)
        = .ok (br, buf1) ∧
      ((∃ e s1, fsSeek s fd br SEEK_CUR = .fatal e s1 ∧
          fsRead g s fd numb buf = .fatal e s1) ∨
       (∃ v s1, fsSeek s fd br SEEK_CUR = .ok v s1 ∧
          fsRead g s fd numb buf = .ok (br, buf1) s1))) := by
  by_cases hn : numb < 0
  · left; exact ⟨hn, by simp [fsRead, hn]⟩
  · right
    cases hfd : bfsFdToInum s fd with
    | none => left; exact ⟨by omega, by simp [fsRead, hn, hfd]⟩
    | some inum =>
      cases hc : bfsTell s fd with
      | none => left; exact ⟨by omega, by simp [fsRead, hn, hfd, hc]⟩
      | some c =>
        right
        cases hit : iter (fsReadBody g s inum c (bfsGetSize s inum) numb) numb.toNat (0, buf) with
        | error es =>
          obtain ⟨e, st⟩ := es
          left
          exact ⟨by omega, inum, c, e, st, rfl, rfl, hit, by simp [fsRead, hn, hfd, hc, hit]⟩
        | ok r =>
          obtain ⟨br, buf1⟩ := r
          right
          refine ⟨by omega, inum, c, br, buf1, rfl, rfl, hit, ?_⟩
          cases hs : fsSeek s fd br SEEK_CUR with
          | fatal e s1 => left; exact ⟨e, s1, rfl, by simp [fsRead, hn, hfd, hc, hit, hs]⟩
          | ok v s1 => right; exact ⟨v, s1, rfl, by simp [fsRead, hn, hfd, hc, hit, hs]⟩

/-- The ways `fsWrite` ends. -/
theorem fsWrite_cases (g : Geom) (s : Bfs) (fd numb : Int) (buf : Int → Int) :
    (numb < 0 ∧ fsWrite g s fd numb buf = .fatal .ENEGNUMB s) ∨
    (0 ≤ numb ∧ fsWrite g s fd numb buf = .fatal .EBADFD s) ∨
    (0 ≤ numb ∧ ∃ inum c e st, bfsFdToInum s fd = some inum ∧ bfsTell s fd = some c ∧
      iter (fsWriteBody g inum c numb buf) numb.toNat (0, s) = .error (e, st) ∧
      fsWrite g s fd numb buf = .fatal e st.2) ∨
    (0 ≤ numb ∧ ∃ inum c bw s1, bfsFdToInum s fd = some inum ∧ bfsTell s fd = some c ∧
      iter (fsWriteBody g inum c numb buf) numb.toNat (0, s) = .ok (bw, s1) ∧
      ((∃ e s2, fsSeek s1 fd bw SEEK_CUR = .fatal e s2 ∧
          fsWrite g s fd numb buf = .fatal e s2) ∨
       (∃ v s2 s3, fsSeek s1 fd bw SEEK_CUR = .ok v s2 ∧
          fsWrite g s fd numb buf = .ok 0 s3))) := by
  by_cases hn : numb < 0
  · left; exact ⟨hn, by simp [fsWrite, hn]⟩
  · right
    cases hfd : bfsFdToInum s fd with
    | none => left; exact ⟨by omega, by simp [fsWrite, hn, hfd]⟩
    | some inum =>
      cases hc : bfsTell s fd with
      | none => left; exact ⟨by omega, by simp [fsWrite, hn, hfd, hc]⟩
      | some c =>
        right
        cases hit : iter (fsWriteBody g inum c numb buf) numb.toNat (0, s) with
        | error es =>
          obtain ⟨e, st⟩ := es
          left
          exact ⟨by omega, inum, c, e, st, rfl, rfl, hit, by simp [fsWrite, hn, hfd, hc, hit]⟩
        | ok r =>
          obtain ⟨bw, s1⟩ := r
          right
          refine ⟨by omega, inum, c, bw, s1, rfl, rfl, hit, ?_⟩
          cases hs : fsSeek s1 fd bw SEEK_CUR with
          | fatal e s2 => left; exact ⟨e, s2, rfl, by simp [fsWrite, hn, hfd, hc, hit, hs]⟩
          | ok v s2 =>
            right
            by_cases hgt : add32 c bw > bfsGetSize s2 inum
            · exact ⟨v, s2, bfsSetSize s2 inum (add32 c bw), rfl,
                by simp [fsWrite, hn, hfd, hc, hit, hs, hgt]⟩
            · exact ⟨v, s2, s2, rfl, by simp [fsWrite, hn, hfd, hc, hit, hs, hgt]⟩


/-! ## What `fsRead` leaves unchanged -/

/-- A pass of the loop of `fsRead` that goes on copies `t >= 0` bytes to
`buf[bytesRead ..]` and adds `t` to `bytesRead`, which stays at most `numb`. -/
theorem fsReadBody_next_frame {g : Geom} {s : Bfs} {inum c size numb : Int}
    {st st1 : Int × (Int → Int)} (hn : numb < 2147483648) (h0 : 0 ≤ st.1)
    (h : fsReadBody g s inum c size numb st = .next st1) :
    st.1 ≤ st1.1 ∧ st1.1 ≤ numb ∧ ∀ i, ¬ (st.1 ≤ i ∧ i < st1.1) → st1.2 i = st.2 i := by
  unfold fsReadBody at h
  simp only at h
  by_cases h1 : st.1 < numb
  swap
  · simp [h1] at h
  by_cases h2 : add32 c st.1 ≥ size
  · simp [h1, h2] at h
  simp only [h1, h2, not_true_eq_false, if_false] at h
  cases hmap : bfsFbnToDbn s inum ((add32 c st.1).tdiv g.BYTESPERBLOCK) with
  | none => simp [hmap] at h
  | some dbn =>
    simp only [hmap] at h
    have e1 : sub32 numb st.1 = numb - st.1 := sub32_eq ⟨by omega, by omega⟩
    rw [e1] at h
    generalize hrem : (if numb - st.1 < sub32 size (add32 c st.1) then numb - st.1
      else sub32 size (add32 c st.1)) = rem at h
    have hrem1 : rem ≤ numb - st.1 := by rw [← hrem]; split_ifs <;> omega
    generalize ht : (if sub32 g.BYTESPERBLOCK ((add32 c st.1).tmod g.BYTESPERBLOCK) < rem
      then sub32 g.BYTESPERBLOCK ((add32 c st.1).tmod g.BYTESPERBLOCK) else rem) = t at h
    have ht1 : t ≤ rem := by rw [← ht]; split_ifs <;> omega
    by_cases hg : (add32 c st.1).tmod g.BYTESPERBLOCK < 0 ∨ t < 0
    · simp [hg] at h
    · simp only [hg, if_false, Step.next.injEq] at h
      subst h
      have e4 : add32 st.1 t = st.1 + t := add32_eq ⟨by omega, by omega⟩
      simp only [e4]
      refine ⟨by omega, by omega, ?_⟩
      intro i hi
      simp only [memcpy]
      rw [if_neg (by omega)]

theorem fsReadBody_done {g : Geom} {s : Bfs} {inum c size numb : Int}
    {st r : Int × (Int → Int)} (h : fsReadBody g s inum c size numb st = .done r) :
    r = st := by
  unfold fsReadBody at h
  simp only at h
  by_cases h1 : st.1 < numb
  swap
  · simp only [h1, not_false_eq_true, if_true, Step.done.injEq] at h; exact h.symm
  by_cases h2 : add32 c st.1 ≥ size
  · simp only [h1, h2, not_true_eq_false, if_false, if_true, Step.done.injEq] at h
    exact h.symm
  simp only [h1, h2, not_true_eq_false, if_false] at h
  cases hmap : bfsFbnToDbn s inum ((add32 c st.1).tdiv g.BYTESPERBLOCK) with
  | none => simp only [hmap, Step.done.injEq] at h; exact h.symm
  | some dbn =>
    simp only [hmap] at h
    split_ifs at h

/-- The caller's buffer after the loop of `fsRead`: untouched outside the first
`bytesRead` bytes. -/
theorem fsRead_loop_frame {g : Geom} {s : Bfs} {inum c size numb : Int} {buf : Int → Int}
    {fuel : Nat} {r : Int × (Int → Int)} (hn0 : 0 ≤ numb) (hn : numb < 2147483648)
    (h : iter (fsReadBody g s inum c size numb) fuel (0, buf) = .ok r) :
    0 ≤ r.1 ∧ r.1 ≤ numb ∧ ∀ i, ¬ (0 ≤ i ∧ i < r.1) → r.2 i = buf i := by
  refine iter_partial (fsReadBody g s inum c size numb)
    (fun st => 0 ≤ st.1 ∧ st.1 ≤ numb ∧ ∀ i, ¬ (0 ≤ i ∧ i < st.1) → st.2 i = buf i)
    (fun st => 0 ≤ st.1 ∧ st.1 ≤ numb ∧ ∀ i, ¬ (0 ≤ i ∧ i < st.1) → st.2 i = buf i)
    ?_ ?_ fuel (0, buf) r ⟨le_refl _, hn0, fun _ _ => rfl⟩ h
  · intro st r1 hI hd
    rw [fsReadBody_done hd]; exact hI
  · intro st st1 ⟨h0, h1, h2⟩ hnx
    obtain ⟨a, b, c1⟩ := fsReadBody_next_frame hn h0 hnx
    refine ⟨by omega, b, ?_⟩
    intro i hi
    rw [c1 i (by omega)]
    exact h2 i (by omega)

theorem oft_frame (s : Bfs) (ofte : Nat) (f : Int → Int) (j : Nat) (e : OFTE)
    (he : s.g_oft[j]? = some e) :
    ∃ e1, (updCurs s.g_oft ofte f)[j]? = some e1 ∧ e1.inum = e.inum ∧ e1.refs = e.refs ∧
      (e1.curs ≠ e.curs → j = ofte) := by
  rw [updCurs_get]
  by_cases hj : j = ofte
  · rw [if_pos hj, he]
    exact ⟨_, rfl, rfl, rfl, fun _ => hj⟩
  · rw [if_neg hj]
    exact ⟨e, he, rfl, rfl, fun hne => absurd rfl hne⟩

/-- The state that `fsRead` leaves: the one it started in, or that one with the
cursor of the entry of `fd` changed. -/
theorem fsRead_state_eq (g : Geom) (s : Bfs) (fd numb : Int) (buf : Int → Int) :
    (fsRead g s fd numb buf).state = s ∨
    ∃ inum ofte f, bfsFdToInum s fd = some inum ∧ bfsFindOFTE s inum = some ofte ∧
      (fsRead g s fd numb buf).state = { s with g_oft := updCurs s.g_oft ofte f } := by
  rcases fsRead_cases g s fd numb buf with ⟨_, h⟩ | ⟨_, h⟩ | ⟨_, _, _, _, _, _, _, _, h⟩ |
    ⟨_, inum, c, br, buf1, hfd, hc, hit, h⟩
  · left; rw [h]; rfl
  · left; rw [h]; rfl
  · left; rw [h]; rfl
  · rcases h with ⟨e, s1, hs, h⟩ | ⟨v, s1, hs, h⟩
    · left; rw [h]; exact fsSeek_fatal_state hs
    · have := fsSeek_state s fd br SEEK_CUR
      rw [hs] at this
      rw [h]
      exact this


/-! ## Opening a file twice -/

theorem findOFTE_updRefs (l : List OFTE) (k : Nat) (f : Int → Int) (inum : Int)
    (hk : ∀ e, l[k]? = some e → 0 < e.refs → 0 < f e.refs)
    (hk2 : ∀ e, l[k]? = some e → 0 < e.refs) :
    findOFTE (updRefs l k f) inum = findOFTE l inum := by
  induction l generalizing k with
  | nil => simp [updRefs]
  | cons a as ih =>
    cases k with
    | zero =>
      have h1 := hk2 a (by simp)
      have h2 := hk a (by simp) h1
      simp [updRefs, findOFTE, h1, h2]
    | succ k =>
      simp only [updRefs, findOFTE]
      rw [ih k (fun e he => hk e (by simpa using he)) (fun e he => hk2 e (by simpa using he))]

theorem updRefs_get (l : List OFTE) (k j : Nat) (f : Int → Int) :
    (updRefs l k f)[j]? =
      if j = k then (l[j]?).map (fun e => { e with refs := f e.refs }) else l[j]? := by
  induction l generalizing k j with
  | nil => simp [updRefs]
  | cons e es ih =>
    cases k with
    | zero => cases j <;> simp [updRefs]
    | succ k => cases j <;> simp [updRefs, ih]

theorem findFreeOFTE_lt {l : List OFTE} {k : Nat} (h : findFreeOFTE l = some k) :
    k < l.length := by
  induction l generalizing k with
  | nil => simp [findFreeOFTE] at h
  | cons a as ih =>
    unfold findFreeOFTE at h
    split at h
    · cases hf : findFreeOFTE as with
      | none => simp [hf] at h
      | some j =>
        simp [hf] at h
        subst h
        have := ih hf
        simp; omega
    · cases h; simp

theorem findOFTE_set_new {l : List OFTE} {k : Nat} {inum : Int} (hk : k < l.length)
    (hn : findOFTE l inum = none) :
    findOFTE (l.set k { inum := inum, curs := 0, refs := 1 }) inum = some k := by
  induction l generalizing k with
  | nil => simp at hk
  | cons a as ih =>
    unfold findOFTE at hn
    split at hn
    · cases hn
    · rename_i hc
      cases k with
      | zero => simp [findOFTE]
      | succ k =>
        have hn2 : findOFTE as inum = none := by
          cases hf : findOFTE as inum with
          | none => rfl
          | some j => simp [hf] at hn
        simp only [List.set_cons_succ, findOFTE, hc, if_false]
        rw [ih (by simpa using hk) hn2]
        rfl

/-- What `bfsInumToFd` returns: the index of the entry that is then found for
`inum`, with the cursor that entry had, or 0 for a new entry. -/
theorem bfsInumToFd_ok {s s1 : Bfs} {inum fd : Int} (h : bfsInumToFd s inum = .ok (fd, s1)) :
    ∃ k : Nat, fd = k ∧ findOFTE s1.g_oft inum = some k ∧ bfsFdToInum s1 fd = some inum ∧
      s1.dir = s.dir ∧ s1.inodes = s.inodes ∧ s1.disk = s.disk ∧ s1.freeList = s.freeList := by
  unfold bfsInumToFd at h
  cases hf : findOFTE s.g_oft inum with
  | some ofte =>
    simp only [hf, Except.ok.injEq, Prod.mk.injEq] at h
    obtain ⟨rfl, rfl⟩ := h
    obtain ⟨e, he, hr, hi⟩ := findOFTE_some hf
    have hk2 : ∀ e1, s.g_oft[ofte]? = some e1 → 0 < e1.refs := by
      intro e1 h1; rw [he] at h1; cases h1; exact hr
    refine ⟨ofte, rfl, ?_, ?_, rfl, rfl, rfl, rfl⟩
    · simp only
      rw [findOFTE_updRefs _ _ _ _ (fun e1 _ h2 => by omega) hk2]
      exact hf
    · simp only [bfsFdToInum, show ¬ ((ofte : Int) < 0) by omega, if_false, Int.toNat_ofNat,
        updRefs_get, if_true, he, Option.map_some']
      rw [if_pos (by omega)]
      rw [hi]
  | none =>
    simp only [hf] at h
    cases hfr : findFreeOFTE s.g_oft with
    | none => simp [hfr] at h
    | some ofte =>
      simp only [hfr, Except.ok.injEq, Prod.mk.injEq] at h
      obtain ⟨rfl, rfl⟩ := h
      have hlt := findFreeOFTE_lt hfr
      refine ⟨ofte, rfl, findOFTE_set_new hlt hf, ?_, rfl, rfl, rfl, rfl⟩
      simp only [bfsFdToInum, show ¬ ((ofte : Int) < 0) by omega, if_false, Int.toNat_ofNat]
      have hget : (s.g_oft.set ofte { inum := inum, curs := 0, refs := 1 })[ofte]?
          = some { inum := inum, curs := 0, refs := 1 } := by simp [hlt]
      rw [hget]
      simp

theorem fsOpen_ok {s s1 : Bfs} {fname : String} {fd : Int}
    (h : fsOpen s fname = .ok (some fd) s1) :
    ∃ inum, bfsLookupFile s fname = some inum ∧ bfsInumToFd s inum = .ok (fd, s1) := by
  unfold fsOpen at h
  cases hl : bfsLookupFile s fname with
  | none => simp [hl] at h
  | some inum =>
    simp only [hl] at h
    cases hb : bfsInumToFd s inum with
    | error e => simp [hb] at h
    | ok w =>
      obtain ⟨fd1, s3⟩ := w
      simp only [hb, Res.ok.injEq, Option.some.injEq] at h
      obtain ⟨rfl, rfl⟩ := h
      exact ⟨inum, rfl, hb⟩

/-- Descriptors of the same inode have the same cursor. -/
theorem bfsTell_same_inum {s : Bfs} {fd1 fd2 inum : Int} (h1 : bfsFdToInum s fd1 = some inum)
    (h2 : bfsFdToInum s fd2 = some inum) : bfsTell s fd1 = bfsTell s fd2 := by
  simp only [bfsTell, h1, h2]


/-! ## The passes of the copy loops -/

theorem LoopReach_inv {σ : Type} {body : σ → Step σ} {st0 : σ} (I : Nat → σ → Prop)
    (h0 : I 0 st0) (hnext : ∀ n st st1, I n st → body st = .next st1 → I (n + 1) st1)
    {n : Nat} {st : σ} (h : LoopReach body st0 n st) : I n st := by
  induction h with
  | start => exact h0
  | next n st st1 _ hb ih => exact hnext n st st1 ih hb

/-- A loop whose passes lower a measure that the fuel covers does not run out of
fuel. -/
theorem iter_fuel {σ : Type} (body : σ → Step σ) (I : σ → Prop) (m : σ → Nat)
    (hnext : ∀ st st1, I st → body st = .next st1 → I st1 ∧ m st1 < m st)
    (habort : ∀ st e st1, body st = .abort e st1 → e ≠ .ENOTERM) :
    ∀ fuel st, I st → m st ≤ fuel → ∀ st1, iter body fuel st ≠ .error (.ENOTERM, st1) := by
  intro fuel
  induction fuel with
  | zero =>
    intro st hI hm st1 h
    cases hb : body st with
    | done r => simp [iter, hb] at h
    | next st2 => have := (hnext st st2 hI hb).2; omega
    | abort e st2 =>
      simp [iter, hb] at h
      exact habort st e st2 hb h.1
  | succ n ih =>
    intro st hI hm st1 h
    cases hb : body st with
    | done r => simp [iter, hb] at h
    | next st2 =>
      simp only [iter, hb] at h
      obtain ⟨hI2, hlt⟩ := hnext st st2 hI hb
      exact ih st2 hI2 (by omega) st1 h
    | abort e st2 =>
      simp [iter, hb] at h
      exact habort st e st2 hb h.1

/-- The values copied by a pass of the loop of `fsRead` that goes on. -/
theorem fsReadBody_next_copy {g : Geom} {s : Bfs} {inum c size numb : Int}
    {st st1 : Int × (Int → Int)} (h : fsReadBody g s inum c size numb st = .next st1) :
    st.1 < numb ∧ add32 c st.1 < size ∧
    ¬ (blockOffset g c st.1 < 0 ∨ bytesToRead g c size numb st.1 < 0) ∧
    ∃ dbn, bfsFbnToDbn s inum ((add32 c st.1).tdiv g.BYTESPERBLOCK) = some dbn ∧
      st1 = (add32 st.1 (bytesToRead g c size numb st.1),
        memcpy st.2 st.1 (bioRead s dbn) (blockOffset g c st.1)
          (bytesToRead g c size numb st.1)) := by
  unfold fsReadBody at h
  simp only at h
  by_cases h1 : st.1 < numb
  swap
  · simp [h1] at h
  by_cases h2 : add32 c st.1 ≥ size
  · simp [h1, h2] at h
  simp only [h1, h2, not_true_eq_false, if_false] at h
  cases hmap : bfsFbnToDbn s inum ((add32 c st.1).tdiv g.BYTESPERBLOCK) with
  | none => simp [hmap] at h
  | some dbn =>
    simp only [hmap] at h
    by_cases hg : blockOffset g c st.1 < 0 ∨ bytesToRead g c size numb st.1 < 0
    · have hg' := hg
      simp only [blockOffset, bytesToRead] at hg'
      rw [if_pos hg'] at h
      cases h
    · have hg' := hg
      simp only [blockOffset, bytesToRead] at hg'
      rw [if_neg hg'] at h
      simp only [Step.next.injEq] at h
      exact ⟨h1, by omega, hg, dbn, rfl, h.symm⟩

/-- The values copied by a pass of the loop of `fsWrite` that goes on. -/
theorem fsWriteBody_next_copy {g : Geom} {inum c numb : Int} {buf : Int → Int}
    {st st1 : Int × Bfs} (h : fsWriteBody g inum c numb buf st = .next st1) :
    st.1 < numb ∧ ¬ (blockOffset g c st.1 < 0 ∨ bytesInBlock g c numb st.1 < 0) ∧
    st1.1 = add32 st.1 (bytesInBlock g c numb st.1) := by
  unfold fsWriteBody at h
  simp only at h
  by_cases hlt : st.1 < numb
  swap
  · simp [hlt] at h
  simp only [hlt, not_true_eq_false, if_false] at h
  by_cases hg : blockOffset g c st.1 < 0 ∨ bytesInBlock g c numb st.1 < 0
  · exfalso
    have hg' := hg
    simp only [blockOffset, bytesInBlock] at hg'
    cases hmap : bfsFbnToDbn st.2 inum ((add32 c st.1).tdiv g.BYTESPERBLOCK) with
    | some dbn => simp only [hmap] at h; rw [if_pos hg'] at h; cases h
    | none =>
      simp only [hmap] at h
      cases hal : bfsAllocBlock g st.2 inum ((add32 c st.1).tdiv g.BYTESPERBLOCK) with
      | error e => simp [hal] at h
      | ok v => simp only [hal] at h; rw [if_pos hg'] at h; cases h
  · refine ⟨hlt, hg, ?_⟩
    have hg' := hg
    simp only [blockOffset, bytesInBlock] at hg'
    cases hmap : bfsFbnToDbn st.2 inum ((add32 c st.1).tdiv g.BYTESPERBLOCK) with
    | some dbn =>
      simp only [hmap] at h; rw [if_neg hg'] at h
      simp only [Step.next.injEq] at h
      rw [← h]; rfl
    | none =>
      simp only [hmap] at h
      cases hal : bfsAllocBlock g st.2 inum ((add32 c st.1).tdiv g.BYTESPERBLOCK) with
      | error e => simp [hal] at h
      | ok v =>
        simp only [hal] at h; rw [if_neg hg'] at h
        simp only [Step.next.injEq] at h
        rw [← h]; rfl


/-- The copy of a pass of the loop of `fsRead` in exact arithmetic, for a
position `c + br` that is not negative and below the size. -/
theorem read_copy_exact (g : Geom) (c size numb br : Int) (hg : g.WF) (hc0 : 0 ≤ c)
    (hs : size < 2147483648) (hn : numb < 2147483648) (hbr0 : 0 ≤ br) (hbr : br < numb)
    (hpos : c + br < size) :
    blockOffset g c br = (c + br) % g.BYTESPERBLOCK ∧
    bytesToRead g c size numb br =
      min (g.BYTESPERBLOCK - (c + br) % g.BYTESPERBLOCK) (min (numb - br) (size - (c + br))) ∧
    0 ≤ blockOffset g c br ∧ 1 ≤ bytesToRead g c size numb br ∧
    blockOffset g c br + bytesToRead g c size numb br ≤ g.BYTESPERBLOCK ∧
    br + bytesToRead g c size numb br ≤ numb ∧
    c + br + bytesToRead g c size numb br ≤ size := by
  obtain ⟨hB0, hB1, _, _⟩ := hg
  have hadd : add32 c br = c + br := add32_eq ⟨by omega, by omega⟩
  have hmod : (c + br).tmod g.BYTESPERBLOCK = (c + br) % g.BYTESPERBLOCK :=
    Int.tmod_eq_emod (by omega) (by omega)
  have hm0 : 0 ≤ (c + br) % g.BYTESPERBLOCK := Int.emod_nonneg _ (by omega)
  have hm1 : (c + br) % g.BYTESPERBLOCK < g.BYTESPERBLOCK := Int.emod_lt_of_pos _ hB0
  have e1 : sub32 numb br = numb - br := sub32_eq ⟨by omega, by omega⟩
  have e2 : sub32 size (c + br) = size - (c + br) := sub32_eq ⟨by omega, by omega⟩
  have e3 : sub32 g.BYTESPERBLOCK ((c + br) % g.BYTESPERBLOCK)
      = g.BYTESPERBLOCK - (c + br) % g.BYTESPERBLOCK := sub32_eq ⟨by omega, by omega⟩
  have hoff : blockOffset g c br = (c + br) % g.BYTESPERBLOCK := by
    simp only [blockOffset, hadd, hmod]
  have hn1 : bytesToRead g c size numb br =
      min (g.BYTESPERBLOCK - (c + br) % g.BYTESPERBLOCK)
        (min (numb - br) (size - (c + br))) := by
    simp only [bytesToRead, hoff, hadd, e1, e2, e3]
    rw [min_def, min_def]
    split_ifs <;> omega
  rw [hoff, hn1]
  have h1 : 1 ≤ min (g.BYTESPERBLOCK - (c + br) % g.BYTESPERBLOCK)
      (min (numb - br) (size - (c + br))) := by
    simp only [le_min_iff]; omega
  have h2 := min_le_left (g.BYTESPERBLOCK - (c + br) % g.BYTESPERBLOCK)
    (min (numb - br) (size - (c + br)))
  have h3 : min (g.BYTESPERBLOCK - (c + br) % g.BYTESPERBLOCK)
      (min (numb - br) (size - (c + br))) ≤ numb - br :=
    le_trans (min_le_right _ _) (min_le_left _ _)
  have h4 : min (g.BYTESPERBLOCK - (c + br) % g.BYTESPERBLOCK)
      (min (numb - br) (size - (c + br))) ≤ size - (c + br) :=
    le_trans (min_le_right _ _) (min_le_right _ _)
  exact ⟨rfl, rfl, hm0, h1, by omega, by omega, by omega⟩

/-- The loop states of `fsRead` from a non-negative cursor: after `n` passes at
least `n` and at most `numb` bytes are read, none beyond the end of the file. -/
theorem fsRead_reach_inv (g : Geom) (s : Bfs) (inum c size numb : Int) (buf : Int → Int)
    (hg : g.WF) (hc0 : 0 ≤ c) (hc : c < 2147483648) (hs : size < 2147483648)
    (hn0 : 0 ≤ numb) (hn : numb < 2147483648) {n : Nat} {st : Int × (Int → Int)}
    (h : LoopReach (fsReadBody g s inum c size numb) (0, buf) n st) :
    (n : Int) ≤ st.1 ∧ st.1 ≤ numb ∧ (st.1 = 0 ∨ c + st.1 ≤ size) := by
  refine LoopReach_inv (fun n st => (n : Int) ≤ st.1 ∧ st.1 ≤ numb ∧
    (st.1 = 0 ∨ c + st.1 ≤ size)) ⟨by simp, hn0, Or.inl rfl⟩ ?_ h
  intro n st st1 ⟨h1, h2, h3⟩ hb
  obtain ⟨hlt, hpos, _, dbn, _, rfl⟩ := fsReadBody_next_copy hb
  have hadd : add32 c st.1 = c + st.1 := add32_eq ⟨by omega, by omega⟩
  rw [hadd] at hpos
  obtain ⟨_, _, _, b1, _, b2, b3⟩ :=
    read_copy_exact g c size numb st.1 hg hc0 hs hn (by omega) hlt hpos
  have e4 : add32 st.1 (bytesToRead g c size numb st.1)
      = st.1 + bytesToRead g c size numb st.1 := add32_eq ⟨by omega, by omega⟩
  simp only [e4]
  push_cast
  exact ⟨by omega, b2, Or.inr (by omega)⟩

/-- A pass of the loop of `fsWrite` that goes on writes at least 1 and at most
`BYTESPERBLOCK` bytes, and not more than are left. -/
theorem fsWriteBody_progress {g : Geom} {inum c numb : Int} {buf : Int → Int}
    {st st1 : Int × Bfs} (hg : g.WF) (hn : numb < 2147483648) (h0 : 0 ≤ st.1)
    (h : fsWriteBody g inum c numb buf st = .next st1) :
    st1.1 = st.1 + bytesInBlock g c numb st.1 ∧ 1 ≤ bytesInBlock g c numb st.1 ∧
    bytesInBlock g c numb st.1 ≤ g.BYTESPERBLOCK ∧ st1.1 ≤ numb := by
  obtain ⟨hB0, hB1, _, _⟩ := hg
  obtain ⟨hlt, hguard, h1⟩ := fsWriteBody_next_copy h
  have hoff1 := Int.tmod_lt_of_pos (add32 c st.1) hB0
  have e1 : sub32 numb st.1 = numb - st.1 := sub32_eq ⟨by omega, by omega⟩
  have hoff0 : 0 ≤ blockOffset g c st.1 := by omega
  have hoff2 : blockOffset g c st.1 < g.BYTESPERBLOCK := hoff1
  have e3 : sub32 g.BYTESPERBLOCK (blockOffset g c st.1)
      = g.BYTESPERBLOCK - blockOffset g c st.1 := sub32_eq ⟨by omega, by omega⟩
  have hn1 : bytesInBlock g c numb st.1 =
      min (g.BYTESPERBLOCK - blockOffset g c st.1) (numb - st.1) := by
    simp only [bytesInBlock, e1, e3]
    rw [min_def]
    split_ifs <;> omega
  have b1 : 1 ≤ bytesInBlock g c numb st.1 := by
    rw [hn1]; simp only [le_min_iff]; omega
  have b2 : bytesInBlock g c numb st.1 ≤ g.BYTESPERBLOCK - blockOffset g c st.1 := by
    rw [hn1]; exact min_le_left _ _
  have b3 : bytesInBlock g c numb st.1 ≤ numb - st.1 := by
    rw [hn1]; exact min_le_right _ _
  have e4 : add32 st.1 (bytesInBlock g c numb st.1) = st.1 + bytesInBlock g c numb st.1 :=
    add32_eq ⟨by omega, by omega⟩
  rw [e4] at h1
  exact ⟨h1, b1, by omega, by omega⟩

/-- The loop states of `fsWrite`: after `n` passes at least `n` and at most `numb`
bytes are written. -/
theorem fsWrite_reach_count (g : Geom) (s : Bfs) (inum c numb : Int) (buf : Int → Int)
    (hg : g.WF) (hn0 : 0 ≤ numb) (hn : numb < 2147483648) {n : Nat} {st : Int × Bfs}
    (h : LoopReach (fsWriteBody g inum c numb buf) (0, s) n st) :
    (n : Int) ≤ st.1 ∧ st.1 ≤ numb := by
  refine LoopReach_inv (fun n st => (n : Int) ≤ st.1 ∧ st.1 ≤ numb) ⟨by simp, hn0⟩ ?_ h
  intro n st st1 ⟨h1, h2⟩ hb
  obtain ⟨a, b, _, d⟩ := fsWriteBody_progress hg hn (by omega) hb
  push_cast
  exact ⟨by omega, d⟩

/-- The loop states of `fsWrite` on a volume with the block invariant keep the
invariant of the loop. -/
theorem fsWrite_reach_inv (g : Geom) (s : Bfs) (inum c numb : Int) (buf : Int → Int)
    (hg : g.WF) (hci : isI32 c) (hn0 : 0 ≤ numb) (hn : numb < 2147483648) (hinv : VolInv g s)
    {n : Nat} {st : Int × Bfs}
    (h : LoopReach (fsWriteBody g inum c numb buf) (0, s) n st) :
    WInv g s inum c numb buf st :=
  LoopReach_inv (fun _ st => WInv g s inum c numb buf st)
    (WInv_init g s inum c numb buf hn0 hinv)
    (fun _ st st1 hI hb => WInv_next g s inum c numb buf st st1 hg hci hn hI hb) h


/-- The loop of `fsWrite`, when it ends without error, has written `numb` bytes
and kept its invariant. -/
theorem fsWrite_loop_ok (g : Geom) (s : Bfs) (inum c numb : Int) (buf : Int → Int)
    (hg : g.WF) (hci : isI32 c) (hn0 : 0 ≤ numb) (hn : numb < 2147483648) (hinv : VolInv g s)
    {fuel : Nat} {r : Int × Bfs}
    (hit : iter (fsWriteBody g inum c numb buf) fuel (0, s) = .ok r) :
    WInv g s inum c numb buf r ∧ r.1 = numb := by
  have hQ := iter_partial (fsWriteBody g inum c numb buf) (WInv g s inum c numb buf)
    (fun st => WInv g s inum c numb buf st ∧ ¬ st.1 < numb)
    (fun st r hI hd => by
      obtain ⟨rfl, hlt⟩ := fsWriteBody_done hd
      exact ⟨hI, hlt⟩)
    (fun st st1 hI hnx => WInv_next g s inum c numb buf st st1 hg hci hn hI hnx)
    fuel (0, s) r (WInv_init g s inum c numb buf hn0 hinv) hit
  obtain ⟨hI, hlt⟩ := hQ
  have := hI.2.1
  exact ⟨hI, by omega⟩

/-- A pass that goes on, put in front of the passes that follow it. -/
theorem LoopReach_cons {σ : Type} {body : σ → Step σ} {st st1 st2 : σ} {n : Nat}
    (hb : body st = .next st1) (h : LoopReach body st1 n st2) :
    LoopReach body st (n + 1) st2 := by
  induction h with
  | start => exact LoopReach.next 0 st st1 LoopReach.start hb
  | next n a b _ hab ih => exact LoopReach.next (n + 1) a b ih hab

/-- An error of a loop other than `ENOTERM` is the abort of a pass that the loop
has reached. -/
theorem iter_error_reach {σ : Type} {body : σ → Step σ} {fuel : Nat} {st st1 : σ} {e : Err}
    (h : iter body fuel st = .error (e, st1)) :
    e = .ENOTERM ∨ ∃ n st2, LoopReach body st n st2 ∧ body st2 = .abort e st1 := by
  induction fuel generalizing st with
  | zero =>
    cases hb : body st with
    | done r => simp [iter, hb] at h
    | next st2 => simp [iter, hb] at h; exact Or.inl h.1.symm
    | abort e2 st2 =>
      simp only [iter, hb, Except.error.injEq, Prod.mk.injEq] at h
      obtain ⟨rfl, rfl⟩ := h
      exact Or.inr ⟨0, st, LoopReach.start, hb⟩
  | succ n ih =>
    cases hb : body st with
    | done r => simp [iter, hb] at h
    | next st2 =>
      simp only [iter, hb] at h
      rcases ih h with h1 | ⟨k, st3, hr, hab⟩
      · exact Or.inl h1
      · exact Or.inr ⟨k + 1, st3, LoopReach_cons hb hr, hab⟩
    | abort e2 st2 =>
      simp only [iter, hb, Except.error.injEq, Prod.mk.injEq] at h
      obtain ⟨rfl, rfl⟩ := h
      exact Or.inr ⟨0, st, LoopReach.start, hb⟩

/-- The result of a loop is the state of a pass that the loop has reached and
that is done. -/
theorem iter_ok_reach {σ : Type} {body : σ → Step σ} {fuel : Nat} {st r : σ}
    (h : iter body fuel st = .ok r) :
    ∃ n st2, LoopReach body st n st2 ∧ body st2 = .done r := by
  induction fuel generalizing st with
  | zero =>
    cases hb : body st with
    | done r1 =>
      simp only [iter, hb, Except.ok.injEq] at h
      subst h
      exact ⟨0, st, LoopReach.start, hb⟩
    | next st2 => simp [iter, hb] at h
    | abort e2 st2 => simp [iter, hb] at h
  | succ n ih =>
    cases hb : body st with
    | done r1 =>
      simp only [iter, hb, Except.ok.injEq] at h
      subst h
      exact ⟨0, st, LoopReach.start, hb⟩
    | next st2 =>
      simp only [iter, hb] at h
      obtain ⟨k, st3, hr, hd⟩ := ih h
      exact ⟨k + 1, st3, LoopReach_cons hb hr, hd⟩
    | abort e2 st2 => simp [iter, hb] at h

theorem fsWriteBody_abort_lt {g : Geom} {inum c numb : Int} {buf : Int → Int}
    {st st1 : Int × Bfs} {e : Err} (h : fsWriteBody g inum c numb buf st = .abort e st1) :
    st.1 < numb := by
  by_contra hlt
  unfold fsWriteBody at h
  simp [hlt] at h

theorem Res.fatal_of_err {α : Type} {r : Res α} {e : Err} (h : r.err? = some e) :
    r = .fatal e r.state := by
  cases r with
  | ok v s => simp [Res.err?] at h
  | fatal e1 s => simp [Res.err?] at h; subst h; rfl

/-- The bytes of a file whose block and disk content a change has kept. -/
theorem fileByte_keep {g : Geom} {s s1 : Bfs} {i p b : Int} (hB : 0 < g.BYTESPERBLOCK)
    (hmono : ∀ f d, bfsFbnToDbn s i f = some d → bfsFbnToDbn s1 i f = some d)
    (hdisk : ∀ f d off, bfsFbnToDbn s i f = some d → 0 ≤ off → off < g.BYTESPERBLOCK →
      f * g.BYTESPERBLOCK + off = p → s1.disk d off = s.disk d off)
    (h : fileByte g s i p = some b) : fileByte g s1 i p = some b := by
  unfold fileByte at h ⊢
  cases hm : bfsFbnToDbn s i (p / g.BYTESPERBLOCK) with
  | none => simp [hm] at h
  | some d =>
    rw [hm] at h
    rw [hmono _ _ hm]
    simp only [Option.map_some', Option.some.injEq] at h ⊢
    rw [hdisk _ _ _ hm (Int.emod_nonneg _ (by omega)) (Int.emod_lt_of_pos _ hB)
      (Int.ediv_add_emod' p g.BYTESPERBLOCK)]
    exact h

/-- What a call of `fsWrite` that aborts with `EDISKFULL` leaves behind: the
invariant of its loop at the pass that found no free block. -/
theorem fsWrite_diskfull_inv (g : Geom) (s : Bfs) (fd inum c numb : Int) (buf : Int → Int)
    (s' : Bfs) (hg : g.WF) (hinv : VolInv g s) (hfd : bfsFdToInum s fd = some inum)
    (hc : bfsTell s fd = some c) (hci : isI32 c) (hn : numb < 2147483648)
    (hw : fsWrite g s fd numb buf = .fatal .EDISKFULL s') :
    ∃ bw, bw < numb ∧ s'.freeList = [] ∧ WInv g s inum c numb buf (bw, s') := by
  rcases fsWrite_cases g s fd numb buf with ⟨_, h⟩ | ⟨_, h⟩ |
    ⟨hn0, inum1, c1, e, st, hfd1, hc1, hit, h⟩ | ⟨_, _, _, _, _, _, _, _, h⟩
  · rw [h] at hw; cases hw
  · rw [h] at hw; cases hw
  · rw [h] at hw
    simp only [Res.fatal.injEq] at hw
    obtain ⟨rfl, rfl⟩ := hw
    rw [hfd] at hfd1; cases hfd1
    rw [hc] at hc1; cases hc1
    rcases iter_error_reach hit with h1 | ⟨n, st2, hr, hab⟩
    · cases h1
    · have hI := fsWrite_reach_inv g s inum c numb buf hg hci hn0 hn hinv hr
      have hlt := fsWriteBody_abort_lt hab
      rcases fsWriteBody_abort hab with ⟨_, h2, h3⟩ | ⟨h2, _⟩ | h2
      · subst h2
        exact ⟨st.1, hlt, h3, hI⟩
      · cases h2
      · cases h2
  · rcases h with ⟨e, s2, hs, h⟩ | ⟨v, s2, s3, _, h⟩
    · rw [h] at hw
      simp only [Res.fatal.injEq] at hw
      obtain ⟨rfl, rfl⟩ := hw
      rcases fsSeek_err hs with h1 | h1 | h1 <;> cases h1
    · rw [h] at hw; cases hw

theorem volOne_reach : Reach g1 volOne :=
  Reach.seek _ volOne 0 0 SEEK_SET 0
    (Reach.write _ _ 0 4 0 (fun i => 10 + i)
      (Reach.create (fsFormat g1 (boot g1)).state _ "a.txt" (some 0) Reach.fresh
        (Res.ok_of_val (by decide)))
      (by decide) (Res.ok_of_val (by decide)))
    (by decide) (Res.ok_of_val (by decide))

/-! ## Files without holes -/

/-- The cursor of an open descriptor of a well-typed volume fits an `i32`. -/
theorem bfsTell_typed {s : Bfs} {fd inum c : Int} (ht : WellTyped s)
    (hfd : bfsFdToInum s fd = some inum) (hc : bfsTell s fd = some c) : isI32 c := by
  obtain ⟨ofte0, hfo0⟩ := bfsFdToInum_find hfd
  obtain ⟨e0, he0, hte⟩ := bfsTell_some hfd hfo0
  rw [hc] at hte
  cases hte
  exact ht.1 e0 (getElem?_mem_oft he0)

/-- A call of `fsSeek` that returns changes nothing but the open file table. -/
theorem fsSeek_frame_ok {s s1 : Bfs} {fd offset whence v : Int}
    (h : fsSeek s fd offset whence = .ok v s1) :
    s1.inodes = s.inodes ∧ s1.freeList = s.freeList := by
  have := fsSeek_state s fd offset whence
  rw [h] at this
  rcases this with h1 | ⟨_, _, _, _, _, h1⟩ <;> simp only [Res.state] at h1 <;> rw [h1]
  · exact ⟨rfl, rfl⟩
  · exact ⟨rfl, rfl⟩

theorem fsRead_frame_ok {g : Geom} {s s1 : Bfs} {fd numb : Int} {buf : Int → Int}
    {r : Int × (Int → Int)} (h : fsRead g s fd numb buf = .ok r s1) :
    s1.inodes = s.inodes ∧ s1.freeList = s.freeList := by
  obtain ⟨v, hs⟩ := fsRead_state h
  exact fsSeek_frame_ok hs

theorem bfsInumToFd_frame {s s1 : Bfs} {inum fd : Int}
    (h : bfsInumToFd s inum = .ok (fd, s1)) :
    s1.inodes = s.inodes ∧ s1.freeList = s.freeList := by
  unfold bfsInumToFd at h
  cases hf : findOFTE s.g_oft inum with
  | some ofte =>
    simp only [hf, Except.ok.injEq, Prod.mk.injEq] at h
    obtain ⟨_, rfl⟩ := h
    exact ⟨rfl, rfl⟩
  | none =>
    simp only [hf] at h
    cases hff : findFreeOFTE s.g_oft with
    | none => simp [hff] at h
    | some ofte =>
      simp only [hff, Except.ok.injEq, Prod.mk.injEq] at h
      obtain ⟨_, rfl⟩ := h
      exact ⟨rfl, rfl⟩

theorem fsOpen_frame_ok {s s1 : Bfs} {fname : String} {r : Option Int}
    (h : fsOpen s fname = .ok r s1) :
    s1.inodes = s.inodes ∧ s1.freeList = s.freeList := by
  unfold fsOpen at h
  cases hl : bfsLookupFile s fname with
  | none =>
    simp only [hl, Res.ok.injEq] at h
    obtain ⟨_, rfl⟩ := h
    exact ⟨rfl, rfl⟩
  | some inum =>
    simp only [hl] at h
    cases hb : bfsInumToFd s inum with
    | error e => simp [hb] at h
    | ok v =>
      obtain ⟨fd, s2⟩ := v
      simp only [hb, Res.ok.injEq] at h
      obtain ⟨_, rfl⟩ := h
      exact bfsInumToFd_frame hb

theorem fsClose_frame_ok {s s1 : Bfs} {fd v : Int} (h : fsClose s fd = .ok v s1) :
    s1.inodes = s.inodes ∧ s1.freeList = s.freeList := by
  unfold fsClose at h
  cases hf : bfsFdToInum s fd with
  | none => simp [hf] at h
  | some inum =>
    simp only [hf, Res.ok.injEq] at h
    obtain ⟨_, rfl⟩ := h
    unfold bfsDerefOFT
    cases hfo : findOFTE s.g_oft inum with
    | none => exact ⟨rfl, rfl⟩
    | some ofte => exact ⟨rfl, rfl⟩

/-- A call of `fsCreate` that returns has reinitialised one inode and left the
other inodes and the free list as they were. -/
theorem fsCreate_frame_ok {g : Geom} {s s1 : Bfs} {fname : String} {r : Option Int}
    (h : fsCreate g s fname = .ok r s1) :
    s1.freeList = s.freeList ∧ ∃ inum s2, bfsCreateFile g s fname = .ok (some inum, s2) ∧
      s1.inodes = Function.update s.inodes inum { inuse := true, size := 0, dbns := [] } := by
  unfold fsCreate at h
  cases hc : bfsCreateFile g s fname with
  | error e => simp [hc] at h
  | ok v =>
    obtain ⟨oi, s2⟩ := v
    have h2 : s2.freeList = s.freeList ∧ ∃ inum, oi = some inum ∧
        s2.inodes = Function.update s.inodes inum { inuse := true, size := 0, dbns := [] } := by
      unfold bfsCreateFile at hc
      cases hl : bfsLookupFile s fname with
      | some inum =>
        simp only [hl, Except.ok.injEq, Prod.mk.injEq] at hc
        obtain ⟨rfl, rfl⟩ := hc
        exact ⟨rfl, inum, rfl, rfl⟩
      | none =>
        simp only [hl] at hc
        cases hfi : findFreeInode s.inodes g.NUMINODES with
        | none => simp [hfi] at hc
        | some inum =>
          simp only [hfi, Except.ok.injEq, Prod.mk.injEq] at hc
          obtain ⟨rfl, rfl⟩ := hc
          exact ⟨rfl, inum, rfl, rfl⟩
    obtain ⟨hfl, inum, rfl, hino⟩ := h2
    simp only [hc] at h
    cases hb : bfsInumToFd s2 inum with
    | error e => simp [hb] at h
    | ok w =>
      obtain ⟨fd, s3⟩ := w
      simp only [hb, Res.ok.injEq] at h
      obtain ⟨_, rfl⟩ := h
      obtain ⟨h3, h4⟩ := bfsInumToFd_frame hb
      exact ⟨h4.trans hfl, inum, s2, rfl, h3.trans hino⟩

theorem bfsFbnToDbn_congr {s s1 : Bfs} (h : s1.inodes = s.inodes) (i f : Int) :
    bfsFbnToDbn s1 i f = bfsFbnToDbn s i f := by
  unfold bfsFbnToDbn
  rw [h]

/-- The FBNs below `ceil(size / BYTESPERBLOCK)` are those whose first byte is
below `size`. -/
theorem ceil_le_iff {B f sz : Int} (hB : 0 < B) :
    f ≤ (sz + B - 1) / B - 1 ↔ f * B < sz := by
  have h1 : f + 1 ≤ (sz + B - 1) / B ↔ (f + 1) * B ≤ sz + B - 1 := Int.le_ediv_iff_mul_le hB
  have h2 : (f + 1) * B = f * B + B := by ring
  constructor
  · intro h
    have := h1.mp (by omega)
    omega
  · intro h
    have := h1.mpr (by omega)
    omega

theorem Dense_congr {g : Geom} {s s1 : Bfs} (h : s1.inodes = s.inodes) (hd : Dense g s) :
    Dense g s1 := by
  intro i f hf0 hf
  rw [h] at hf
  rw [bfsFbnToDbn_congr h]
  exact hd i f hf0 hf

theorem Dense_format (g : Geom) (s : Bfs) (hg : g.WF) : Dense g (fsFormat g s).state := by
  intro i f hf0 hf
  rw [ceil_le_iff hg.1] at hf
  have hz : ((fsFormat g s).state.inodes i).size = 0 := rfl
  rw [hz] at hf
  have := hg.1
  have : 0 ≤ f * g.BYTESPERBLOCK := Int.mul_nonneg hf0 (by omega)
  omega

theorem Dense_create {g : Geom} {s s1 : Bfs} {fname : String} {r : Option Int} (hg : g.WF)
    (h : fsCreate g s fname = .ok r s1) (hd : Dense g s) : Dense g s1 := by
  obtain ⟨_, inum, s2, _, hino⟩ := fsCreate_frame_ok h
  intro i f hf0 hf
  by_cases hi : i = inum
  · subst hi
    rw [ceil_le_iff hg.1, hino] at hf
    simp only [Function.update_same] at hf
    have := hg.1
    have : 0 ≤ f * g.BYTESPERBLOCK := Int.mul_nonneg hf0 (by omega)
    omega
  · have he : s1.inodes i = s.inodes i := by rw [hino, Function.update_noteq hi]
    rw [he] at hf
    obtain ⟨d, hd1⟩ := hd i f hf0 hf
    refine ⟨d, ?_⟩
    unfold bfsFbnToDbn at hd1 ⊢
    rw [he]
    exact hd1

/-- A call of `fsWrite` that returns, issued at a cursor at or below the size,
leaves no FBN below the size without a block. -/
theorem Dense_write {g : Geom} {s s1 : Bfs} {fd inum c numb v : Int} {buf : Int → Int}
    (hg : g.WF) (hinv : VolInv g s) (hfd : bfsFdToInum s fd = some inum)
    (hc : bfsTell s fd = some c) (hci : isI32 c) (hn : numb < 2147483648)
    (hle : c ≤ bfsGetSize s inum)
    (h : fsWrite g s fd numb buf = .ok v s1) (hd : Dense g s) : Dense g s1 := by
  have hn0 := (fsWrite_ok_pre h).1
  obtain ⟨_, _, _, _, hsize, hoth, _, _, _, _, hmono, hwr, _⟩ :=
    fsWrite_ok_obs g s fd inum c numb v buf s1 hg hfd hc hci hn0 hn hinv h
  intro i f hf0 hf
  by_cases hi : i = inum
  · subst hi
    rw [ceil_le_iff hg.1] at hf
    simp only [bfsGetSize] at hsize hle
    rw [hsize] at hf
    by_cases hlt : f * g.BYTESPERBLOCK < (s.inodes i).size
    · obtain ⟨d, hd1⟩ := hd i f hf0 ((ceil_le_iff hg.1).mpr hlt)
      exact ⟨d, hmono i f d hd1⟩
    · have hlt2 : f * g.BYTESPERBLOCK < c + numb := by
        rcases lt_max_iff.mp hf with h1 | h1
        · exact absurd h1 hlt
        · exact h1
      have hb := hwr (f * g.BYTESPERBLOCK - c) (by omega) (by omega)
      have he : c + (f * g.BYTESPERBLOCK - c) = f * g.BYTESPERBLOCK := by ring
      rw [he] at hb
      unfold fileByte at hb
      rw [Int.mul_ediv_cancel f (by have := hg.1; omega)] at hb
      cases hm : bfsFbnToDbn s1 i f with
      | none => rw [hm] at hb; simp at hb
      | some d => exact ⟨d, rfl⟩
  · have he : s1.inodes i = s.inodes i := hoth i hi
    rw [he] at hf
    obtain ⟨d, hd1⟩ := hd i f hf0 hf
    exact ⟨d, hmono i f d hd1⟩

theorem DenseReach_reach {g : Geom} {s : Bfs} (h : DenseReach g s) : Reach g s := by
  induction h with
  | fresh => exact Reach.fresh
  | format s _ ih => exact Reach.format s ih
  | create s s1 fname r _ h ih => exact Reach.create s s1 fname r ih h
  | opened s s1 fname r _ h ih => exact Reach.opened s s1 fname r ih h
  | closed s s1 fd v _ h ih => exact Reach.closed s s1 fd v ih h
  | seek s s1 fd offset whence v _ ho h ih => exact Reach.seek s s1 fd offset whence v ih ho h
  | read s s1 fd numb buf r _ hn h ih => exact Reach.read s s1 fd numb buf r ih hn h
  | write s s1 fd numb v buf _ hn _ h ih => exact Reach.write s s1 fd numb v buf ih hn h

/-! ## Allocation by `fsWrite` -/

/-- The block map and the free list after the block of `(inum, q)` has been
looked up or allocated. -/
theorem alloc_step {s s1 : Bfs} {inum q dbn : Int} (hq0 : 0 ≤ q)
    (h : (bfsFbnToDbn s inum q = some dbn ∧ s1 = s) ∨
       (bfsFbnToDbn s inum q = none ∧
        ∃ rest, s.freeList = dbn :: rest ∧
          s1 = { s with
            freeList := rest
            inodes := Function.update s.inodes inum
              { s.inodes inum with dbns := setFbn (s.inodes inum).dbns q.toNat dbn } })) :
    (∀ i f, bfsFbnToDbn s1 i f = if i = inum ∧ f = q then some dbn else bfsFbnToDbn s i f) ∧
    ((bfsFbnToDbn s inum q = some dbn ∧ s1.freeList = s.freeList) ∨
     (bfsFbnToDbn s inum q = none ∧ s.freeList = dbn :: s1.freeList)) := by
  rcases h with ⟨hmap, rfl⟩ | ⟨hmap, rest, hf, rfl⟩
  · refine ⟨?_, Or.inl ⟨hmap, rfl⟩⟩
    intro i f
    by_cases hc : i = inum ∧ f = q
    · obtain ⟨rfl, rfl⟩ := hc
      simp [hmap]
    · simp only [hc, if_false]
  · exact ⟨bfsFbnToDbn_alloc s inum q dbn rest hq0, Or.inr ⟨hmap, hf⟩⟩

theorem AllocInv_init (g : Geom) (s : Bfs) (inum c numb : Int) :
    AllocInv g s inum c numb 0 (0, s) := by
  refine ⟨fun _ => rfl, fun h => absurd h (by decide), fun _ _ _ => rfl, ?_, [], rfl, rfl⟩
  intro f h1 h2
  simp only [Nat.cast_zero, add_zero] at h2
  omega

/-- The allocation invariant of the loop of `fsWrite` is kept by every pass that
goes on. -/
theorem AllocInv_next (g : Geom) (s0 : Bfs) (inum c numb : Int) (buf : Int → Int) (k : Nat)
    (st st1 : Int × Bfs) (hg : g.WF) (hci : isI32 c) (hn : numb < 2147483648)
    (hW : WInv g s0 inum c numb buf st) (hA : AllocInv g s0 inum c numb k st)
    (h : fsWriteBody g inum c numb buf st = .next st1) :
    AllocInv g s0 inum c numb (k + 1) st1 := by
  obtain ⟨bw, s⟩ := st
  obtain ⟨a1, a2, a3, a4, news, a5, a6⟩ := hA
  simp only at a1 a2 a3 a4 a5 a6
  have hbw0 : 0 ≤ bw := hW.1
  have hinv : VolInv g s := hW.2.2.2.1
  obtain ⟨hlt, hpos, hqN, dbn, s1, hal, rfl⟩ :=
    fsWriteBody_next g s inum c numb bw buf st1 hg hci hbw0 hn hinv h
  have hB := hg.1
  have hdm := Int.ediv_add_emod' (c + bw) g.BYTESPERBLOCK
  have hm0 := Int.emod_nonneg (c + bw) (ne_of_gt hB)
  have hm1 := Int.emod_lt_of_pos (c + bw) hB
  have hq : (c + bw) / g.BYTESPERBLOCK = c / g.BYTESPERBLOCK + k := by
    rcases Nat.eq_zero_or_pos k with hk | hk
    · subst hk
      have := a1 rfl
      subst this
      simp
    · obtain ⟨_, _, _, e⟩ := a2 hk
      rw [e hlt]
      exact Int.mul_ediv_cancel _ (ne_of_gt hB)
  have hc0 : 0 ≤ c := by
    rcases Nat.eq_zero_or_pos k with hk | hk
    · subst hk
      have := a1 rfl
      subst this
      omega
    · exact (a2 hk).1
  have hq0 : 0 ≤ (c + bw) / g.BYTESPERBLOCK := Int.ediv_nonneg hpos (le_of_lt hB)
  obtain ⟨hmapeq, hfl⟩ := alloc_step hq0 hal
  have e1 : c / g.BYTESPERBLOCK + ((k + 1 : Nat) : Int) = (c + bw) / g.BYTESPERBLOCK + 1 := by
    push_cast; omega
  have e2 : ((c + bw) / g.BYTESPERBLOCK + 1) * g.BYTESPERBLOCK
      = (c + bw) / g.BYTESPERBLOCK * g.BYTESPERBLOCK + g.BYTESPERBLOCK := by ring
  have hfr : ∀ i f, (i ≠ inum ∨ f < c / g.BYTESPERBLOCK ∨
      (c + bw) / g.BYTESPERBLOCK + 1 ≤ f) → bfsFbnToDbn s1 i f = bfsFbnToDbn s0 i f := by
    intro i f hcond
    rw [hmapeq]
    have hne : ¬ (i = inum ∧ f = (c + bw) / g.BYTESPERBLOCK) := by
      rintro ⟨rfl, rfl⟩
      rcases hcond with h1 | h1 | h1
      · exact h1 rfl
      · omega
      · omega
    rw [if_neg hne]
    refine a3 i f ?_
    rcases hcond with h1 | h1 | h1
    · exact Or.inl h1
    · exact Or.inr (Or.inl h1)
    · exact Or.inr (Or.inr (by omega))
  refine ⟨fun h0 => absurd h0 (Nat.succ_ne_zero k), fun _ => ?_, ?_, ?_, ?_⟩
  · rw [e1]
    simp only
    rw [e2, show (c + bw) / g.BYTESPERBLOCK + 1 - 1 = (c + bw) / g.BYTESPERBLOCK by omega]
    refine ⟨hc0, ?_, ?_, ?_⟩
    · rcases min_cases (g.BYTESPERBLOCK - (c + bw) % g.BYTESPERBLOCK) (numb - bw) with
        ⟨hmin, _⟩ | ⟨hmin, _⟩ <;> rw [hmin] <;> omega
    · rcases min_cases (g.BYTESPERBLOCK - (c + bw) % g.BYTESPERBLOCK) (numb - bw) with
        ⟨hmin, _⟩ | ⟨hmin, _⟩ <;> rw [hmin] <;> omega
    · rcases min_cases (g.BYTESPERBLOCK - (c + bw) % g.BYTESPERBLOCK) (numb - bw) with
        ⟨hmin, _⟩ | ⟨hmin, _⟩ <;> rw [hmin] <;> omega
  · intro i f hcond
    rw [e1] at hcond
    exact hfr i f hcond
  · intro f hf0 hf1 hnone
    rw [e1] at hf1
    by_cases hfq : f = (c + bw) / g.BYTESPERBLOCK
    · subst hfq
      have hnone1 : bfsFbnToDbn s inum ((c + bw) / g.BYTESPERBLOCK) = none := by
        rw [a3 inum _ (Or.inr (Or.inr (by omega)))]
        exact hnone
      rcases hfl with ⟨hm, _⟩ | ⟨_, hf⟩
      · rw [hnone1] at hm; cases hm
      · refine ⟨dbn, ?_, ?_⟩
        · rw [a5, hf]
          simp
        · show bfsFbnToDbn s1 inum ((c + bw) / g.BYTESPERBLOCK) = some dbn
          rw [hmapeq]
          simp
    · obtain ⟨d, hd1, hd2⟩ := a4 f hf0 (by omega) hnone
      refine ⟨d, hd1, ?_⟩
      show bfsFbnToDbn s1 inum f = some d
      rw [hmapeq, if_neg (fun hh => hfq hh.2)]
      exact hd2
  · have hs0 : bfsFbnToDbn s0 inum (c / g.BYTESPERBLOCK + (k : Int))
        = bfsFbnToDbn s inum ((c + bw) / g.BYTESPERBLOCK) := by
      rw [hq]
      exact (a3 inum _ (Or.inr (Or.inr (le_refl _)))).symm
    rw [List.range_succ, List.filter_append, List.length_append]
    rcases hfl with ⟨hm, hf⟩ | ⟨hm, hf⟩
    · refine ⟨news, ?_, ?_⟩
      · show s0.freeList = news ++ s1.freeList
        rw [hf]
        exact a5
      · rw [a6]
        simp [hs0, hm]
    · refine ⟨news ++ [dbn], ?_, ?_⟩
      · show s0.freeList = (news ++ [dbn]) ++ s1.freeList
        rw [a5, hf]
        simp
      · rw [List.length_append, a6]
        simp [hs0, hm]

/-- The loop states of `fsWrite` on a volume with the block invariant keep the
allocation invariant. -/
theorem fsWrite_reach_alloc (g : Geom) (s : Bfs) (inum c numb : Int) (buf : Int → Int)
    (hg : g.WF) (hci : isI32 c) (hn0 : 0 ≤ numb) (hn : numb < 2147483648) (hinv : VolInv g s)
    {k : Nat} {st : Int × Bfs}
    (h : LoopReach (fsWriteBody g inum c numb buf) (0, s) k st) :
    WInv g s inum c numb buf st ∧ AllocInv g s inum c numb k st :=
  LoopReach_inv (fun k st => WInv g s inum c numb buf st ∧ AllocInv g s inum c numb k st)
    ⟨WInv_init g s inum c numb buf hn0 hinv, AllocInv_init g s inum c numb⟩
    (fun k st st1 hI hb =>
      ⟨WInv_next g s inum c numb buf st st1 hg hci hn hI.1 hb,
        AllocInv_next g s inum c numb buf k st st1 hg hci hn hI.1 hI.2 hb⟩) h

/-- A loop that returns, returns from every state it has reached. -/
theorem LoopReach_ok {σ : Type} {body : σ → Step σ} {st0 st r : σ} {k fuel : Nat}
    (h : LoopReach body st0 k st) (hit : iter body fuel st0 = .ok r) :
    ∃ fuel1, iter body fuel1 st = .ok r := by
  induction h with
  | start => exact ⟨fuel, hit⟩
  | next n a b _ hab ih =>
    obtain ⟨fuel1, h1⟩ := ih
    cases fuel1 with
    | zero => simp [iter, hab] at h1
    | succ m => exact ⟨m, by simpa [iter, hab] using h1⟩

theorem LoopReach_ok_step {σ : Type} {body : σ → Step σ} {st0 st r : σ} {k fuel : Nat}
    (h : LoopReach body st0 k st) (hit : iter body fuel st0 = .ok r) :
    (∃ r1, body st = .done r1) ∨ ∃ st1, body st = .next st1 := by
  obtain ⟨fuel1, h1⟩ := LoopReach_ok h hit
  cases hb : body st with
  | done r1 => exact Or.inl ⟨r1, rfl⟩
  | next st1 => exact Or.inr ⟨st1, rfl⟩
  | abort e st1 => cases fuel1 <;> simp [iter, hb] at h1

/-- A call of `fsWrite` that returns: its loop has returned with `numb` bytes
written, and what follows the loop changes neither the block map, nor the free
list, nor the disk. -/
theorem fsWrite_ok_loop (g : Geom) (s : Bfs) (fd inum c numb v : Int) (buf : Int → Int)
    (s' : Bfs) (hg : g.WF) (hfd : bfsFdToInum s fd = some inum) (hc : bfsTell s fd = some c)
    (hci : isI32 c) (hn0 : 0 ≤ numb) (hn : numb < 2147483648) (hinv : VolInv g s)
    (hw : fsWrite g s fd numb buf = .ok v s') :
    ∃ s1, iter (fsWriteBody g inum c numb buf) numb.toNat (0, s) = .ok (numb, s1) ∧
      s'.freeList = s1.freeList ∧ s'.disk = s1.disk ∧
      ∀ i f, bfsFbnToDbn s' i f = bfsFbnToDbn s1 i f := by
  have hnn : ¬ numb < 0 := by omega
  have hw0 := hw
  simp only [fsWrite, hnn, if_false, hfd, hc] at hw
  cases hiter : iter (fsWriteBody g inum c numb buf) numb.toNat (0, s) with
  | error e => obtain ⟨e1, st⟩ := e; simp [hiter] at hw
  | ok r =>
    obtain ⟨bw, s1⟩ := r
    have hbw := (fsWrite_loop_ok g s inum c numb buf hg hci hn0 hn hinv hiter).2
    simp only at hbw
    subst hbw
    simp only [hiter] at hw
    cases hs : fsSeek s1 fd bw SEEK_CUR with
    | fatal e s2 => simp [hs] at hw
    | ok v2 s2 =>
      simp only [hs] at hw
      obtain ⟨hi2, hf2⟩ := fsSeek_frame_ok hs
      have hd2 : s2.disk = s1.disk := by
        have := fsSeek_state s1 fd bw SEEK_CUR
        rw [hs] at this
        rcases this with h1 | ⟨_, _, _, _, _, h1⟩ <;> simp only [Res.state] at h1 <;> rw [h1]
      refine ⟨s1, rfl, ?_⟩
      split_ifs at hw
      · simp only [Res.ok.injEq] at hw
        obtain ⟨_, rfl⟩ := hw
        refine ⟨hf2, hd2, fun i f => ?_⟩
        rw [bfsFbnToDbn_setSize]
        exact bfsFbnToDbn_congr hi2 i f
      · simp only [Res.ok.injEq] at hw
        obtain ⟨_, rfl⟩ := hw
        exact ⟨hf2, hd2, bfsFbnToDbn_congr hi2⟩

/-- The FBN that pass `k` of the loop of `fsWrite` touches. -/
theorem fsWrite_touch (g : Geom) (s : Bfs) (inum c numb : Int) (buf : Int → Int)
    (hg : g.WF) (hci : isI32 c) (hc0 : 0 ≤ c) (hn0 : 0 ≤ numb) (hn : numb < 2147483648)
    (hinv : VolInv g s) {k : Nat} {st : Int × Bfs}
    (h : LoopReach (fsWriteBody g inum c numb buf) (0, s) k st) (hlt : st.1 < numb) :
    (add32 c st.1).tdiv g.BYTESPERBLOCK = c / g.BYTESPERBLOCK + k ∧
    c / g.BYTESPERBLOCK + k ≤ (c + numb - 1) / g.BYTESPERBLOCK := by
  obtain ⟨hW, a1, a2, _⟩ := fsWrite_reach_alloc g s inum c numb buf hg hci hn0 hn hinv h
  have hB := hg.1
  have hNB := hg.2.2.2
  have hbw0 : 0 ≤ st.1 := hW.1
  have hW3 := hW.2.2.1
  have hty : isI32 (c + st.1) := by
    unfold isI32 at hci ⊢
    rcases hW3 with h1 | ⟨_, h1, _⟩ <;> omega
  rw [add32_eq hty, Int.tdiv_eq_ediv (by omega) (le_of_lt hB)]
  have hmul : c / g.BYTESPERBLOCK * g.BYTESPERBLOCK ≤ c := Int.ediv_mul_le c (ne_of_gt hB)
  rcases Nat.eq_zero_or_pos k with hk | hk
  · subst hk
    have h0 := a1 rfl
    rw [h0]
    simp only [add_zero, Nat.cast_zero, true_and]
    exact (Int.le_ediv_iff_mul_le hB).mpr (by omega)
  · obtain ⟨_, _, _, e⟩ := a2 hk
    have e := e hlt
    refine ⟨?_, (Int.le_ediv_iff_mul_le hB).mpr (by omega)⟩
    rw [e]
    exact Int.mul_ediv_cancel _ (ne_of_gt hB)

/-- A loop of `fsWrite` that returns makes a pass for every FBN up to the one of
the last byte. -/
theorem fsWrite_touch_all (g : Geom) (s : Bfs) (inum c numb : Int) (buf : Int → Int)
    (hg : g.WF) (hci : isI32 c) (hn1 : 1 ≤ numb) (hn : numb < 2147483648)
    (hinv : VolInv g s) {fuel : Nat} {r : Int × Bfs}
    (hit : iter (fsWriteBody g inum c numb buf) fuel (0, s) = .ok r) (k : Nat)
    (hk : c / g.BYTESPERBLOCK + k ≤ (c + numb - 1) / g.BYTESPERBLOCK) :
    ∃ st, LoopReach (fsWriteBody g inum c numb buf) (0, s) k st ∧ st.1 < numb := by
  have hB := hg.1
  induction k with
  | zero => exact ⟨(0, s), LoopReach.start, by simp only; omega⟩
  | succ k ih =>
    obtain ⟨st, hr, hlt⟩ := ih (by push_cast at hk; omega)
    rcases LoopReach_ok_step hr hit with ⟨r1, hd⟩ | ⟨st1, hnx⟩
    · exact absurd hlt (fsWriteBody_done hd).2
    · have hr1 := LoopReach.next k st st1 hr hnx
      refine ⟨st1, hr1, ?_⟩
      obtain ⟨_, _, a2, _⟩ :=
        fsWrite_reach_alloc g s inum c numb buf hg hci (by omega) hn hinv hr1
      obtain ⟨_, _, a3, _⟩ := a2 (Nat.succ_le_succ (Nat.zero_le k))
      have := (Int.le_ediv_iff_mul_le hB).mp hk
      omega

/-- The allocation invariant at the end of a loop of `fsWrite` that has written
`numb >= 1` bytes: the number of passes is that of the FBNs from the one of the
cursor to the one of the last byte. -/
theorem fsWrite_alloc_final (g : Geom) (s : Bfs) (inum c numb : Int) (buf : Int → Int)
    (hg : g.WF) (hci : isI32 c) (hn1 : 1 ≤ numb) (hn : numb < 2147483648)
    (hinv : VolInv g s) {fuel : Nat} {s1 : Bfs}
    (hit : iter (fsWriteBody g inum c numb buf) fuel (0, s) = .ok (numb, s1)) :
    ∃ K : Nat, ((c + numb - 1) / g.BYTESPERBLOCK - c / g.BYTESPERBLOCK + 1).toNat = K ∧
      c / g.BYTESPERBLOCK + K = (c + numb - 1) / g.BYTESPERBLOCK + 1 ∧
      AllocInv g s inum c numb K (numb, s1) := by
  have hB := hg.1
  obtain ⟨K, st2, hr, hd⟩ := iter_ok_reach hit
  obtain ⟨e, _⟩ := fsWriteBody_done hd
  subst e
  obtain ⟨_, hA⟩ := fsWrite_reach_alloc g s inum c numb buf hg hci (by omega) hn hinv hr
  have hK : 1 ≤ K := by
    rcases Nat.eq_zero_or_pos K with hk | hk
    · have := hA.1 hk
      simp only at this
      omega
    · exact hk
  obtain ⟨_, b1, b2, _⟩ := hA.2.1 hK
  simp only at b1 b2
  have h1 : c / g.BYTESPERBLOCK + K - 1 ≤ (c + numb - 1) / g.BYTESPERBLOCK :=
    (Int.le_ediv_iff_mul_le hB).mpr b1
  have h2 : (c + numb - 1) / g.BYTESPERBLOCK < c / g.BYTESPERBLOCK + K :=
    (Int.ediv_lt_iff_lt_mul hB).mpr (by omega)
  exact ⟨K, by omega, by omega, hA⟩

/-! ## The free list and the data region -/

/-- The cursor that a returning `fsSeek` through `fda` stores is the one that
`bfsTell` gives through every descriptor `fdb` of the same inode. -/
theorem fsSeek_tell_shared {s s3 : Bfs} {fda fdb inum c offset whence v : Int}
    (ha : bfsFdToInum s fda = some inum) (hb : bfsFdToInum s fdb = some inum)
    (hc : bfsTell s fda = some c) (h : fsSeek s fda offset whence = .ok v s3) :
    bfsFdToInum s3 fda = some inum ∧ bfsFdToInum s3 fdb = some inum ∧
    ∃ c1, ((whence = SEEK_SET ∧ c1 = offset) ∨ (whence = SEEK_CUR ∧ c1 = add32 c offset) ∨
        (whence = SEEK_END ∧ c1 = add32 (bfsGetSize s inum) offset)) ∧
      bfsTell s3 fda = some c1 ∧ bfsTell s3 fdb = some c1 := by
  obtain ⟨_, inum1, ofte, e0, hfd, ho, _, _, hcase⟩ := fsSeek_ok_inv h
  rw [ha] at hfd
  cases hfd
  have hcb : bfsTell s fdb = some c := by rw [← bfsTell_same_inum ha hb]; exact hc
  rcases hcase with ⟨hw, rfl⟩ | ⟨hw, rfl⟩ | ⟨hw, rfl⟩
  · exact ⟨(bfsFdToInum_updCurs s ofte _ fda).trans ha, (bfsFdToInum_updCurs s ofte _ fdb).trans hb,
      offset, Or.inl ⟨hw, rfl⟩, bfsTell_updCurs (fun _ => offset) ha ho hc,
      bfsTell_updCurs (fun _ => offset) hb ho hcb⟩
  · exact ⟨(bfsFdToInum_updCurs s ofte _ fda).trans ha, (bfsFdToInum_updCurs s ofte _ fdb).trans hb,
      add32 c offset, Or.inr (Or.inl ⟨hw, rfl⟩),
      bfsTell_updCurs (fun curs => add32 curs offset) ha ho hc,
      bfsTell_updCurs (fun curs => add32 curs offset) hb ho hcb⟩
  · exact ⟨(bfsFdToInum_updCurs s ofte _ fda).trans ha, (bfsFdToInum_updCurs s ofte _ fdb).trans hb,
      add32 (bfsGetSize s inum) offset, Or.inr (Or.inr ⟨hw, rfl⟩),
      bfsTell_updCurs (fun _ => add32 (bfsGetSize s inum) offset) ha ho hc,
      bfsTell_updCurs (fun _ => add32 (bfsGetSize s inum) offset) hb ho hcb⟩

/-- The cursor after `fsSeek(fda, offset, SEEK_CUR)`, through every descriptor of
the inode. -/
theorem fsSeek_cur_tell_shared {s s3 : Bfs} {fda fdb inum c offset v : Int}
    (ha : bfsFdToInum s fda = some inum) (hb : bfsFdToInum s fdb = some inum)
    (hc : bfsTell s fda = some c) (h : fsSeek s fda offset SEEK_CUR = .ok v s3) :
    bfsTell s3 fda = some (add32 c offset) ∧ bfsTell s3 fdb = some (add32 c offset) := by
  obtain ⟨_, _, c1, hcase, h1, h2⟩ := fsSeek_tell_shared ha hb hc h
  rcases hcase with ⟨hw, _⟩ | ⟨_, rfl⟩ | ⟨hw, _⟩
  · exact absurd hw seek_cur_ne_set
  · exact ⟨h1, h2⟩
  · exact absurd hw.symm seek_end_ne_cur

/-- The cursor that a returning `fsRead` through `fda` leaves is `cursor + k`, in
`i32`, through every descriptor of the inode. -/
theorem fsRead_tell_shared {g : Geom} {s s3 : Bfs} {fda fdb inum c numb : Int}
    {buf : Int → Int} {r : Int × (Int → Int)}
    (ha : bfsFdToInum s fda = some inum) (hb : bfsFdToInum s fdb = some inum)
    (hc : bfsTell s fda = some c) (h : fsRead g s fda numb buf = .ok r s3) :
    bfsTell s3 fda = some (add32 c r.1) ∧ bfsTell s3 fdb = some (add32 c r.1) := by
  obtain ⟨v, hs⟩ := fsRead_state h
  exact fsSeek_cur_tell_shared ha hb hc hs

/-- A pass of the loop of `fsWrite` leaves the open file table alone. -/
theorem fsWriteBody_next_oft {g : Geom} {inum c numb : Int} {buf : Int → Int}
    {st st1 : Int × Bfs} (h : fsWriteBody g inum c numb buf st = .next st1) :
    st1.2.g_oft = st.2.g_oft := by
  unfold fsWriteBody at h
  simp only at h
  by_cases hlt : st.1 < numb
  swap
  · simp [hlt] at h
  simp only [hlt, not_true_eq_false, if_false] at h
  cases hmap : bfsFbnToDbn st.2 inum ((add32 c st.1).tdiv g.BYTESPERBLOCK) with
  | some dbn =>
    simp only [hmap] at h
    split_ifs at h
    all_goals (simp only [Step.next.injEq] at h; rw [← h]; rfl)
  | none =>
    simp only [hmap] at h
    cases hal : bfsAllocBlock g st.2 inum ((add32 c st.1).tdiv g.BYTESPERBLOCK) with
    | error e => simp [hal] at h
    | ok w =>
      obtain ⟨dbn, s1⟩ := w
      obtain ⟨_, _, rest, _, hs1⟩ := bfsAllocBlock_ok hal
      simp only [hal] at h
      split_ifs at h
      all_goals (simp only [Step.next.injEq] at h; rw [← h, hs1]; rfl)

/-- The cursor that a returning `fsWrite` through `fda` leaves is
`cursor + bytesWritten`, in `i32`, through every descriptor of the inode, where
`bytesWritten` is what its loop returned: `numb`. -/
theorem fsWrite_tell_shared {g : Geom} {s s3 : Bfs} {fda fdb inum c numb v : Int}
    {buf : Int → Int}
    (ha : bfsFdToInum s fda = some inum) (hb : bfsFdToInum s fdb = some inum)
    (hc : bfsTell s fda = some c) (h : fsWrite g s fda numb buf = .ok v s3) :
    ∃ bw sl, iter (fsWriteBody g inum c numb buf) numb.toNat (0, s) = .ok (bw, sl) ∧
      (g.WF → numb < 2147483648 → bw = numb) ∧
      bfsTell s3 fda = some (add32 c bw) ∧ bfsTell s3 fdb = some (add32 c bw) := by
  have hn0 := (fsWrite_ok_pre h).1
  have hnn : ¬ numb < 0 := by omega
  simp only [fsWrite, hnn, if_false, ha, hc] at h
  cases hiter : iter (fsWriteBody g inum c numb buf) numb.toNat (0, s) with
  | error e => obtain ⟨e1, st⟩ := e; simp [hiter] at h
  | ok r =>
    obtain ⟨bw, s1⟩ := r
    simp only [hiter] at h
    obtain ⟨K, st2, hr, hd⟩ := iter_ok_reach hiter
    obtain ⟨e, hnlt⟩ := fsWriteBody_done hd
    subst e
    simp only at hnlt
    have hoft : s1.g_oft = s.g_oft :=
      LoopReach_inv (fun _ (st : Int × Bfs) => st.2.g_oft = s.g_oft) rfl
        (fun _ st st1 hI hb1 => (fsWriteBody_next_oft hb1).trans hI) hr
    have ha1 : bfsFdToInum s1 fda = some inum := by rw [bfsFdToInum_congr hoft]; exact ha
    have hb1 : bfsFdToInum s1 fdb = some inum := by rw [bfsFdToInum_congr hoft]; exact hb
    have hc1 : bfsTell s1 fda = some c := by rw [bfsTell_congr hoft]; exact hc
    refine ⟨bw, s1, rfl, ?_, ?_⟩
    · intro hg hn
      have := (fsWrite_reach_count g s inum c numb buf hg hn0 hn hr).2
      simp only at this
      omega
    · cases hs : fsSeek s1 fda bw SEEK_CUR with
      | fatal e s2 => simp [hs] at h
      | ok v2 s2 =>
        simp only [hs] at h
        obtain ⟨h1, h2⟩ := fsSeek_cur_tell_shared ha1 hb1 hc1 hs
        split_ifs at h
        · simp only [Res.ok.injEq] at h
          obtain ⟨_, rfl⟩ := h
          exact ⟨h1, h2⟩
        · simp only [Res.ok.injEq] at h
          obtain ⟨_, rfl⟩ := h
          exact ⟨h1, h2⟩

/-! ## The claims -/

/-- C7, as stated, fails: with the cursor at 2147483647, `fsSeek(fd, 1, SEEK_CUR)`
returns 0 and `fsTell` then returns -2147483648, not 2147483647 + 1. -/
theorem fsSeek_formula_overflow :
    (fsTell volMax 0).val? = some 2147483647 ∧
    (fsSeek volMax 0 1 SEEK_CUR).val? = some 0 ∧
    (fsTell (fsSeek volMax 0 1 SEEK_CUR).state 0).val? = some (-2147483648) ∧
    (fsTell (fsSeek volMax 0 1 SEEK_CUR).state 0).val? ≠ some (2147483647 + 1) := by
  decide

/-- C7, amended: on an open descriptor with cursor `c`, on a file of size `sz`,
and for `offset >= 0`, `fsSeek` returns 0 and `fsTell` afterwards returns
`offset` for SEEK_SET, `c + offset` for SEEK_CUR when that sum fits an `i32`, and
`sz + offset` for SEEK_END when that sum fits an `i32`; the size plays no part in
accepting the call, so the cursor may exceed it. -/
theorem fsSeek_formula (s : Bfs) (fd inum c offset : Int)
    (hfd : bfsFdToInum s fd = some inum) (hc : bfsTell s fd = some c) (hoff : 0 ≤ offset) :
    (∃ s1, fsSeek s fd offset SEEK_SET = .ok 0 s1 ∧ fsTell s1 fd = .ok offset s1) ∧
    (isI32 (c + offset) →
      ∃ s1, fsSeek s fd offset SEEK_CUR = .ok 0 s1 ∧ fsTell s1 fd = .ok (c + offset) s1) ∧
    (isI32 (bfsGetSize s inum + offset) →
      ∃ s1, fsSeek s fd offset SEEK_END = .ok 0 s1 ∧
        fsTell s1 fd = .ok (bfsGetSize s inum + offset) s1) := by
  obtain ⟨ofte, ho⟩ := bfsFdToInum_find hfd
  obtain ⟨h0, h1, h2⟩ := fsSeek_ok hfd ho hoff
  refine ⟨⟨_, h0, ?_⟩, fun hi => ⟨_, h1, ?_⟩, fun hi => ⟨_, h2, ?_⟩⟩
  · unfold fsTell
    rw [bfsTell_updCurs _ hfd ho hc]
  · unfold fsTell
    rw [bfsTell_updCurs _ hfd ho hc]
    simp only [add32_eq hi]
  · unfold fsTell
    rw [bfsTell_updCurs _ hfd ho hc]
    simp only [add32_eq hi]

theorem fsSeek_formula_witness :
    bfsFdToInum volR 0 = some 0 ∧ bfsTell volR 0 = some 1 ∧ bfsGetSize volR 0 = 6 ∧
    (∃ s1, fsSeek volR 0 7 SEEK_SET = .ok 0 s1 ∧ fsTell s1 0 = .ok 7 s1) ∧
    (∃ s1, fsSeek volR 0 7 SEEK_CUR = .ok 0 s1 ∧ fsTell s1 0 = .ok (1 + 7) s1) ∧
    (∃ s1, fsSeek volR 0 7 SEEK_END = .ok 0 s1 ∧
      fsTell s1 0 = .ok (bfsGetSize volR 0 + 7) s1) :=
  have h := fsSeek_formula volR 0 0 1 7 (by decide) (by decide) (by decide)
  ⟨by decide, by decide, by decide, h.1, h.2.1 (by decide), h.2.2 (by decide)⟩

/-- C8: on a valid descriptor `fsSeek` fails exactly when `offset < 0` (with
EBADCURS) or `whence` is none of SEEK_SET, SEEK_CUR, SEEK_END (with EBADWHENCE),
and a failing call leaves the whole state as it was. -/
theorem fsSeek_fails_iff (s : Bfs) (fd inum offset whence : Int)
    (hfd : bfsFdToInum s fd = some inum) :
    ((∃ e s1, fsSeek s fd offset whence = .fatal e s1) ↔
      (offset < 0 ∨ (whence ≠ SEEK_SET ∧ whence ≠ SEEK_CUR ∧ whence ≠ SEEK_END))) ∧
    (offset < 0 → fsSeek s fd offset whence = .fatal .EBADCURS s) ∧
    (0 ≤ offset → whence ≠ SEEK_SET → whence ≠ SEEK_CUR → whence ≠ SEEK_END →
      fsSeek s fd offset whence = .fatal .EBADWHENCE s) ∧
    (∀ e s1, fsSeek s fd offset whence = .fatal e s1 → s1 = s) := by
  obtain ⟨ofte, ho⟩ := bfsFdToInum_find hfd
  have hneg : offset < 0 → fsSeek s fd offset whence = .fatal .EBADCURS s := by
    intro h; simp [fsSeek, h]
  have hwh : 0 ≤ offset → whence ≠ SEEK_SET → whence ≠ SEEK_CUR → whence ≠ SEEK_END →
      fsSeek s fd offset whence = .fatal .EBADWHENCE s := by
    intro h h0 h1 h2
    have hn : ¬ offset < 0 := by omega
    simp [fsSeek, hn, hfd, ho, h0, h1, h2]
  refine ⟨⟨?_, ?_⟩, hneg, hwh, fun e s1 h => fsSeek_fatal_state h⟩
  · rintro ⟨e, s1, h⟩
    by_contra hcon
    push_neg at hcon
    obtain ⟨hoff, hw⟩ := hcon
    obtain ⟨h0, h1, h2⟩ := fsSeek_ok hfd ho hoff
    by_cases w0 : whence = SEEK_SET
    · subst w0; rw [h0] at h; cases h
    · by_cases w1 : whence = SEEK_CUR
      · subst w1; rw [h1] at h; cases h
      · have w2 := hw w0 w1
        subst w2; rw [h2] at h; cases h
  · rintro (h | ⟨h0, h1, h2⟩)
    · exact ⟨_, _, hneg h⟩
    · by_cases hoff : offset < 0
      · exact ⟨_, _, hneg hoff⟩
      · exact ⟨_, _, hwh (by omega) h0 h1 h2⟩

theorem fsSeek_fails_iff_witness :
    bfsFdToInum volA 0 = some 0 ∧ fsSeek volA 0 (-1) SEEK_CUR = .fatal .EBADCURS volA :=
  ⟨by decide, (fsSeek_fails_iff volA 0 0 (-1) SEEK_CUR (by decide)).2.1 (by decide)⟩

/-- C10: whatever `fd`, `offset` and `whence` are, the state that `fsSeek` leaves
has the same inode table (sizes and block maps), disk, free list and directory,
`fsSize(fd)` is the same, and in the open file table only the cursor of the entry
found for the inode of `fd` can differ. -/
theorem fsSeek_frame (s : Bfs) (fd offset whence : Int) :
    (fsSeek s fd offset whence).state.inodes = s.inodes ∧
    (fsSeek s fd offset whence).state.disk = s.disk ∧
    (fsSeek s fd offset whence).state.freeList = s.freeList ∧
    (fsSeek s fd offset whence).state.dir = s.dir ∧
    (fsSize (fsSeek s fd offset whence).state fd).val? = (fsSize s fd).val? ∧
    (fsSeek s fd offset whence).state.g_oft.length = s.g_oft.length ∧
    ∀ j e, s.g_oft[j]? = some e →
      ∃ e1, (fsSeek s fd offset whence).state.g_oft[j]? = some e1 ∧
        e1.inum = e.inum ∧ e1.refs = e.refs ∧
        (e1.curs ≠ e.curs →
          ∃ inum, bfsFdToInum s fd = some inum ∧ bfsFindOFTE s inum = some j) := by
  rcases fsSeek_state s fd offset whence with h | ⟨inum, ofte, f, hfd, ho, h⟩
  · rw [h]
    refine ⟨rfl, rfl, rfl, rfl, rfl, rfl, fun j e he => ⟨e, he, rfl, rfl, fun hne => ?_⟩⟩
    exact absurd rfl hne
  · rw [h]
    refine ⟨rfl, rfl, rfl, rfl, ?_, updCurs_length _ _ _, fun j e he => ?_⟩
    · simp [fsSize, bfsFdToInum_updCurs, bfsGetSize]
      cases bfsFdToInum s fd <;> simp [Res.val?]
    · simp only [updCurs_get]
      by_cases hj : j = ofte
      · subst hj
        simp only [if_true, he, Option.map_some']
        exact ⟨_, rfl, rfl, rfl, fun _ => ⟨inum, hfd, ho⟩⟩
      · simp only [hj, if_false]
        exact ⟨e, he, rfl, rfl, fun hne => absurd rfl hne⟩

/-- C4: `fsRead(fd, numb, buf)` with `numb >= 0` at a cursor `c >= 0` on a file of
size `s`, all FBNs covering `[c, min(c + numb, s))` being mapped, returns
`k = min(numb, max(0, s - c))`; `buf[i]` for `0 <= i < k` is byte
`(c + i) mod BYTESPERBLOCK` of the block mapped to FBN `(c + i) / BYTESPERBLOCK`;
the other bytes of `buf` are untouched; the cursor afterwards is `c + k`. -/
theorem fsRead_post (g : Geom) (s : Bfs) (fd inum c numb : Int) (buf : Int → Int)
    (hg : g.WF) (hfd : bfsFdToInum s fd = some inum) (hc : bfsTell s fd = some c)
    (hn0 : 0 ≤ numb) (hn : numb < 2147483648) (hc0 : 0 ≤ c) (hc1 : c < 2147483648)
    (hs : bfsGetSize s inum < 2147483648)
    (hmap : ∀ p, c ≤ p → p < min (c + numb) (bfsGetSize s inum) →
      (bfsFbnToDbn s inum (p / g.BYTESPERBLOCK)).isSome) :
    ∃ buf1 s1,
      fsRead g s fd numb buf = .ok (min numb (max 0 (bfsGetSize s inum - c)), buf1) s1 ∧
      (∀ i, 0 ≤ i → i < min numb (max 0 (bfsGetSize s inum - c)) → ∃ dbn,
        bfsFbnToDbn s inum ((c + i) / g.BYTESPERBLOCK) = some dbn ∧
        buf1 i = s.disk dbn ((c + i) % g.BYTESPERBLOCK)) ∧
      (∀ i, ¬ (0 ≤ i ∧ i < min numb (max 0 (bfsGetSize s inum - c))) → buf1 i = buf i) ∧
      fsTell s1 fd = .ok (c + min numb (max 0 (bfsGetSize s inum - c))) s1 := by
  obtain ⟨br, buf1, ofte, ho, hread, htell, h0, h1, h2, h3, h4, h5⟩ :=
    fsRead_spec g s fd inum c numb buf hg hfd hc hc0 hc1 hs hn0 hn
  have hk : br = min numb (max 0 (bfsGetSize s inum - c)) := by
    rcases h3 with h | h | h
    · rw [min_def, max_def]; split_ifs <;> omega
    · rw [min_def, max_def]; split_ifs <;> omega
    · by_cases hlt : c + br < min (c + numb) (bfsGetSize s inum)
      · have := hmap (c + br) (by omega) hlt
        rw [h] at this
        simp at this
      · rw [min_def] at hlt
        rw [min_def, max_def]
        split_ifs at hlt ⊢ <;> omega
  subst hk
  refine ⟨buf1, _, hread, h4, h5, ?_⟩
  simp only [fsTell, htell]

theorem fsRead_post_witness :
    bfsFdToInum volR 0 = some 0 ∧ bfsTell volR 0 = some 1 ∧ bfsGetSize volR 0 = 6 ∧
    ∃ buf1 s1,
      fsRead g4 volR 0 4 (fun _ => 0) = .ok (min 4 (max 0 (bfsGetSize volR 0 - 1)), buf1) s1 ∧
      (∀ i, 0 ≤ i → i < min 4 (max 0 (bfsGetSize volR 0 - 1)) → ∃ dbn,
        bfsFbnToDbn volR 0 ((1 + i) / g4.BYTESPERBLOCK) = some dbn ∧
        buf1 i = volR.disk dbn ((1 + i) % g4.BYTESPERBLOCK)) ∧
      (∀ i, ¬ (0 ≤ i ∧ i < min 4 (max 0 (bfsGetSize volR 0 - 1))) → buf1 i = (fun _ => 0) i) ∧
      fsTell s1 0 = .ok (1 + min 4 (max 0 (bfsGetSize volR 0 - 1))) s1 :=
  ⟨by decide, by decide, by decide,
    fsRead_post g4 volR 0 0 1 4 (fun _ => 0) (by decide) (by decide) (by decide) (by decide)
      (by decide) (by decide) (by decide) (by decide)
      (by
        intro p h1 h2
        have h3 : p < 5 := lt_of_lt_of_le h2 (min_le_left _ _)
        interval_cases p <;> decide)⟩

/-- C5: `fsRead(fd, numb, buf)` with `numb >= 0` and the cursor at or after the end
of the file returns 0 without failing, leaves the loop before any block is read,
and leaves the buffer and the whole state, the cursor included, as they were; so
it is after `fsSeek(fd, 0, SEEK_END)`, which sets the cursor to the size. -/
theorem fsRead_at_eof (g : Geom) (s : Bfs) (fd inum numb : Int) (buf : Int → Int)
    (hfd : bfsFdToInum s fd = some inum) (hn : 0 ≤ numb) :
    (∀ c, bfsTell s fd = some c → isI32 c → bfsGetSize s inum ≤ c →
      fsRead g s fd numb buf = .ok (0, buf) s ∧
      fsReadBody g s inum c (bfsGetSize s inum) numb (0, buf) = .done (0, buf)) ∧
    (isI32 (bfsGetSize s inum) →
      ∃ s1, fsSeek s fd 0 SEEK_END = .ok 0 s1 ∧
        fsTell s1 fd = .ok (bfsGetSize s inum) s1 ∧
        fsRead g s1 fd numb buf = .ok (0, buf) s1) := by
  refine ⟨fun c hc hci heof => fsRead_eof_aux g s fd inum c numb buf hfd hc hci hn heof, ?_⟩
  intro hsz
  obtain ⟨ofte, ho⟩ := bfsFdToInum_find hfd
  obtain ⟨e, he, hte⟩ := bfsTell_some hfd ho
  have hseek := (fsSeek_ok hfd ho (le_refl 0)).2.2
  have htell := bfsTell_updCurs (fun _ => add32 (bfsGetSize s inum) 0) hfd ho hte
  simp only [add32_zero hsz] at hseek htell
  refine ⟨_, hseek, by simp only [fsTell, htell], ?_⟩
  exact (fsRead_eof_aux g _ fd inum (bfsGetSize s inum) numb buf
    (by rw [bfsFdToInum_updCurs]; exact hfd) htell hsz hn (le_refl _)).1

theorem fsRead_at_eof_witness :
    bfsFdToInum volW 0 = some 0 ∧ bfsTell volW 0 = some 6 ∧ bfsGetSize volW 0 = 6 ∧
    fsRead g4 volW 0 3 (fun _ => 0) = .ok (0, fun _ => 0) volW :=
  ⟨by decide, by decide, by decide,
    ((fsRead_at_eof g4 volW 0 0 3 (fun _ => 0) (by decide) (by decide)).1 6
      (by decide) (by decide) (by decide)).1⟩

/-- C2: after a call `fsWrite(fd, n, buf)` with `n >= 0` that returns, issued at
cursor `c` on a file of recorded size `s`, the recorded size is `max(s, c + n)`; so
it has not decreased, and `3 * BYTESPERBLOCK + 1` bytes written from offset 0 into
an empty file give the size `3 * BYTESPERBLOCK + 1`. -/
theorem fsWrite_size (g : Geom) (s : Bfs) (fd inum c numb v : Int) (buf : Int → Int)
    (s' : Bfs) (hg : g.WF) (hinv : VolInv g s) (hfd : bfsFdToInum s fd = some inum)
    (hc : bfsTell s fd = some c) (hci : isI32 c) (hn0 : 0 ≤ numb) (hn : numb < 2147483648)
    (hw : fsWrite g s fd numb buf = .ok v s') :
    bfsGetSize s' inum = max (bfsGetSize s inum) (c + numb) ∧
    bfsGetSize s inum ≤ bfsGetSize s' inum ∧
    (c = 0 → bfsGetSize s inum = 0 → numb = 3 * g.BYTESPERBLOCK + 1 →
      bfsGetSize s' inum = 3 * g.BYTESPERBLOCK + 1) := by
  have h := (fsWrite_ok_obs g s fd inum c numb v buf s' hg hfd hc hci hn0 hn hinv hw).2.2.2.2.1
  refine ⟨h, by rw [h]; exact le_max_left _ _, ?_⟩
  intro h0 hs0 hnb
  rw [h, hs0, h0, max_eq_right (by omega)]
  omega

theorem fsWrite_size_witness :
    bfsFdToInum volA 0 = some 0 ∧ bfsTell volA 0 = some 0 ∧ bfsGetSize volA 0 = 0 ∧
    fsWrite g4 volA 0 13 (fun _ => 171) = .ok 0 volBig ∧
    bfsGetSize volBig 0 = 3 * g4.BYTESPERBLOCK + 1 :=
  ⟨by decide, by decide, by decide, Res.ok_of_val (by decide),
    (fsWrite_size g4 volA 0 0 0 13 0 (fun _ => 171) volBig (by decide) volA_inv (by decide)
      (by decide) (by decide) (by decide) (by decide) (Res.ok_of_val (by decide))).2.2
      rfl (by decide) (by decide)⟩

/-- C3: after a call `fsWrite(fd, n, buf)` at cursor `c` that returns, every byte of
the file at an offset `p >= 0` outside `[c, c + n)` that could be read before reads
back with the same value, and every other file has its inode (size and block map)
and every byte unchanged. -/
theorem fsWrite_preserves (g : Geom) (s : Bfs) (fd inum c numb v : Int) (buf : Int → Int)
    (s' : Bfs) (hg : g.WF) (hinv : VolInv g s) (hfd : bfsFdToInum s fd = some inum)
    (hc : bfsTell s fd = some c) (hci : isI32 c) (hn0 : 0 ≤ numb) (hn : numb < 2147483648)
    (hw : fsWrite g s fd numb buf = .ok v s') :
    (∀ p b, 0 ≤ p → (p < c ∨ c + numb ≤ p) → fileByte g s inum p = some b →
      fileByte g s' inum p = some b) ∧
    (∀ i, i ≠ inum → s'.inodes i = s.inodes i ∧ ∀ p, fileByte g s' i p = fileByte g s i p) := by
  obtain ⟨_, _, _, _, _, hoth, _, _, _, _, hmono, _, hpre⟩ :=
    fsWrite_ok_obs g s fd inum c numb v buf s' hg hfd hc hci hn0 hn hinv hw
  have hB0 : 0 < g.BYTESPERBLOCK := hg.1
  have key : ∀ i p b, (i = inum → p < c ∨ c + numb ≤ p) → fileByte g s i p = some b →
      fileByte g s' i p = some b := by
    intro i p b hout hb
    unfold fileByte at hb ⊢
    cases hd : bfsFbnToDbn s i (p / g.BYTESPERBLOCK) with
    | none => rw [hd] at hb; cases hb
    | some d =>
      rw [hd] at hb
      rw [hmono i _ d hd]
      simp only [Option.map_some', Option.some.injEq] at hb ⊢
      rw [← hb]
      apply hpre i _ d _ hd (Int.emod_nonneg _ (by omega)) (Int.emod_lt_of_pos _ hB0)
      intro hi
      have := Int.ediv_add_emod p g.BYTESPERBLOCK
      rw [Int.mul_comm] at this
      rw [this]
      exact hout hi
  refine ⟨fun p b _ hout hb => key inum p b (fun _ => hout) hb, ?_⟩
  intro i hi
  refine ⟨hoth i hi, fun p => ?_⟩
  cases hb : fileByte g s i p with
  | some b => exact key i p b (fun h => absurd h hi) hb
  | none =>
    unfold fileByte at hb ⊢
    have hm : bfsFbnToDbn s' i (p / g.BYTESPERBLOCK) = bfsFbnToDbn s i (p / g.BYTESPERBLOCK) := by
      unfold bfsFbnToDbn; rw [hoth i hi]
    rw [hm]
    cases hd : bfsFbnToDbn s i (p / g.BYTESPERBLOCK) with
    | none => rfl
    | some d => rw [hd] at hb; cases hb

theorem fsWrite_preserves_witness :
    bfsFdToInum volT5 0 = some 0 ∧ bfsTell volT5 0 = some 5 ∧
    fsWrite g4 volT5 0 10 (fun i => 200 + i) = .ok 0 volT15 ∧
    (∀ p b, 0 ≤ p → (p < 5 ∨ 5 + 10 ≤ p) → fileByte g4 volT5 0 p = some b →
      fileByte g4 volT15 0 p = some b) ∧
    (fsRead g4 (fsSeek volT15 0 0 SEEK_SET).state 0 15 (fun _ => 0)).val?.map
      (fun r => (r.1, (List.range 15).map (fun i => r.2 i)))
      = some (15, [100, 101, 102, 103, 104, 200, 201, 202, 203, 204, 205, 206, 207, 208, 209]) :=
  ⟨by decide, by decide, Res.ok_of_val (by decide),
    (fsWrite_preserves g4 volT5 0 0 5 10 0 (fun i => 200 + i) volT15 (by decide) volT5_inv
      (by decide) (by decide) (by decide) (by decide) (by decide)
      (Res.ok_of_val (by decide))).1,
    by decide⟩

/-- C1: for an open descriptor with cursor `c >= 0` and bytes `buf[0..n)`, `n >= 0`,
for which `fsWrite(fd, n, buf)` returns, the calls `fsWrite(fd, n, buf)`,
`fsSeek(fd, c, SEEK_SET)`, `fsRead(fd, n, rbuf)` make `fsRead` return `n` and leave
`rbuf[0..n)` equal to `buf[0..n)`, wherever in its blocks the range starts and ends. -/
theorem write_read_roundtrip (g : Geom) (s : Bfs) (fd inum c numb v : Int)
    (buf rbuf : Int → Int) (s' : Bfs) (hg : g.WF) (hinv : VolInv g s)
    (hfd : bfsFdToInum s fd = some inum) (hc : bfsTell s fd = some c)
    (hc0 : 0 ≤ c) (hc1 : c < 2147483648) (hsz : bfsGetSize s inum < 2147483648)
    (hn0 : 0 ≤ numb) (hn : numb < 2147483648)
    (hw : fsWrite g s fd numb buf = .ok v s') :
    ∃ s2 buf1 s3, fsSeek s' fd c SEEK_SET = .ok 0 s2 ∧
      fsRead g s2 fd numb rbuf = .ok (numb, buf1) s3 ∧
      ∀ i, 0 ≤ i → i < numb → buf1 i = buf i := by
  obtain ⟨_, hty, _, _, hsize, _, hfd', htell', _, _, _, hbytes, _⟩ :=
    fsWrite_ok_obs g s fd inum c numb v buf s' hg hfd hc ⟨by omega, hc1⟩ hn0 hn hinv hw
  obtain ⟨ofte, ho'⟩ := bfsFdToInum_find hfd'
  have hseek := (fsSeek_ok hfd' ho' hc0).1
  have hfd2 := (bfsFdToInum_updCurs s' ofte (fun _ => c) fd).trans hfd'
  have htell2 := bfsTell_updCurs (fun _ => c) hfd' ho' htell'
  have hsz2 : bfsGetSize { s' with g_oft := updCurs s'.g_oft ofte (fun _ => c) } inum
      = max (bfsGetSize s inum) (c + numb) := hsize
  obtain ⟨br, buf1, _, _, hread, _, h0, h1, _, h3, h4, _⟩ :=
    fsRead_spec g { s' with g_oft := updCurs s'.g_oft ofte (fun _ => c) } fd inum c numb rbuf hg
      hfd2 htell2 hc0 hc1 (by rw [hsz2]; unfold isI32 at hty; exact max_lt hsz hty.2) hn0 hn
  have hbr : br = numb := by
    by_contra hne
    have hlt : br < numb := by omega
    rcases h3 with h | h | h
    · omega
    · rw [hsz2] at h
      have := le_max_right (bfsGetSize s inum) (c + numb)
      omega
    · have hb := hbytes br h0 hlt
      unfold fileByte at hb
      rw [show bfsFbnToDbn s' inum ((c + br) / g.BYTESPERBLOCK) = none from h] at hb
      cases hb
  subst hbr
  refine ⟨_, buf1, _, hseek, hread, ?_⟩
  intro i hi0 hi1
  obtain ⟨dbn, hd1, hd2⟩ := h4 i hi0 hi1
  have hb := hbytes i hi0 hi1
  unfold fileByte at hb
  rw [show bfsFbnToDbn s' inum ((c + i) / g.BYTESPERBLOCK) = some dbn from hd1] at hb
  simp only [Option.map_some', Option.some.injEq] at hb
  rw [hd2]
  exact hb

theorem write_read_roundtrip_witness :
    bfsFdToInum volR 0 = some 0 ∧ bfsTell volR 0 = some 1 ∧ bfsGetSize volR 0 = 6 ∧
    fsWrite g4 volR 0 9 (fun i => 50 + i) = .ok 0 volR10 ∧
    ∃ s2 buf1 s3, fsSeek volR10 0 1 SEEK_SET = .ok 0 s2 ∧
      fsRead g4 s2 0 9 (fun _ => 0) = .ok (9, buf1) s3 ∧
      ∀ i, 0 ≤ i → i < 9 → buf1 i = (fun i => 50 + i) i :=
  ⟨by decide, by decide, by decide, Res.ok_of_val (by decide),
    write_read_roundtrip g4 volR 0 0 1 9 0 (fun i => 50 + i) (fun _ => 0) volR10 (by decide)
      volR_inv (by decide) (by decide) (by decide) (by decide) (by decide) (by decide)
      (by decide) (Res.ok_of_val (by decide))⟩

/-- C6, as stated, fails: on `volHole` (size 9, cursor 0, no block at FBN 0),
`fsRead(fd, 4, buf)` returns 0, less than 4 and less than `min(4, max(0, 9 - 0))`,
and `cursor + 0` is below the size. -/
theorem fsRead_short_before_eof :
    (fsTell volHole 0).val? = some 0 ∧ (fsSize volHole 0).val? = some 9 ∧
    (fsRead g4 volHole 0 4 (fun _ => 0)).val?.map (fun r => r.1) = some 0 ∧
    (0 : Int) + 0 < 9 ∧ (0 : Int) ≠ min 4 (max 0 (9 - 0)) := by
  decide

/-- C6, amended: on a volume reached through the API, a call `fsRead(fd, numb, buf)`
that returns `k < numb` ends with `cursor + k >= size`, or at a position
`cursor + k` whose FBN has no block; so `k = min(numb, max(0, size - cursor))` when
the cursor is not negative and every FBN covering the range has a block. -/
theorem fsRead_short (g : Geom) (s s1 : Bfs) (fd inum c numb k : Int) (buf buf1 : Int → Int)
    (hg : g.WF) (hreach : Reach g s) (hfd : bfsFdToInum s fd = some inum)
    (hc : bfsTell s fd = some c) (hn : numb < 2147483648)
    (hr : fsRead g s fd numb buf = .ok (k, buf1) s1) :
    (k < numb → bfsGetSize s inum ≤ c + k ∨
      bfsFbnToDbn s inum ((c + k).tdiv g.BYTESPERBLOCK) = none) ∧
    (0 ≤ c → (∀ p, c ≤ p → p < min (c + numb) (bfsGetSize s inum) →
        (bfsFbnToDbn s inum (p / g.BYTESPERBLOCK)).isSome) →
      k = min numb (max 0 (bfsGetSize s inum - c))) := by
  obtain ⟨_, htc, hts⟩ := Reach_inv hg hreach
  obtain ⟨ofte, hfo⟩ := bfsFdToInum_find hfd
  obtain ⟨e0, he0, hte⟩ := bfsTell_some hfd hfo
  rw [hc] at hte
  cases hte
  have hci : isI32 e0.curs := htc e0 (getElem?_mem_oft he0)
  have hs : bfsGetSize s inum < 2147483648 := (hts inum).2
  obtain ⟨hn0, inum1, c1, hfd1, hc1, r1, hit, hr1⟩ := fsRead_ok_pre hr
  rw [hfd] at hfd1; cases hfd1
  rw [hc] at hc1; cases hc1
  subst hr1
  by_cases hc0 : 0 ≤ e0.curs
  · obtain ⟨br, b1, hit2, h0, h1, h2, h3, _, _⟩ :=
      fsRead_loop g s inum e0.curs (bfsGetSize s inum) numb buf hg hc0 hci.2 hs hn0 hn
    rw [hit] at hit2
    cases hit2
    refine ⟨fun hk => ?_, fun _ hmap => ?_⟩
    · rw [Int.tdiv_eq_ediv (by omega) (le_of_lt hg.1)]
      rcases h3 with h | h | h
      · omega
      · exact Or.inl h
      · exact Or.inr h
    · rcases h3 with h | h | h
      · rw [min_def, max_def]; split_ifs <;> omega
      · rw [min_def, max_def]; split_ifs <;> omega
      · by_cases hlt : e0.curs + k < min (e0.curs + numb) (bfsGetSize s inum)
        · have := hmap (e0.curs + k) (by omega) hlt
          rw [h] at this
          simp at this
        · rw [min_def] at hlt
          rw [min_def, max_def]
          split_ifs at hlt ⊢ <;> omega
  · obtain ⟨hr0, hcond⟩ := fsRead_loop_neg g s inum e0.curs (bfsGetSize s inum) numb buf _ _
      hg.1 hci (by omega) hit
    cases hr0
    refine ⟨fun hk => ?_, fun h => absurd h hc0⟩
    rcases hcond with h | h | h
    · omega
    · left; omega
    · right; simpa using h

theorem fsRead_short_witness :
    Reach g4 volHole ∧ bfsFdToInum volHole 0 = some 0 ∧ bfsTell volHole 0 = some 0 ∧
    bfsGetSize volHole 0 = 9 ∧
    ((0 : Int) < 4 → bfsGetSize volHole 0 ≤ 0 + 0 ∨
      bfsFbnToDbn volHole 0 (((0 : Int) + 0).tdiv g4.BYTESPERBLOCK) = none) :=
  ⟨volHole_reach, by decide, by decide, by decide,
    (fsRead_short g4 volHole _ 0 0 0 4 0 (fun _ => 0) _ (by decide) volHole_reach (by decide)
      (by decide) (by decide)
      (Res.ok_of_val (r := fsRead g4 volHole 0 4 (fun _ => 0)) (v := (0, _)) rfl)).1⟩

/-- C9, as stated, fails: from the fresh descriptor of `volA` (cursor 0),
`fsSeek(0, 2147483647, SEEK_SET)` and `fsSeek(0, 2147483647, SEEK_CUR)` both return
0, and the cursor is then -2: the second call is not rejected. -/
theorem cursor_negative_after_seek :
    bfsTell volA 0 = some 0 ∧
    (fsSeek volA 0 2147483647 SEEK_SET).val? = some 0 ∧
    (fsSeek volMax 0 2147483647 SEEK_CUR).val? = some 0 ∧
    (fsTell (fsSeek volMax 0 2147483647 SEEK_CUR).state 0).val? = some (-2) ∧
    ∃ e ∈ (fsSeek volMax 0 2147483647 SEEK_CUR).state.g_oft, e.curs < 0 := by
  decide

/-- C9, amended: from a volume whose cursors are non-negative (a freshly opened
descriptor has cursor 0), the cursor of every entry of the open file table stays
non-negative along calls of `fsSeek`, `fsRead` and `fsWrite` that return, as long
as the sum that `fsSeek` stores fits an `i32`; `fsSeek` rejects a negative offset
and leaves the state as it was. -/
theorem cursor_nonneg (g : Geom) (s0 s : Bfs) (hg : g.WF) (h0 : CursInv g s0)
    (hr : CursReach g s0 s) :
    (∀ e ∈ s.g_oft, 0 ≤ e.curs) ∧
    (∀ fd offset whence, offset < 0 → fsSeek s fd offset whence = .fatal .EBADCURS s) := by
  refine ⟨fun e he => ((CursInv_reach hg h0 hr).2.1 e he).1, ?_⟩
  intro fd offset whence hoff
  simp [fsSeek, hoff]

theorem cursor_nonneg_witness :
    g4.WF ∧ CursInv g4 volA ∧ CursReach g4 volA volMax ∧ (∀ e ∈ volMax.g_oft, 0 ≤ e.curs) :=
  have hr : CursReach g4 volA volMax :=
    CursReach.seek volA volMax 0 2147483647 SEEK_SET 0 CursReach.init (by decide)
      (Res.ok_of_val (by decide)) (fun h => absurd h (by decide)) (fun h => absurd h (by decide))
  ⟨by decide, volA_cursInv, hr, (cursor_nonneg g4 volA volMax (by decide) volA_cursInv hr).1⟩

/-- C15: `fsRead` and `fsWrite` with `numb < 0` fail with ENEGNUMB at their first
test, whatever `fd` and the buffer are, and the state at the abort is the state
before the call (nothing read, written or allocated, cursor and sizes unchanged);
with `numb >= 0` neither fails with ENEGNUMB. -/
theorem negative_count_rejected (g : Geom) (s : Bfs) (fd numb : Int) (buf : Int → Int) :
    (numb < 0 → fsRead g s fd numb buf = .fatal .ENEGNUMB s ∧
      fsWrite g s fd numb buf = .fatal .ENEGNUMB s) ∧
    (0 ≤ numb → (fsRead g s fd numb buf).err? ≠ some .ENEGNUMB ∧
      (fsWrite g s fd numb buf).err? ≠ some .ENEGNUMB) := by
  refine ⟨fun h => ⟨by simp [fsRead, h], by simp [fsWrite, h]⟩, fun h0 => ⟨?_, ?_⟩⟩
  · rcases fsRead_cases g s fd numb buf with ⟨hn, _⟩ | ⟨_, h⟩ |
      ⟨_, _, _, e, st, _, _, hit, h⟩ | ⟨_, _, _, _, _, _, _, _, h⟩
    · omega
    · rw [h]; simp [Res.err?]
    · rw [h]
      rcases iter_error hit with rfl | ⟨st2, hab⟩
      · simp [Res.err?]
      · rw [(fsReadBody_abort hab).1]; simp [Res.err?]
    · rcases h with ⟨e, s1, hs, h⟩ | ⟨v, s1, _, h⟩
      · rw [h]
        rcases fsSeek_err hs with rfl | rfl | rfl <;> simp [Res.err?]
      · rw [h]; simp [Res.err?]
  · rcases fsWrite_cases g s fd numb buf with ⟨hn, _⟩ | ⟨_, h⟩ |
      ⟨_, _, _, e, st, _, _, hit, h⟩ | ⟨_, _, _, _, _, _, _, _, h⟩
    · omega
    · rw [h]; simp [Res.err?]
    · rw [h]
      rcases iter_error hit with rfl | ⟨st2, hab⟩
      · simp [Res.err?]
      · rcases fsWriteBody_abort hab with ⟨rfl, _⟩ | ⟨rfl, _⟩ | rfl <;> simp [Res.err?]
    · rcases h with ⟨e, s1, hs, h⟩ | ⟨v, s1, s3, _, h⟩
      · rw [h]
        rcases fsSeek_err hs with rfl | rfl | rfl <;> simp [Res.err?]
      · rw [h]; simp [Res.err?]

theorem negative_count_rejected_witness :
    fsRead g4 volR 0 (-1) (fun _ => 0) = .fatal .ENEGNUMB volR ∧
    fsWrite g4 volR 0 (-1) (fun _ => 0) = .fatal .ENEGNUMB volR ∧
    (fsRead g4 volR 0 3 (fun _ => 0)).err? ≠ some .ENEGNUMB ∧
    (fsWrite g4 volR 0 3 (fun _ => 0)).err? ≠ some .ENEGNUMB :=
  ⟨((negative_count_rejected g4 volR 0 (-1) (fun _ => 0)).1 (by decide)).1,
    ((negative_count_rejected g4 volR 0 (-1) (fun _ => 0)).1 (by decide)).2,
    ((negative_count_rejected g4 volR 0 3 (fun _ => 0)).2 (by decide)).1,
    ((negative_count_rejected g4 volR 0 3 (fun _ => 0)).2 (by decide)).2⟩

/-- C20: whatever `fd`, `numb` and the buffer are, the state that `fsRead` leaves
has the same disk, inode table (sizes and block maps), free list and directory,
and in the open file table only the cursor of the entry found for the inode of
`fd` can differ; when `fsRead` returns `k` with `0 <= numb`, the buffer is
untouched outside its first `k` bytes. -/
theorem fsRead_frame (g : Geom) (s : Bfs) (fd numb : Int) (buf : Int → Int) :
    (fsRead g s fd numb buf).state.disk = s.disk ∧
    (fsRead g s fd numb buf).state.inodes = s.inodes ∧
    (fsRead g s fd numb buf).state.freeList = s.freeList ∧
    (fsRead g s fd numb buf).state.dir = s.dir ∧
    (fsRead g s fd numb buf).state.super = s.super ∧
    (fsRead g s fd numb buf).state.g_oft.length = s.g_oft.length ∧
    (∀ j e, s.g_oft[j]? = some e →
      ∃ e1, (fsRead g s fd numb buf).state.g_oft[j]? = some e1 ∧
        e1.inum = e.inum ∧ e1.refs = e.refs ∧
        (e1.curs ≠ e.curs →
          ∃ inum, bfsFdToInum s fd = some inum ∧ bfsFindOFTE s inum = some j)) ∧
    (numb < 2147483648 → ∀ k buf1 s1, fsRead g s fd numb buf = .ok (k, buf1) s1 →
      0 ≤ k ∧ k ≤ numb ∧ ∀ i, ¬ (0 ≤ i ∧ i < k) → buf1 i = buf i) := by
  have hbuf : numb < 2147483648 → ∀ k buf1 s1, fsRead g s fd numb buf = .ok (k, buf1) s1 →
      0 ≤ k ∧ k ≤ numb ∧ ∀ i, ¬ (0 ≤ i ∧ i < k) → buf1 i = buf i := by
    intro hn k buf1 s1 hr
    obtain ⟨hn0, inum, c, _, _, r1, hit, hr1⟩ := fsRead_ok_pre hr
    subst hr1
    exact fsRead_loop_frame hn0 hn hit
  rcases fsRead_state_eq g s fd numb buf with h | ⟨inum, ofte, f, hfd, ho, h⟩
  · rw [h]
    exact ⟨rfl, rfl, rfl, rfl, rfl, rfl,
      fun j e he => ⟨e, he, rfl, rfl, fun hne => absurd rfl hne⟩, hbuf⟩
  · rw [h]
    refine ⟨rfl, rfl, rfl, rfl, rfl, updCurs_length _ _ _, fun j e he => ?_, hbuf⟩
    obtain ⟨e1, h1, h2, h3, h4⟩ := oft_frame s ofte f j e he
    exact ⟨e1, h1, h2, h3, fun hne => ⟨inum, hfd, by rw [h4 hne]; exact ho⟩⟩

theorem fsRead_frame_witness :
    fsRead g4 volR 0 4 (fun _ => 0)
      = .ok (4, (fsRead g4 volR 0 4 (fun _ => 0)).val?.elim (fun _ => 0) (fun r => r.2))
          (fsRead g4 volR 0 4 (fun _ => 0)).state ∧
    (fsRead g4 volR 0 4 (fun _ => 0)).state.inodes = volR.inodes ∧
    ∀ i, ¬ (0 ≤ i ∧ i < 4) →
      (fsRead g4 volR 0 4 (fun _ => 0)).val?.elim (fun _ => 0) (fun r => r.2) i
        = (fun _ => 0) i :=
  have hr : fsRead g4 volR 0 4 (fun _ => 0)
      = .ok (4, (fsRead g4 volR 0 4 (fun _ => 0)).val?.elim (fun _ => 0) (fun r => r.2))
          (fsRead g4 volR 0 4 (fun _ => 0)).state := Res.ok_of_val rfl
  have h := fsRead_frame g4 volR 0 4 (fun _ => 0)
  ⟨hr, h.2.1, (h.2.2.2.2.2.2.2 (by decide) _ _ _ hr).2.2⟩

/-- C16: a call `fsWrite(fd, n, buf)` with `n >= 0` that returns, returns 0; its
loop ends with `bytesWritten = n`; the cursor afterwards is `c + n`. -/
theorem fsWrite_complete (g : Geom) (s : Bfs) (fd inum c numb v : Int) (buf : Int → Int)
    (s' : Bfs) (hg : g.WF) (hinv : VolInv g s) (hfd : bfsFdToInum s fd = some inum)
    (hc : bfsTell s fd = some c) (hci : isI32 c) (hn0 : 0 ≤ numb) (hn : numb < 2147483648)
    (hw : fsWrite g s fd numb buf = .ok v s') :
    v = 0 ∧
    (∃ s1, iter (fsWriteBody g inum c numb buf) numb.toNat (0, s) = .ok (numb, s1)) ∧
    fsTell s' fd = .ok (c + numb) s' := by
  obtain ⟨hv, _, _, _, _, _, _, htell, _⟩ :=
    fsWrite_ok_obs g s fd inum c numb v buf s' hg hfd hc hci hn0 hn hinv hw
  refine ⟨hv, ?_, by simp only [fsTell, htell]⟩
  rcases fsWrite_cases g s fd numb buf with ⟨_, h⟩ | ⟨_, h⟩ | ⟨_, _, _, _, _, _, _, _, h⟩ |
    ⟨_, inum1, c1, bw, s1, hfd1, hc1, hit, _⟩
  · rw [h] at hw; cases hw
  · rw [h] at hw; cases hw
  · rw [h] at hw; cases hw
  · rw [hfd] at hfd1; cases hfd1
    rw [hc] at hc1; cases hc1
    have := (fsWrite_loop_ok g s inum c numb buf hg hci hn0 hn hinv hit).2
    simp only at this
    subst this
    exact ⟨s1, hit⟩

theorem fsWrite_complete_witness :
    bfsFdToInum volR 0 = some 0 ∧ bfsTell volR 0 = some 1 ∧
    fsWrite g4 volR 0 9 (fun i => 50 + i) = .ok 0 volR10 ∧
    (∃ s1, iter (fsWriteBody g4 0 1 9 (fun i => 50 + i)) (9 : Int).toNat (0, volR)
      = .ok (9, s1)) ∧
    fsTell volR10 0 = .ok (1 + 9) volR10 :=
  have h := fsWrite_complete g4 volR 0 0 1 9 0 (fun i => 50 + i) volR10 (by decide) volR_inv
    (by decide) (by decide) (by decide) (by decide) (by decide) (Res.ok_of_val (by decide))
  ⟨by decide, by decide, Res.ok_of_val (by decide), h.2.1, h.2.2⟩

/-- C18: for `numb >= 0` and a cursor `c >= 0`, the loop of `fsRead` ends within
`numb` passes and the loop of `fsWrite` never runs out of them; every pass that
goes on transfers `bytesToRead` (in `fsWrite`: `bytesInBlock`) bytes, at least 1
and at most BYTESPERBLOCK, so after `n` passes `n <= numb`. -/
theorem loops_terminate (g : Geom) (s : Bfs) (inum c size numb : Int) (rbuf wbuf : Int → Int)
    (hg : g.WF) (hc0 : 0 ≤ c) (hc1 : c < 2147483648) (hs : size < 2147483648)
    (hn0 : 0 ≤ numb) (hn : numb < 2147483648) :
    (∃ r, iter (fsReadBody g s inum c size numb) numb.toNat (0, rbuf) = .ok r) ∧
    (∀ n st st1, LoopReach (fsReadBody g s inum c size numb) (0, rbuf) n st →
      fsReadBody g s inum c size numb st = .next st1 →
      st1.1 = st.1 + bytesToRead g c size numb st.1 ∧ 1 ≤ bytesToRead g c size numb st.1 ∧
      bytesToRead g c size numb st.1 ≤ g.BYTESPERBLOCK) ∧
    (∀ n st, LoopReach (fsReadBody g s inum c size numb) (0, rbuf) n st → (n : Int) ≤ numb) ∧
    (∀ st1, iter (fsWriteBody g inum c numb wbuf) numb.toNat (0, s) ≠ .error (.ENOTERM, st1)) ∧
    (∀ n st st1, LoopReach (fsWriteBody g inum c numb wbuf) (0, s) n st →
      fsWriteBody g inum c numb wbuf st = .next st1 →
      st1.1 = st.1 + bytesInBlock g c numb st.1 ∧ 1 ≤ bytesInBlock g c numb st.1 ∧
      bytesInBlock g c numb st.1 ≤ g.BYTESPERBLOCK) ∧
    (∀ n st, LoopReach (fsWriteBody g inum c numb wbuf) (0, s) n st → (n : Int) ≤ numb) := by
  refine ⟨?_, ?_, ?_, ?_, ?_, ?_⟩
  · obtain ⟨br, buf1, h, _⟩ := fsRead_loop g s inum c size numb rbuf hg hc0 hc1 hs hn0 hn
    exact ⟨_, h⟩
  · intro n st st1 hr hb
    obtain ⟨h1, h2, h3⟩ := fsRead_reach_inv g s inum c size numb rbuf hg hc0 hc1 hs hn0 hn hr
    obtain ⟨hlt, hpos, _, dbn, _, rfl⟩ := fsReadBody_next_copy hb
    have hadd : add32 c st.1 = c + st.1 := add32_eq ⟨by omega, by omega⟩
    rw [hadd] at hpos
    obtain ⟨_, _, b0, b1, b2, b3, _⟩ :=
      read_copy_exact g c size numb st.1 hg hc0 hs hn (by omega) hlt hpos
    have e4 : add32 st.1 (bytesToRead g c size numb st.1)
        = st.1 + bytesToRead g c size numb st.1 := add32_eq ⟨by omega, by omega⟩
    exact ⟨e4, b1, by omega⟩
  · intro n st hr
    obtain ⟨h1, h2, _⟩ := fsRead_reach_inv g s inum c size numb rbuf hg hc0 hc1 hs hn0 hn hr
    omega
  · refine iter_fuel (fsWriteBody g inum c numb wbuf) (fun st => 0 ≤ st.1 ∧ st.1 ≤ numb)
      (fun st => (numb - st.1).toNat) ?_ ?_ numb.toNat (0, s) ⟨le_refl _, hn0⟩ (by simp)
    · intro st st1 ⟨h0, h1⟩ hb
      obtain ⟨a, b, _, d⟩ := fsWriteBody_progress hg hn h0 hb
      refine ⟨⟨by omega, d⟩, ?_⟩
      show (numb - st1.1).toNat < (numb - st.1).toNat
      omega
    · intro st e st1 hb
      rcases fsWriteBody_abort hb with ⟨rfl, _⟩ | ⟨rfl, _⟩ | rfl <;> decide
  · intro n st st1 hr hb
    obtain ⟨h1, _⟩ := fsWrite_reach_count g s inum c numb wbuf hg hn0 hn hr
    obtain ⟨a, b, d, _⟩ := fsWriteBody_progress hg hn (by omega) hb
    exact ⟨a, b, d⟩
  · intro n st hr
    obtain ⟨h1, h2⟩ := fsWrite_reach_count g s inum c numb wbuf hg hn0 hn hr
    omega

theorem loops_terminate_witness :
    (∃ r, iter (fsReadBody g4 volR 0 1 6 4) (4 : Int).toNat (0, fun _ => 0) = .ok r) ∧
    (∀ st1, iter (fsWriteBody g4 0 1 9 (fun i => 50 + i)) (9 : Int).toNat (0, volR)
      ≠ .error (.ENOTERM, st1)) :=
  have h := loops_terminate g4 volR 0 1 6 4 (fun _ => 0) (fun i => 50 + i) (by decide)
    (by decide) (by decide) (by decide) (by decide) (by decide)
  have h2 := loops_terminate g4 volR 0 1 6 9 (fun _ => 0) (fun i => 50 + i) (by decide)
    (by decide) (by decide) (by decide) (by decide) (by decide)
  ⟨h.1, h2.2.2.2.1⟩

/-- C11, as stated, fails: on the volume `volOne` (one data block, holding the
bytes 10 .. 13 of a file of size 4, cursor 0) the call `fsWrite(0, 8, buf)` with
`buf[i] = 99` overwrites the block in its first pass and aborts with `EDISKFULL`
in the second; the size is still 4, but byte 0 of the file, which was 10, now
reads back as 99. -/
theorem diskfull_write_commits_bytes :
    Reach g1 volOne ∧
    (fsWrite g1 volOne 0 8 (fun _ => 99)).err? = some .EDISKFULL ∧
    bfsGetSize volOne 0 = 4 ∧
    bfsGetSize (fsWrite g1 volOne 0 8 (fun _ => 99)).state 0 = 4 ∧
    fileByte g1 volOne 0 0 = some 10 ∧
    fileByte g1 (fsWrite g1 volOne 0 8 (fun _ => 99)).state 0 0 = some 99 ∧
    (fsRead g1 volOne 0 1 (fun _ => 0)).val?.map (fun r => (r.1, r.2 0)) = some (1, 10) ∧
    (fsRead g1 (fsWrite g1 volOne 0 8 (fun _ => 99)).state 0 1 (fun _ => 0)).val?.map
      (fun r => (r.1, r.2 0)) = some (1, 99) :=
  ⟨volOne_reach, by decide, by decide, by decide, by decide, by decide, by decide, by decide⟩

/-- C11, amended: a call `fsWrite(fd, n, buf)` at cursor `c` that aborts with
`EDISKFULL` leaves every size, the open file table and the directory unchanged,
every byte of every other file unchanged, and every byte of the target file
outside `[c, c + bw)` unchanged, where `bw < n` is the number of bytes of the
passes before the abort; those `bw` bytes of `buf` are on the disk (the write is
not rolled back), and no block is free. -/
theorem fsWrite_diskfull (g : Geom) (s : Bfs) (fd inum c numb : Int) (buf : Int → Int)
    (s' : Bfs) (hg : g.WF) (hinv : VolInv g s) (hfd : bfsFdToInum s fd = some inum)
    (hc : bfsTell s fd = some c) (hci : isI32 c) (hn : numb < 2147483648)
    (hw : fsWrite g s fd numb buf = .fatal .EDISKFULL s') :
    (∀ i, bfsGetSize s' i = bfsGetSize s i) ∧ s'.g_oft = s.g_oft ∧ s'.dir = s.dir ∧
    (∀ i p b, i ≠ inum → fileByte g s i p = some b → fileByte g s' i p = some b) ∧
    ∃ bw, 0 ≤ bw ∧ bw < numb ∧ s'.freeList = [] ∧
      (∀ j, 0 ≤ j → j < bw → fileByte g s' inum (c + j) = some (buf j)) ∧
      (∀ p b, p < c ∨ c + bw ≤ p → fileByte g s inum p = some b →
        fileByte g s' inum p = some b) := by
  obtain ⟨bw, hlt, hfree, hI⟩ :=
    fsWrite_diskfull_inv g s fd inum c numb buf s' hg hinv hfd hc hci hn hw
  obtain ⟨h0, h1, h2, hinv1, hoft, hdir, hsup, hsz, hoth, hmono, hwr, hpre⟩ := hI
  simp only at h0 h1 h2 hinv1 hoft hdir hsup hsz hoth hmono hwr hpre
  refine ⟨hsz, hoft, hdir, ?_, bw, h0, hlt, hfree, ?_, ?_⟩
  · intro i p b hi hb
    refine fileByte_keep hg.1 (fun f d => hmono i f d) ?_ hb
    intro f d off hd ho0 ho1 _
    exact hpre i f d off hd ho0 ho1 (fun h => absurd h hi)
  · intro j hj0 hj1
    obtain ⟨d, hd1, hd2⟩ := hwr j hj0 hj1
    simp only [fileByte, hd1, Option.map_some', hd2]
  · intro p b hp hb
    refine fileByte_keep hg.1 (fun f d => hmono inum f d) ?_ hb
    intro f d off hd ho0 ho1 hfo
    exact hpre inum f d off hd ho0 ho1 (fun _ => by omega)

theorem fsWrite_diskfull_witness :
    bfsFdToInum volOne 0 = some 0 ∧ bfsTell volOne 0 = some 0 ∧
    (fsWrite g1 volOne 0 8 (fun _ => 99)).err? = some .EDISKFULL ∧
    (∀ i, bfsGetSize (fsWrite g1 volOne 0 8 (fun _ => 99)).state i = bfsGetSize volOne i) ∧
    (fsWrite g1 volOne 0 8 (fun _ => 99)).state.g_oft = volOne.g_oft :=
  have h := fsWrite_diskfull g1 volOne 0 0 0 8 (fun _ => 99)
    (fsWrite g1 volOne 0 8 (fun _ => 99)).state (by decide) (Reach_inv (by decide) volOne_reach).1
    (by decide) (by decide) (by decide) (by decide) (Res.fatal_of_err (by decide))
  ⟨by decide, by decide, by decide, h.1, h.2.1⟩

/-- C13, as stated, fails: the volume `volHole` is reached from a formatted volume
by `fsCreate`, `fsSeek(0, 8, SEEK_SET)`, `fsWrite(0, 1, buf)` and
`fsSeek(0, 0, SEEK_SET)`; its file has size 9, so `ceil(9 / 4) - 1 = 2`, and the
FBNs 0 and 1 of it have no block. -/
theorem size_without_block :
    Reach g4 volHole ∧ bfsGetSize volHole 0 = 9 ∧
    (0 : Int) ≤ (bfsGetSize volHole 0 + g4.BYTESPERBLOCK - 1) / g4.BYTESPERBLOCK - 1 ∧
    bfsFbnToDbn volHole 0 0 = none ∧ bfsFbnToDbn volHole 0 1 = none ∧ ¬ Dense g4 volHole :=
  ⟨volHole_reach, by decide, by decide, by decide, by decide,
    fun h => by
      obtain ⟨d, hd⟩ := h 0 0 (by decide) (by decide)
      have hnone : bfsFbnToDbn volHole 0 0 = none := by decide
      rw [hnone] at hd
      cases hd⟩

/-- C13, amended: in every state reached from a formatted volume through
`fsCreate`, `fsOpen`, `fsSeek`, `fsRead`, `fsWrite` and `fsClose`, where every
`fsWrite` was issued with the cursor at or below the size of the file, every
inode with recorded size `s` has a block for every FBN in
`0 .. ceil(s / BYTESPERBLOCK) - 1`. -/
theorem dense_block_map (g : Geom) (s : Bfs) (hg : g.WF) (hr : DenseReach g s) :
    ∀ i f, 0 ≤ f → f ≤ (bfsGetSize s i + g.BYTESPERBLOCK - 1) / g.BYTESPERBLOCK - 1 →
      ∃ d, bfsFbnToDbn s i f = some d := by
  have hD : Dense g s := by
    induction hr with
    | fresh => exact Dense_format g _ hg
    | format s _ _ => exact Dense_format g s hg
    | create s s1 fname r _ h ih => exact Dense_create hg h ih
    | opened s s1 fname r _ h ih => exact Dense_congr (fsOpen_frame_ok h).1 ih
    | closed s s1 fd v _ h ih => exact Dense_congr (fsClose_frame_ok h).1 ih
    | seek s s1 fd offset whence v _ _ h ih => exact Dense_congr (fsSeek_frame_ok h).1 ih
    | read s s1 fd numb buf r _ _ h ih => exact Dense_congr (fsRead_frame_ok h).1 ih
    | write s s1 fd numb v buf hr0 hn hle h ih =>
      obtain ⟨_, inum, c, hfd, hc⟩ := fsWrite_ok_pre h
      obtain ⟨hv, ht⟩ := Reach_inv hg (DenseReach_reach hr0)
      exact Dense_write hg hv hfd hc (bfsTell_typed ht hfd hc) hn.2 (hle inum c hfd hc) h ih
  exact hD

theorem dense_block_map_witness :
    DenseReach g4 volW ∧ bfsGetSize volW 0 = 6 ∧
    ∃ d, bfsFbnToDbn volW 0 1 = some d :=
  have hr : DenseReach g4 volW :=
    DenseReach.write volA volW 0 6 0 (fun i => 10 + i)
      (DenseReach.create (fsFormat g4 (boot g4)).state volA "a.txt" (some 0) DenseReach.fresh
        (Res.ok_of_val (by decide)))
      (by decide)
      (fun inum c h1 h2 => by
        have e1 : inum = 0 := by
          have : bfsFdToInum volA 0 = some 0 := by decide
          rw [this] at h1; cases h1; rfl
        have e2 : c = 0 := by
          have : bfsTell volA 0 = some 0 := by decide
          rw [this] at h2; cases h2; rfl
        subst e1; subst e2; decide)
      (Res.ok_of_val (by decide))
  ⟨hr, by decide, dense_block_map g4 volW (by decide) hr 0 1 (by decide) (by decide)⟩

/-- C17: a call `fsWrite(fd, n, buf)` at cursor `c` that returns, with `n >= 1`:
pass `k` of its loop touches the FBN `c / BYTESPERBLOCK + k`, and the passes touch
every FBN from `c / BYTESPERBLOCK` to `(c + n - 1) / BYTESPERBLOCK`; a touched FBN
that had no block has got one that was free; the block map is unchanged at every
other inode and FBN; the free list has lost, from its head, one block for each
touched FBN that had no block; if every touched FBN had a block, the free list and
the block map are unchanged. With any `n >= 0` an FBN that had a block keeps it,
and with `n = 0` the free list and the block map are unchanged. -/
theorem alloc_on_miss (g : Geom) (s : Bfs) (fd inum c numb v : Int) (buf : Int → Int)
    (s' : Bfs) (hg : g.WF) (hinv : VolInv g s) (hfd : bfsFdToInum s fd = some inum)
    (hc : bfsTell s fd = some c) (hci : isI32 c) (hn0 : 0 ≤ numb) (hn : numb < 2147483648)
    (hw : fsWrite g s fd numb buf = .ok v s') :
    (1 ≤ numb →
      (∀ k st, LoopReach (fsWriteBody g inum c numb buf) (0, s) k st → st.1 < numb →
        (add32 c st.1).tdiv g.BYTESPERBLOCK = c / g.BYTESPERBLOCK + k ∧
        c / g.BYTESPERBLOCK + k ≤ (c + numb - 1) / g.BYTESPERBLOCK) ∧
      (∀ f, c / g.BYTESPERBLOCK ≤ f → f ≤ (c + numb - 1) / g.BYTESPERBLOCK →
        ∃ st, LoopReach (fsWriteBody g inum c numb buf) (0, s)
            (f - c / g.BYTESPERBLOCK).toNat st ∧
          st.1 < numb ∧ (add32 c st.1).tdiv g.BYTESPERBLOCK = f) ∧
      (∀ f, c / g.BYTESPERBLOCK ≤ f → f ≤ (c + numb - 1) / g.BYTESPERBLOCK →
        bfsFbnToDbn s inum f = none →
        ∃ d, d ∈ s.freeList ∧ bfsFbnToDbn s' inum f = some d) ∧
      (∀ i f, (i ≠ inum ∨ f < c / g.BYTESPERBLOCK ∨ (c + numb - 1) / g.BYTESPERBLOCK < f) →
        bfsFbnToDbn s' i f = bfsFbnToDbn s i f) ∧
      (∃ news, s.freeList = news ++ s'.freeList ∧
        news.length = ((List.range
            ((c + numb - 1) / g.BYTESPERBLOCK - c / g.BYTESPERBLOCK + 1).toNat).filter
          (fun (j : Nat) => (bfsFbnToDbn s inum (c / g.BYTESPERBLOCK + (j : Int))).isNone)).length) ∧
      ((∀ f, c / g.BYTESPERBLOCK ≤ f → f ≤ (c + numb - 1) / g.BYTESPERBLOCK →
          bfsFbnToDbn s inum f ≠ none) →
        s'.freeList = s.freeList ∧ ∀ i f, bfsFbnToDbn s' i f = bfsFbnToDbn s i f)) ∧
    (∀ i f d, bfsFbnToDbn s i f = some d → bfsFbnToDbn s' i f = some d) ∧
    (numb = 0 → s'.freeList = s.freeList ∧ ∀ i f, bfsFbnToDbn s' i f = bfsFbnToDbn s i f) := by
  obtain ⟨s1, hit, hfl, _, hmap⟩ :=
    fsWrite_ok_loop g s fd inum c numb v buf s' hg hfd hc hci hn0 hn hinv hw
  obtain ⟨_, _, hcn, _, _, _, _, _, _, _, hmono, _⟩ :=
    fsWrite_ok_obs g s fd inum c numb v buf s' hg hfd hc hci hn0 hn hinv hw
  refine ⟨fun hn1 => ?_, hmono, fun h0 => ?_⟩
  · have hc0 : 0 ≤ c := by rcases hcn with h | h <;> omega
    obtain ⟨K, hK1, hK2, a1, a2, a3, a4, news, a5, a6⟩ :=
      fsWrite_alloc_final g s inum c numb buf hg hci hn1 hn hinv hit
    simp only at a3 a4 a5 a6
    have hframe : ∀ i f, (i ≠ inum ∨ f < c / g.BYTESPERBLOCK ∨
        (c + numb - 1) / g.BYTESPERBLOCK < f) → bfsFbnToDbn s' i f = bfsFbnToDbn s i f := by
      intro i f hcond
      rw [hmap]
      refine a3 i f ?_
      rcases hcond with h1 | h1 | h1
      · exact Or.inl h1
      · exact Or.inr (Or.inl h1)
      · exact Or.inr (Or.inr (by omega))
    refine ⟨?_, ?_, ?_, hframe, ⟨news, ?_, ?_⟩, ?_⟩
    · intro k st hr hlt
      exact fsWrite_touch g s inum c numb buf hg hci hc0 hn0 hn hinv hr hlt
    · intro f hf0 hf1
      have hk : c / g.BYTESPERBLOCK + ((f - c / g.BYTESPERBLOCK).toNat : Int)
          ≤ (c + numb - 1) / g.BYTESPERBLOCK := by omega
      obtain ⟨st, hr, hlt⟩ :=
        fsWrite_touch_all g s inum c numb buf hg hci hn1 hn hinv hit _ hk
      refine ⟨st, hr, hlt, ?_⟩
      rw [(fsWrite_touch g s inum c numb buf hg hci hc0 hn0 hn hinv hr hlt).1]
      omega
    · intro f hf0 hf1 hnone
      obtain ⟨d, hd1, hd2⟩ := a4 f hf0 (by omega) hnone
      exact ⟨d, hd1, by rw [hmap]; exact hd2⟩
    · rw [hfl]; exact a5
    · rw [hK1]; exact a6
    · intro hall
      have hlen : news.length = 0 := by
        rw [a6, List.length_eq_zero, List.filter_eq_nil_iff]
        intro j hj
        have hj1 := List.mem_range.mp hj
        have := hall (c / g.BYTESPERBLOCK + (j : Int)) (by omega) (by omega)
        cases hm : bfsFbnToDbn s inum (c / g.BYTESPERBLOCK + (j : Int)) with
        | none => exact absurd hm this
        | some d => simp
      have hnil : news = [] := List.length_eq_zero.mp hlen
      rw [hnil] at a5
      refine ⟨by rw [hfl, a5]; rfl, fun i f => ?_⟩
      by_cases hcond : i ≠ inum ∨ f < c / g.BYTESPERBLOCK ∨
          (c + numb - 1) / g.BYTESPERBLOCK < f
      · exact hframe i f hcond
      · have hi : i = inum := by
          by_contra hne
          exact hcond (Or.inl hne)
        subst hi
        cases hm : bfsFbnToDbn s i f with
        | none => exact absurd hm (hall f (by omega) (by omega))
        | some d => exact hmono i f d hm
  · subst h0
    have hd : fsWriteBody g inum c 0 buf (0, s) = .done (0, s) := by simp [fsWriteBody]
    rw [iter_done hd] at hit
    simp only [Except.ok.injEq, Prod.mk.injEq, true_and] at hit
    subst hit
    exact ⟨hfl, hmap⟩

theorem alloc_on_miss_witness :
    VolInv g4 volR ∧ bfsFdToInum volR 0 = some 0 ∧ bfsTell volR 0 = some 1 ∧
    fsWrite g4 volR 0 9 (fun i => 50 + i) = .ok 0 volR10 ∧
    (∀ i f d, bfsFbnToDbn volR i f = some d → bfsFbnToDbn volR10 i f = some d) ∧
    (∃ news, volR.freeList = news ++ volR10.freeList ∧
      news.length = ((List.range
          ((1 + 9 - 1) / g4.BYTESPERBLOCK - 1 / g4.BYTESPERBLOCK + 1).toNat).filter
        (fun (j : Nat) =>
          (bfsFbnToDbn volR 0 (1 / g4.BYTESPERBLOCK + (j : Int))).isNone)).length) :=
  have h := alloc_on_miss g4 volR 0 0 1 9 0 (fun i => 50 + i) volR10 (by decide) volR_inv
    (by decide) (by decide) (by decide) (by decide) (by decide) (Res.ok_of_val (by decide))
  ⟨volR_inv, by decide, by decide, Res.ok_of_val (by decide), h.2.1,
    (h.1 (by decide)).2.2.2.2.1⟩

/-- C12: when the same name is opened twice with `fsOpen`, giving `fd1` and then
`fd2`, both descriptors are the same entry of the open file table, bound to the
same inode, with the same cursor `c`. Whichever of the two a `fsSeek`, `fsRead` or
`fsWrite` that returns goes through, `fsTell` through either of them then returns
the cursor that the call has stored: `offset`, `c + offset` or `size + offset` for
`fsSeek` (SEEK_SET, SEEK_CUR, SEEK_END), `c + k` for a `fsRead` that returned `k`,
and `c + bytesWritten` for `fsWrite`, where `bytesWritten` is `numb`; the sums are
those of `i32`. -/
theorem reopen_shares_cursor (g : Geom) (s s1 s2 : Bfs) (fname : String) (fd1 fd2 : Int)
    (h1 : fsOpen s fname = .ok (some fd1) s1) (h2 : fsOpen s1 fname = .ok (some fd2) s2) :
    fd2 = fd1 ∧
    (∃ inum ofte, bfsFdToInum s2 fd1 = some inum ∧ bfsFdToInum s2 fd2 = some inum ∧
      bfsFindOFTE s2 inum = some ofte ∧ fd1 = ofte ∧ fd2 = ofte) ∧
    ∃ inum c, bfsFdToInum s2 fd1 = some inum ∧ bfsFdToInum s2 fd2 = some inum ∧
      fsTell s2 fd1 = .ok c s2 ∧ fsTell s2 fd2 = .ok c s2 ∧
      ∀ fda fdb, (fda = fd1 ∨ fda = fd2) → (fdb = fd1 ∨ fdb = fd2) →
        (∀ offset whence v s3, fsSeek s2 fda offset whence = .ok v s3 →
          ∃ c1, ((whence = SEEK_SET ∧ c1 = offset) ∨
              (whence = SEEK_CUR ∧ c1 = add32 c offset) ∨
              (whence = SEEK_END ∧ c1 = add32 (bfsGetSize s2 inum) offset)) ∧
            fsTell s3 fda = .ok c1 s3 ∧ fsTell s3 fdb = .ok c1 s3) ∧
        (∀ numb buf k buf1 s3, fsRead g s2 fda numb buf = .ok (k, buf1) s3 →
          fsTell s3 fda = .ok (add32 c k) s3 ∧ fsTell s3 fdb = .ok (add32 c k) s3) ∧
        (∀ numb buf v s3, fsWrite g s2 fda numb buf = .ok v s3 →
          ∃ bw sl, iter (fsWriteBody g inum c numb buf) numb.toNat (0, s2) = .ok (bw, sl) ∧
            (g.WF → numb < 2147483648 → bw = numb) ∧
            fsTell s3 fda = .ok (add32 c bw) s3 ∧ fsTell s3 fdb = .ok (add32 c bw) s3) := by
  obtain ⟨inum, hl1, hb1⟩ := fsOpen_ok h1
  obtain ⟨k1, hk1, hf1, _, hdir, _⟩ := bfsInumToFd_ok hb1
  obtain ⟨inum2, hl2, hb2⟩ := fsOpen_ok h2
  have hi : inum2 = inum := by
    unfold bfsLookupFile at hl1 hl2
    rw [hdir, hl1] at hl2
    cases hl2; rfl
  subst hi
  obtain ⟨k2, hk2, hf2, hfd2, _⟩ := bfsInumToFd_ok hb2
  have hfd : fd2 = fd1 := by
    unfold bfsInumToFd at hb2
    simp only [hf1, Except.ok.injEq, Prod.mk.injEq] at hb2
    rw [hk1, ← hb2.1]
  subst hfd
  obtain ⟨e0, _, hc⟩ := bfsTell_some hfd2 hf2
  refine ⟨rfl, ⟨inum2, k2, hfd2, hfd2, hf2, hk2, hk2⟩, inum2, e0.curs, hfd2, hfd2,
    by simp only [fsTell, hc], by simp only [fsTell, hc], ?_⟩
  intro fda fdb hda hdb
  have ha : bfsFdToInum s2 fda = some inum2 := by rcases hda with h | h <;> rw [h] <;> exact hfd2
  have hb : bfsFdToInum s2 fdb = some inum2 := by rcases hdb with h | h <;> rw [h] <;> exact hfd2
  have hca : bfsTell s2 fda = some e0.curs := by
    rw [bfsTell_same_inum ha hfd2]; exact hc
  refine ⟨?_, ?_, ?_⟩
  · intro offset whence v s3 hs
    obtain ⟨_, _, c1, hcase, t1, t2⟩ := fsSeek_tell_shared ha hb hca hs
    exact ⟨c1, hcase, by simp only [fsTell, t1], by simp only [fsTell, t2]⟩
  · intro numb buf k buf1 s3 hr
    obtain ⟨t1, t2⟩ := fsRead_tell_shared ha hb hca hr
    exact ⟨by simp only [fsTell, t1], by simp only [fsTell, t2]⟩
  · intro numb buf v s3 hw
    obtain ⟨bw, sl, hit, hbw, t1, t2⟩ := fsWrite_tell_shared ha hb hca hw
    exact ⟨bw, sl, hit, hbw, by simp only [fsTell, t1], by simp only [fsTell, t2]⟩

theorem reopen_shares_cursor_witness :
    fsOpen volW "a.txt" = .ok (some 0) (fsOpen volW "a.txt").state ∧
    fsOpen (fsOpen volW "a.txt").state "a.txt" = .ok (some 0) volOpen2 ∧
    fsTell volOpen2 0 = .ok 6 volOpen2 ∧
    fsTell (fsSeek volOpen2 0 3 SEEK_SET).state 0
      = .ok 3 (fsSeek volOpen2 0 3 SEEK_SET).state ∧
    fsTell (fsWrite g4 volOpen2 0 2 (fun _ => 0)).state 0
      = .ok (add32 6 2) (fsWrite g4 volOpen2 0 2 (fun _ => 0)).state := by
  have hr := reopen_shares_cursor g4 volW _ volOpen2 "a.txt" 0 0 (Res.ok_of_val (by decide))
    (Res.ok_of_val (by decide))
  obtain ⟨_, _, inum, c, _, _, htell, _, hall⟩ := hr
  have hc : c = 6 := by
    have h6 : (fsTell volOpen2 0).val? = some 6 := by decide
    rw [htell] at h6
    simpa [Res.val?] using h6
  subst hc
  obtain ⟨c1, hcase, _, ht⟩ :=
    (hall 0 0 (Or.inl rfl) (Or.inr rfl)).1 3 SEEK_SET 0 (fsSeek volOpen2 0 3 SEEK_SET).state
      (Res.ok_of_val (by decide))
  have hc1 : c1 = 3 := by
    rcases hcase with ⟨_, h⟩ | ⟨hw, _⟩ | ⟨hw, _⟩
    · exact h
    · exact absurd hw (by decide)
    · exact absurd hw (by decide)
  subst hc1
  obtain ⟨bw, _, _, hbw, _, htw⟩ :=
    (hall 0 0 (Or.inl rfl) (Or.inr rfl)).2.2 2 (fun _ => 0) 0
      (fsWrite g4 volOpen2 0 2 (fun _ => 0)).state (Res.ok_of_val (by decide))
  have hb2 : bw = 2 := hbw (by decide) (by decide)
  subst hb2
  exact ⟨Res.ok_of_val (by decide), Res.ok_of_val (by decide), htell, ht, htw⟩

end BFS
